import Mathlib

/-!
# Verification of the vv-ai-prompt-format core

A shallow embedding, in Lean 4, of the TypeScript sources of the
`vv-ai-prompt-format` repository: the `key=value` option-line decoder
(`parseOptionValue`), the options codec (`parseOptionsToObject`), the
schema-driven validator (`PromtOptionsParse`), the grammar validator
(`GrammarCheck`, a JSON parse + pretty-print), the line-oriented record
parser (`PromtLoad` / `parse`) and serializer (`PromtStore` / `serialize`),
and the vendor projection `ToPromtOptionsLlamaCpp`.

Modelling conventions (standard idealizations, stated once here):
* JavaScript numbers are modelled as exact rationals (`ℚ`).  No claim under
  study depends on binary floating-point rounding; every numeric literal in
  the program and every number produced by its decimal parsers is an exact
  decimal fraction.  `NaN` is modelled by `Option.none` of the numeric
  parsers; the infinities are collapsed into the parse-failure case, which
  no field of the closed option schema can store (every numeric field either
  has a finite upper bound or is integer-typed).
* JavaScript strings are modelled as Lean `String`s (sequences of Unicode
  scalar values); lone UTF-16 surrogates are not representable and a
  `\uXXXX` escape denoting one decodes to U+FFFD unless it completes a
  surrogate pair.
* JavaScript objects are modelled as insertion-ordered association lists;
  assigning to an existing key updates in place, assigning a fresh key
  appends.  (`JSON.parse`'s special numeric-key reordering is not modelled.)
* `String.prototype.trim` is modelled over the ASCII whitespace characters
  space, tab, LF, VT, FF and CR.
* `Number.prototype.toString` is modelled by exact shortest-decimal
  printing without the exponent notation JavaScript switches to outside
  `[1e-6, 1e21)`; both notations re-parse to the same value, which is all
  the theorems below use.

Everything is executable: all predicates are decidable and all functions
computable, so every concrete scenario can be settled by `decide`.
-/

namespace VvPromt

/-! ## Characters, trimming, line splitting -/

/-- The quotation-mark character. -/
def dq : Char := Char.ofNat 34

/-- The apostrophe character. -/
def sq : Char := Char.ofNat 39

/-- The backslash character. -/
def bs : Char := Char.ofNat 92

/-- The opening curly bracket character. -/
def obr : Char := Char.ofNat 123

/-- The closing curly bracket character. -/
def cbr : Char := Char.ofNat 125

/-- Whitespace for the model of `String.prototype.trim` and of the leading
skip of `parseFloat`: space, tab, LF, VT, FF, CR. -/
def isJsSpace (c : Char) : Bool :=
  c = ' ' || c = '\t' || c = '\n' || c = '\r' || c = Char.ofNat 11 || c = Char.ofNat 12

/-- Left trim on character lists. -/
def trimLeft (cs : List Char) : List Char := cs.dropWhile isJsSpace

/-- Right trim on character lists. -/
def trimRight (cs : List Char) : List Char := (trimLeft cs.reverse).reverse

/-- The model of `String.prototype.trim`, on character lists. -/
def trimC (cs : List Char) : List Char := trimRight (trimLeft cs)

/-- The model of `content.split('\n')` on character lists: split at every
LF, keeping empty chunks, never returning the empty list. -/
def splitNl : List Char → List (List Char)
  | [] => [[]]
  | c :: rest =>
    if c = '\n' then [] :: splitNl rest
    else
      match splitNl rest with
      | [] => [[c]]
      | l :: ls => (c :: l) :: ls

/-- The model of `lines.join('\n')`. -/
def joinNl : List (List Char) → List Char
  | [] => []
  | [l] => l
  | l :: l2 :: rest => l ++ '\n' :: joinNl (l2 :: rest)

theorem splitNl_ne_nil (cs : List Char) : splitNl cs ≠ [] := by
  cases cs with
  | nil => simp [splitNl]
  | cons c rest =>
    simp only [splitNl]
    split
    · simp
    · split <;> simp

theorem splitNl_cons_of_ne (c : Char) (rest : List Char) (h : c ≠ '\n') :
    splitNl (c :: rest) =
      (c :: (splitNl rest).headI) :: (splitNl rest).tail := by
  simp only [splitNl, if_neg h]
  cases hs : splitNl rest with
  | nil => exact absurd hs (splitNl_ne_nil rest)
  | cons l ls => simp [List.headI]

/-- Splitting distributes over an interior newline. -/
theorem splitNl_append_nl (a b : List Char) :
    splitNl (a ++ '\n' :: b) = splitNl a ++ splitNl b := by
  induction a with
  | nil => simp [splitNl]
  | cons c rest ih =>
    by_cases hc : c = '\n'
    · subst hc
      simp only [List.cons_append, splitNl, if_pos rfl]
      simp [ih]
    · rw [List.cons_append, splitNl_cons_of_ne c _ hc, splitNl_cons_of_ne c rest hc, ih]
      cases hs : splitNl rest with
      | nil => exact absurd hs (splitNl_ne_nil rest)
      | cons l ls => simp [List.headI]

/-- A chunk with no interior newline splits into itself. -/
theorem splitNl_no_nl (l : List Char) (h : '\n' ∉ l) : splitNl l = [l] := by
  induction l with
  | nil => simp [splitNl]
  | cons c rest ih =>
    have hc : c ≠ '\n' := fun e => h (e ▸ List.mem_cons_self c rest)
    have hrest : '\n' ∉ rest := fun m => h (List.mem_cons_of_mem c m)
    rw [splitNl_cons_of_ne c rest hc, ih hrest]
    simp [List.headI]

/-- Splitting a newline-join of newline-free chunks recovers the chunks. -/
theorem splitNl_joinNl (ls : List (List Char)) (hne : ls ≠ [])
    (hfree : ∀ l ∈ ls, '\n' ∉ l) : splitNl (joinNl ls) = ls := by
  induction ls with
  | nil => exact absurd rfl hne
  | cons l rest ih =>
    cases rest with
    | nil =>
      simp only [joinNl]
      exact splitNl_no_nl l (hfree l (List.mem_cons_self l []))
    | cons l2 rest2 =>
      have hjoin : joinNl (l :: l2 :: rest2) = l ++ '\n' :: joinNl (l2 :: rest2) := rfl
      rw [hjoin, splitNl_append_nl, splitNl_no_nl l (hfree l (List.mem_cons_self l _)),
        ih (by simp) (fun x hx => hfree x (List.mem_cons_of_mem l hx))]
      simp

/-! ## Decimal digits and numbers -/

/-- ASCII decimal digit test. -/
def isDigitC (c : Char) : Bool := 48 ≤ c.toNat && c.toNat ≤ 57

/-- The value of an ASCII digit character. -/
def charDigit (c : Char) : Nat := c.toNat - 48

/-- The ASCII digit character for `d < 10`. -/
def digitChar (d : Nat) : Char := Char.ofNat (48 + d)

/-- Decimal digit characters of `n`, least significant first, fuel-based so
that the kernel can evaluate it (`fuel = n` always suffices). -/
def natDigitsAux : Nat → Nat → List Char
  | 0, _ => []
  | fuel + 1, n => if n = 0 then [] else digitChar (n % 10) :: natDigitsAux fuel (n / 10)

/-- Decimal digit characters of a natural number, most significant first. -/
def natDigitsStr (n : Nat) : List Char :=
  if n = 0 then ['0'] else (natDigitsAux n n).reverse

/-- The number denoted by a (possibly zero-padded) digit string. -/
def natVal (cs : List Char) : Nat := cs.foldl (fun a c => 10 * a + charDigit c) 0

/-- Pad on the left with `c` up to length `n`. -/
def leftPad (c : Char) (n : Nat) (cs : List Char) : List Char :=
  List.replicate (n - cs.length) c ++ cs

/-- The smallest `k ≤ d` with `d ∣ 10 ^ k`; exists whenever `d` has no prime
factor other than 2 and 5. -/
def decExp (d : Nat) : Option Nat :=
  (List.range (d + 1)).find? (fun k => decide (d ∣ 10 ^ k))

/-- The model of `Number.prototype.toString` on an exact decimal rational:
sign, integer digits, and a fractional part when the denominator is not 1.
(The fallback branch is unreachable for values of JavaScript numbers, whose
denominators are powers of two.) -/
def printNum (q : ℚ) : List Char :=
  match decExp q.den with
  | none => ['0']
  | some k =>
    let m : Nat := q.num.natAbs * 10 ^ k / q.den
    let padded := leftPad '0' (k + 1) (natDigitsStr m)
    let ip := padded.take (padded.length - k)
    let fp := padded.drop (padded.length - k)
    (if q.num < 0 then ['-'] else []) ++ ip ++ (if k = 0 then [] else '.' :: fp)

/-- Drop one leading sign character. -/
def signStrip (cs : List Char) : List Char :=
  match cs with
  | c :: r => if c = '-' || c = '+' then r else cs
  | [] => []

/-- The model of `parseFloat`: skip leading whitespace, then read the longest
prefix of the form `[+-]? digits [. digits]? ([eE] [+-]? digits)?` (with at
least one digit before or after the dot); `none` models `NaN`. -/
def parseFloatQ (cs : List Char) : Option ℚ :=
  let s := trimLeft cs
  let sign : ℤ := match s.head? with | some c => if c = '-' then -1 else 1 | none => 1
  let s1 := signStrip s
  let ip := s1.takeWhile isDigitC
  let r1 := s1.drop ip.length
  let fp := match r1 with
    | c :: r => if c = '.' then r.takeWhile isDigitC else []
    | [] => []
  let r2 := match r1 with
    | c :: r => if c = '.' then r.drop fp.length else r1
    | [] => r1
  if ip = [] && fp = [] then none
  else
    let e : ℤ := match r2 with
      | c :: r =>
        if c = 'e' || c = 'E' then
          match r with
          | c2 :: r3 =>
            if c2 = '-' then
              (let ds := r3.takeWhile isDigitC; if ds = [] then 0 else -(natVal ds : ℤ))
            else if c2 = '+' then
              (let ds := r3.takeWhile isDigitC; if ds = [] then 0 else (natVal ds : ℤ))
            else
              (let ds := r.takeWhile isDigitC; if ds = [] then 0 else (natVal ds : ℤ))
          | [] => 0
        else 0
      | [] => 0
    some (mkRat (sign * (natVal ip * 10 ^ fp.length + natVal fp) * 10 ^ e.toNat)
      (10 ^ fp.length * 10 ^ (-e).toNat))

/-- The model of `String.prototype.replace` with a single-character pattern:
replace only the first occurrence. -/
def replaceFirstC (a b : Char) : List Char → List Char
  | [] => []
  | c :: rest => if c = a then b :: rest else c :: replaceFirstC a b rest

/-! ## JSON values

`JVal` models the JavaScript values this library passes around: results of
`JSON.parse`, raw option values, and validated option values. -/

inductive JVal where
  | jnull
  | jbool (b : Bool)
  | jnum (q : ℚ)
  | jstr (s : String)
  | jarr (elems : List JVal)
  | jobj (fields : List (String × JVal))

mutual

/-- Boolean equality on `JVal`. -/
def beqJ : JVal → JVal → Bool
  | .jnull, .jnull => true
  | .jbool a, .jbool b => a == b
  | .jnum a, .jnum b => a == b
  | .jstr a, .jstr b => a == b
  | .jarr a, .jarr b => beqListJ a b
  | .jobj a, .jobj b => beqFieldsJ a b
  | _, _ => false

/-- Boolean equality on `JVal` lists. -/
def beqListJ : List JVal → List JVal → Bool
  | [], [] => true
  | x :: xs, y :: ys => beqJ x y && beqListJ xs ys
  | _, _ => false

/-- Boolean equality on `JVal` field lists. -/
def beqFieldsJ : List (String × JVal) → List (String × JVal) → Bool
  | [], [] => true
  | (k1, v1) :: xs, (k2, v2) :: ys => k1 == k2 && beqJ v1 v2 && beqFieldsJ xs ys
  | _, _ => false

end

mutual

theorem beqJ_iff : ∀ a b : JVal, beqJ a b = true ↔ a = b
  | .jnull, b => by cases b <;> simp [beqJ]
  | .jbool x, b => by cases b <;> simp [beqJ]
  | .jnum x, b => by cases b <;> simp [beqJ]
  | .jstr x, b => by cases b <;> simp [beqJ]
  | .jarr xs, b => by
    cases b <;> simp only [beqJ, beqListJ_iff xs _] <;> simp
  | .jobj fs, b => by
    cases b <;> simp only [beqJ, beqFieldsJ_iff fs _] <;> simp

theorem beqListJ_iff : ∀ a b : List JVal, beqListJ a b = true ↔ a = b
  | [], b => by cases b <;> simp [beqListJ]
  | x :: xs, b => by
    cases b with
    | nil => simp [beqListJ]
    | cons y ys =>
      simp [beqListJ, beqJ_iff x y, beqListJ_iff xs ys]

theorem beqFieldsJ_iff : ∀ a b : List (String × JVal), beqFieldsJ a b = true ↔ a = b
  | [], b => by cases b <;> simp [beqFieldsJ]
  | (k1, v1) :: xs, b => by
    cases b with
    | nil => simp [beqFieldsJ]
    | cons y ys =>
      match y with
      | (k2, v2) =>
        simp [beqFieldsJ, beqJ_iff v1 v2, beqFieldsJ_iff xs ys, and_assoc,
          Prod.ext_iff]

end

instance : DecidableEq JVal := fun a b => decidable_of_iff (beqJ a b = true) (beqJ_iff a b)

/-- JSON whitespace (the four characters `JSON.parse` skips). -/
def isJsonWs (c : Char) : Bool := c = ' ' || c = '\t' || c = '\n' || c = '\r'

/-- Skip JSON whitespace. -/
def skipWsJ (cs : List Char) : List Char := cs.dropWhile isJsonWs

/-- The value of a hexadecimal digit character. -/
def hexDigitVal (c : Char) : Option Nat :=
  if 48 ≤ c.toNat && c.toNat ≤ 57 then some (c.toNat - 48)
  else if 97 ≤ c.toNat && c.toNat ≤ 102 then some (c.toNat - 97 + 10)
  else if 65 ≤ c.toNat && c.toNat ≤ 70 then some (c.toNat - 65 + 10)
  else none

/-- The value of four hexadecimal digits. -/
def hex4Val (a b c d : Char) : Option Nat := do
  let va ← hexDigitVal a
  let vb ← hexDigitVal b
  let vc ← hexDigitVal c
  let vd ← hexDigitVal d
  return ((va * 16 + vb) * 16 + vc) * 16 + vd

/-- Decode a single-character escape after a backslash. -/
def unescapeJ (c : Char) : Option Char :=
  if c = dq then some dq
  else if c = bs then some bs
  else if c = '/' then some '/'
  else if c = 'n' then some '\n'
  else if c = 'r' then some '\r'
  else if c = 't' then some '\t'
  else if c = 'b' then some (Char.ofNat 8)
  else if c = 'f' then some (Char.ofNat 12)
  else none

/-- The scalar a `\uXXXX` code unit denotes on its own (a lone surrogate is
not a scalar and decodes to U+FFFD; see the header notes). -/
def codeUnitChar (n : Nat) : Char :=
  if 55296 ≤ n && n ≤ 57343 then Char.ofNat 65533 else Char.ofNat n

/-- After a high-surrogate `\uXXXX` escape whose value is `n`: pair it with
an immediately following low-surrogate escape (then both become one scalar),
or emit the lone unit's `codeUnitChar`.  Returns the characters to append
(in order) and the remaining input; `none` is a malformed second `\u`. -/
def scanLowStep (n : Nat) (cs : List Char) : Option (List Char × List Char) :=
  match cs with
  | b2 :: 'u' :: a2 :: b3 :: c3 :: d3 :: r3 =>
    if b2 = bs then
      match hex4Val a2 b3 c3 d3 with
      | some n2 =>
        if 56320 ≤ n2 && n2 ≤ 57343 then
          some ([Char.ofNat (65536 + (n - 55296) * 1024 + (n2 - 56320))], r3)
        else some ([codeUnitChar n, codeUnitChar n2], r3)
      | none => none
    else some ([codeUnitChar n], cs)
  | _ => some ([codeUnitChar n], cs)

theorem scanLowStep_length (n : Nat) (cs : List Char) (chs r : List Char)
    (h : scanLowStep n cs = some (chs, r)) : r.length ≤ cs.length := by
  unfold scanLowStep at h
  split at h
  · split at h
    · split at h
      · split at h <;> (simp at h; obtain ⟨-, rfl⟩ := h; simp only [List.length_cons]; omega)
      · exact absurd h (by simp)
    · simp at h; obtain ⟨-, rfl⟩ := h; simp only [List.length_cons]; omega
  · simp at h; obtain ⟨-, rfl⟩ := h; omega

/-- String-body scanner of the JSON parser: consumes up to the closing
quote, decoding escapes (including `\uXXXX` and surrogate pairs), rejecting
raw control characters and bad escapes, as `JSON.parse` does.  Fuel-based
(every step consumes at least one character, so `cs.length + 1` always
suffices, which is what every caller passes). -/
def scanJStr : Nat → List Char → List Char → Option (String × List Char)
  | 0, _, _ => none
  | fuel + 1, acc, cs =>
    match cs with
    | [] => none
    | c :: rest =>
      if c = dq then some (String.mk acc.reverse, rest)
      else if c = bs then
        match rest with
        | 'u' :: a :: b :: c1 :: d1 :: r2 =>
          match hex4Val a b c1 d1 with
          | none => none
          | some n =>
            if 55296 ≤ n && n ≤ 56319 then
              match scanLowStep n r2 with
              | none => none
              | some (chs, r4) => scanJStr fuel (chs.reverse ++ acc) r4
            else scanJStr fuel (codeUnitChar n :: acc) r2
        | e :: r2 =>
          match unescapeJ e with
          | some ch => scanJStr fuel (ch :: acc) r2
          | none => none
        | [] => none
      else if c.toNat < 32 then none
      else scanJStr fuel (c :: acc) rest

/-- The strict JSON integer part: `0`, or a digit run not led by `0`. -/
def numIntP : List Char → Option (List Char × List Char)
  | [] => none
  | c :: r =>
    if c = '0' then some (['0'], r)
    else if isDigitC c then
      some ((c :: r).takeWhile isDigitC, (c :: r).dropWhile isDigitC)
    else none

/-- The optional JSON fraction part: a dot demands at least one digit. -/
def numFracP : List Char → Option (List Char × List Char)
  | c2 :: r2 =>
    if c2 = '.' then
      let ds := r2.takeWhile isDigitC
      if ds = [] then none else some (ds, r2.dropWhile isDigitC)
    else some ([], c2 :: r2)
  | [] => some ([], [])

/-- The optional JSON exponent part: `e`/`E`, optional sign, digits. -/
def numExpP : List Char → Option (ℤ × List Char)
  | c3 :: r3 =>
    if c3 = 'e' || c3 = 'E' then
      let (esign, r4) : ℤ × List Char :=
        match r3 with
        | c4 :: r5 =>
          if c4 = '-' then (-1, r5) else if c4 = '+' then (1, r5) else (1, r3)
        | [] => (1, r3)
      let ds := r4.takeWhile isDigitC
      if ds = [] then none else some (esign * (natVal ds : ℤ), r4.dropWhile isDigitC)
    else some (0, c3 :: r3)
  | [] => some (0, [])

/-- Strict JSON number parser: `-? int frac? exp?`, where `int` is `0` or a
nonzero-led digit run, `frac` needs at least one digit, and so does `exp`. -/
def parseJNum (cs : List Char) : Option (ℚ × List Char) :=
  let (neg, s1) : Bool × List Char :=
    match cs with
    | c :: r => if c = '-' then (true, r) else (false, cs)
    | [] => (false, [])
  match numIntP s1 with
  | none => none
  | some (ip, r1) =>
    match numFracP r1 with
    | none => none
    | some (fp, r2) =>
      match numExpP r2 with
      | none => none
      | some (ex, r3) =>
        let sign : ℤ := if neg then -1 else 1
        some (mkRat (sign * (natVal ip * 10 ^ fp.length + natVal fp) * 10 ^ ex.toNat)
          (10 ^ fp.length * 10 ^ (-ex).toNat), r3)

mutual

/-- JavaScript object assignment `m[k] = v`: update in place, else append. -/
def insertOrUpdate {α : Type} (m : List (String × α)) (k : String) (v : α) :
    List (String × α) :=
  if m.any (fun kv => kv.1 = k) then
    m.map (fun kv => if kv.1 = k then (k, v) else kv)
  else m ++ [(k, v)]

/-- Building a JavaScript object from parsed members in order: each member
is assigned with `object[key] = value`, so a duplicated key keeps its first
position but its last value. -/
def collectFields (fs : List (String × JVal)) : List (String × JVal) :=
  fs.foldl (fun m kv => insertOrUpdate m kv.1 kv.2) []

/-- The JSON value parser (the model of `JSON.parse`, fuel-based). -/
def parseValJ : Nat → List Char → Option (JVal × List Char)
  | 0, _ => none
  | fuel + 1, cs =>
    match skipWsJ cs with
    | [] => none
    | c :: rest =>
      if c = dq then
        match scanJStr (rest.length + 1) [] rest with
        | some (s, r) => some (.jstr s, r)
        | none => none
      else if c = '[' then
        match skipWsJ rest with
        | ']' :: r => some (.jarr [], r)
        | r => match parseElemsJ fuel r with
          | some (es, r2) => some (.jarr es, r2)
          | none => none
      else if c = obr then
        match skipWsJ rest with
        | r =>
          if r.head? = some cbr then some (.jobj [], r.tail)
          else match parseFieldsJ fuel r with
            | some (fs, r2) => some (.jobj (collectFields fs), r2)
            | none => none
      else if c = 'n' then
        match rest with
        | 'u' :: 'l' :: 'l' :: r => some (.jnull, r)
        | _ => none
      else if c = 't' then
        match rest with
        | 'r' :: 'u' :: 'e' :: r => some (.jbool true, r)
        | _ => none
      else if c = 'f' then
        match rest with
        | 'a' :: 'l' :: 's' :: 'e' :: r => some (.jbool false, r)
        | _ => none
      else if c = '-' || isDigitC c then
        match parseJNum (c :: rest) with
        | some (q, r) => some (.jnum q, r)
        | none => none
      else none

/-- One-or-more comma-separated array elements, then `]`. -/
def parseElemsJ : Nat → List Char → Option (List JVal × List Char)
  | 0, _ => none
  | fuel + 1, cs =>
    match parseValJ fuel cs with
    | none => none
    | some (v, r) =>
      match skipWsJ r with
      | ',' :: r2 =>
        match parseElemsJ fuel r2 with
        | some (vs, r3) => some (v :: vs, r3)
        | none => none
      | ']' :: r2 => some ([v], r2)
      | _ => none

/-- One-or-more comma-separated object members, then the closing bracket. -/
def parseFieldsJ : Nat → List Char → Option (List (String × JVal) × List Char)
  | 0, _ => none
  | fuel + 1, cs =>
    match skipWsJ cs with
    | c :: rest =>
      if c = dq then
        match scanJStr (rest.length + 1) [] rest with
        | none => none
        | some (k, r1) =>
          match skipWsJ r1 with
          | ':' :: r2 =>
            match parseValJ fuel r2 with
            | none => none
            | some (v, r3) =>
              match skipWsJ r3 with
              | ',' :: r4 =>
                match parseFieldsJ fuel r4 with
                | some (fs, r5) => some ((k, v) :: fs, r5)
                | none => none
              | c2 :: r4 => if c2 = cbr then some ([(k, v)], r4) else none
              | [] => none
          | _ => none
      else none
    | [] => none

end

/-- The model of `JSON.parse` on a whole string: parse one value, then
require only whitespace to remain. -/
def jsonParseFull (cs : List Char) : Option JVal :=
  match parseValJ (cs.length + 1) cs with
  | some (v, rest) => if skipWsJ rest = [] then some v else none
  | none => none

/-! ## JSON rendering -/

/-- The hexadecimal digit character for `d < 16` (lowercase). -/
def lowHexDigit (d : Nat) : Char :=
  if d < 10 then Char.ofNat (48 + d) else Char.ofNat (97 + d - 10)

/-- One character of a JSON string body, escaped as `JSON.stringify` does. -/
def escapeCharJ (c : Char) : List Char :=
  if c = dq then [bs, dq]
  else if c = bs then [bs, bs]
  else if c = '\n' then [bs, 'n']
  else if c = '\r' then [bs, 'r']
  else if c = '\t' then [bs, 't']
  else if c = Char.ofNat 8 then [bs, 'b']
  else if c = Char.ofNat 12 then [bs, 'f']
  else if c.toNat < 32 then
    [bs, 'u', '0', '0', lowHexDigit (c.toNat / 16), lowHexDigit (c.toNat % 16)]
  else [c]

/-- A JSON string body, escaped. -/
def escStr (s : String) : List Char := (s.data.map escapeCharJ).flatten

/-- A quoted, escaped JSON string literal. -/
def renderStrJ (s : String) : List Char := dq :: (escStr s ++ [dq])

mutual

/-- JSON renderer, parameterized by the layout whitespace: `gap d` follows
every opening bracket, comma and (at the enclosing depth) precedes every
closing bracket, and `cg` follows every object colon.  With empty gaps this
is `JSON.stringify(v)`; with newline-and-indent gaps it is
`JSON.stringify(v, null, 2)`. -/
def renderJ (gap : Nat → List Char) (cg : List Char) : Nat → JVal → List Char
  | _, .jnull => "null".data
  | _, .jbool true => "true".data
  | _, .jbool false => "false".data
  | _, .jnum q => printNum q
  | _, .jstr s => renderStrJ s
  | _, .jarr [] => ['[', ']']
  | d, .jarr (x :: xs) =>
    '[' :: (gap (d + 1) ++ renderElemsJ gap cg (d + 1) (x :: xs) ++ gap d ++ [']'])
  | _, .jobj [] => [obr, cbr]
  | d, .jobj (f :: fs) =>
    obr :: (gap (d + 1) ++ renderFieldsJ gap cg (d + 1) ((f :: fs)) ++ gap d ++ [cbr])

/-- Comma-separated rendered elements. -/
def renderElemsJ (gap : Nat → List Char) (cg : List Char) (d : Nat) :
    List JVal → List Char
  | [] => []
  | [x] => renderJ gap cg d x
  | x :: y :: ys =>
    renderJ gap cg d x ++ ',' :: (gap d ++ renderElemsJ gap cg d (y :: ys))

/-- Comma-separated rendered members. -/
def renderFieldsJ (gap : Nat → List Char) (cg : List Char) (d : Nat) :
    List (String × JVal) → List Char
  | [] => []
  | [(k, v)] => renderStrJ k ++ ':' :: (cg ++ renderJ gap cg d v)
  | (k, v) :: g :: gs =>
    renderStrJ k ++ ':' :: (cg ++ renderJ gap cg d v)
      ++ ',' :: (gap d ++ renderFieldsJ gap cg d (g :: gs))

end

/-- The empty layout: `JSON.stringify(v)`. -/
def gapNone : Nat → List Char := fun _ => []

/-- The two-space-indent layout: `JSON.stringify(v, null, 2)`. -/
def gapPretty : Nat → List Char := fun d => '\n' :: List.replicate (2 * d) ' '

/-- The model of `JSON.stringify(v)`. -/
def renderCompact (v : JVal) : List Char := renderJ gapNone [] 0 v

/-- The model of `JSON.stringify(v, null, 2)`. -/
def renderPretty (v : JVal) : List Char := renderJ gapPretty [' '] 0 v

/-- The model of `GrammarCheck`: blank text or unparseable text gives the
empty result; otherwise the canonical two-space-indented form. -/
def GrammarCheck (cs : List Char) : List Char :=
  if trimC cs = [] then []
  else
    match jsonParseFull cs with
    | some v => renderPretty v
    | none => []

/-! ## Option field schemas and validation

The typed bounds of the two profile schemas (`SPromtOptions` and
`SPromtOptionsJson`) coincide — they are both built from the shared
`PromtValue` table and differ only in the `default` annotations, which
`Value.Check` ignores — so one `propSchema` table serves both. -/

inductive FieldSchema where
  | number (lo hi : ℚ)
  | integer (lo : ℚ) (hi : Option ℚ)
  | boolean
  | strArray
deriving DecidableEq

/-- The model of `Value.Check(propertySchema, value)` (TypeBox): a type test
plus the declared inclusive bounds; integers additionally require
`Number.isInteger`; string arrays require every element to be a string. -/
def checkJ : FieldSchema → JVal → Bool
  | .number lo hi, .jnum q => lo ≤ q && q ≤ hi
  | .integer lo hi, .jnum q =>
    q.den = 1 && lo ≤ q && (match hi with | some h => decide (q ≤ h) | none => true)
  | .boolean, .jbool _ => true
  | .strArray, .jarr xs => xs.all (fun x => match x with | .jstr _ => true | _ => false)
  | _, _ => false

/-- The per-field declared type and bounds (`PromtValue` / schema table). -/
def propSchema : String → Option FieldSchema
  | "temperature" => some (.number 0 2)
  | "topP" => some (.number 0 1)
  | "topK" => some (.integer 1 (some 1000))
  | "minP" => some (.number 0 1)
  | "maxTokens" => some (.integer 1 (some 131072))
  | "repeatPenalty" => some (.number (-2) 2)
  | "repeatPenaltyNum" => some (.integer 0 (some 2048))
  | "presencePenalty" => some (.number (-2) 2)
  | "frequencyPenalty" => some (.number (-2) 2)
  | "mirostat" => some (.integer 0 (some 2))
  | "mirostatTau" => some (.number 0 10)
  | "mirostatEta" => some (.number 0 1)
  | "penalizeNewline" => some .boolean
  | "stopSequences" => some .strArray
  | "trimWhitespace" => some .boolean
  | "seed" => some (.integer 0 none)
  | _ => none

/-- The `defVal` table (profile `'core'`), in source declaration order. -/
def defVal : List (String × JVal) :=
  [("temperature", .jnum (mkRat 8 10)), ("topP", .jnum (mkRat 9 10)), ("topK", .jnum 40),
   ("minP", .jnum 0), ("maxTokens", .jnum 128), ("repeatPenalty", .jnum (mkRat 11 10)),
   ("repeatPenaltyNum", .jnum 64), ("presencePenalty", .jnum 0),
   ("frequencyPenalty", .jnum (mkRat 11 10)), ("mirostat", .jnum 0),
   ("mirostatTau", .jnum 5), ("mirostatEta", .jnum (mkRat 1 10)),
   ("penalizeNewline", .jbool true), ("stopSequences", .jarr []),
   ("trimWhitespace", .jbool true)]

/-- The `defValJson` table (profile `'json'`), in source declaration order. -/
def defValJson : List (String × JVal) :=
  [("temperature", .jnum 0), ("topP", .jnum (mkRat 1 10)), ("topK", .jnum 10),
   ("minP", .jnum 0), ("maxTokens", .jnum 4096), ("repeatPenalty", .jnum 1),
   ("repeatPenaltyNum", .jnum 0), ("presencePenalty", .jnum 0),
   ("frequencyPenalty", .jnum 0), ("mirostat", .jnum 0),
   ("mirostatTau", .jnum 5), ("mirostatEta", .jnum (mkRat 1 10)),
   ("penalizeNewline", .jbool false), ("stopSequences", .jarr []),
   ("trimWhitespace", .jbool true)]

/-- The schema selector: `'core'` or `'json'`. -/
inductive Use where
  | core
  | json
deriving DecidableEq

/-- The defaults table of a profile. -/
def defaultsOf : Use → List (String × JVal)
  | .core => defVal
  | .json => defValJson

/-- A validated option record: a JavaScript object whose entries may be
explicitly `undefined` (`none`), in insertion order. -/
abbrev TPromtOptions := List (String × Option JVal)

/-- JavaScript property read `m[k]` on the association-list object model:
the value at the (unique) matching key. -/
def assocGet {α : Type} (k : String) : List (String × α) → Option α
  | [] => none
  | kv :: rest => if kv.1 = k then some kv.2 else assocGet k rest

/-- A decoded option value as JavaScript holds it: a finite value
(embeddable as `JVal`), or one of the two infinities that `parseFloat` can
produce. -/
inductive DecVal where
  | fin (v : JVal)
  | infty (neg : Bool)
deriving DecidableEq

/-- The `Infinity` alternative of `parseFloat`'s grammar: after leading
whitespace and an optional sign, the keyword `Infinity`. -/
def infLead (cs : List Char) : Bool :=
  "Infinity".data.isPrefixOf (signStrip (trimLeft cs))

/-- Whether `parseFloat` reads a negative sign. -/
def negLead (cs : List Char) : Bool :=
  decide ((trimLeft cs).head? = some '-')

/-- `Value.Check` on a decoded value: TypeBox's default number policy
(`IsNumberLike`) requires `Number.isFinite`, so both infinities fail every
field schema; a finite value uses the field's own check. -/
def checkDec (s : FieldSchema) : DecVal → Bool
  | .fin v => checkJ s v
  | .infty _ => false

/-- The model of `PromtOptionsParse`: walk the defaults table in declaration
order — a missing raw entry contributes the default only under
`useAllOptions`; a present raw entry is kept when `Value.Check` passes (so
never an infinity) and otherwise falls back to the same default-or-omit
rule — then handle `seed` separately: included exactly when supplied and
passing its check, never defaulted.  (Keys of the defaults table are
distinct and distinct from `seed`, so the JavaScript assignments are
appends.) -/
def PromtOptionsParse (use : Use) (raw : List (String × DecVal))
    (useAllOptions : Bool) : TPromtOptions :=
  let base := (defaultsOf use).foldl (fun result kd =>
    match assocGet kd.1 raw with
    | none => if useAllOptions then result ++ [(kd.1, some kd.2)] else result
    | some (.fin v) =>
      match propSchema kd.1 with
      | some sch =>
        if checkJ sch v then result ++ [(kd.1, some v)]
        else if useAllOptions then result ++ [(kd.1, some kd.2)] else result
      | none => if useAllOptions then result ++ [(kd.1, some kd.2)] else result
    | some (.infty _) =>
      if useAllOptions then result ++ [(kd.1, some kd.2)] else result) []
  match assocGet "seed" raw with
  | none => base
  | some (.fin v) =>
    match propSchema "seed" with
    | some sch => if checkJ sch v then base ++ [("seed", some v)] else base
    | none => base
  | some (.infty _) => base

/-! ## The value decoder and the options codec -/

/-- Quote-stripping: remove one matching pair of surrounding single or
double quotes (a single quote character is its own pair, as in the source's
`startsWith`/`endsWith` pair of tests). -/
def stripQuotes (cs : List Char) : List Char :=
  if (cs.head? = some dq && cs.getLast? = some dq)
      || (cs.head? = some sq && cs.getLast? = some sq)
  then (cs.drop 1).dropLast
  else cs

/-- The model of `parseOptionValue`: empty text is no value; text starting
with `[` (the original, un-quote-stripped text) that `JSON.parse`s to an
array is that array; otherwise boolean tokens, case-insensitively on the
quote-stripped text; otherwise `parseFloat` after replacing the first `,`
of the quote-stripped text by `.`. -/
def parseOptionValue (valueStr : List Char) : Option DecVal :=
  if valueStr = [] then none
  else
    let cleanValue := stripQuotes valueStr
    let arrParsed : Option DecVal :=
      if valueStr.head? = some '[' then
        match jsonParseFull valueStr with
        | some (.jarr xs) => some (.fin (.jarr xs))
        | _ => none
      else none
    match arrParsed with
    | some a => some a
    | none =>
      let lower := cleanValue.map Char.toLower
      if lower = "true".data || lower = "1".data || lower = "y".data then
        some (.fin (.jbool true))
      else if lower = "false".data || lower = "0".data || lower = "n".data then
        some (.fin (.jbool false))
      else if infLead (replaceFirstC ',' '.' cleanValue) then
        some (.infty (negLead (replaceFirstC ',' '.' cleanValue)))
      else
        match parseFloatQ (replaceFirstC ',' '.' cleanValue) with
        | some q => some (.fin (.jnum q))
        | none => none


/-- The model of `parseOptionsToObject`: per line, skip blank lines and
lines whose first `=` is missing or at position 0; otherwise the trimmed
left of the first `=` is the key and the decoded trimmed right is the
value, dropped when the decoder gives no value; later keys overwrite. -/
def parseOptionsToObject (content : List Char) : List (String × DecVal) :=
  (splitNl content).foldl (fun options line =>
    let trimmed := trimC line
    if trimmed = [] then options
    else
      match trimmed.findIdx? (fun c => c = '=') with
      | none => options
      | some 0 => options
      | some i =>
        let key := trimC (trimmed.take i)
        let valueStr := trimC (trimmed.drop (i + 1))
        match parseOptionValue valueStr with
        | some v => insertOrUpdate options (String.mk key) v
        | none => options) []

/-! ## Prompt records, the record parser, and the record serializer -/

/-- A parsed prompt record (`TPromt`).  `Option` fields model property
presence; a present-but-empty string is distinct from an absent one. -/
structure TPromt where
  system : Option String
  user : String
  options : Option TPromtOptions
  segment : Option (List (String × String))
  grammar : Option String
deriving DecidableEq

/-- The in-progress record of the parser (`Partial<TPromt>`). -/
structure PPromt where
  system : Option String := none
  user : Option String := none
  options : Option TPromtOptions := none
  segment : Option (List (String × String)) := none
  grammar : Option String := none
deriving DecidableEq

/-- The current-section tag of the parser. -/
inductive Sect where
  | system
  | user
  | segment
  | options
  | grammar
deriving DecidableEq

/-- The model of `finishSection`: join the buffered lines, trim, and store
into the in-progress record (for `segment` only under a nonempty name; for
`options` through the codec and the validator with `useAllOptions = false`;
for `grammar` only when `GrammarCheck` succeeds). -/
def finishSection (p : PPromt) (sec : Sect) (lines : List (List Char))
    (use : Use) (segName : Option String) : PPromt :=
  let content := trimC (joinNl lines)
  match sec with
  | .system => { p with system := some (String.mk content) }
  | .user => { p with user := some (String.mk content) }
  | .segment =>
    match segName with
    | some nm =>
      if nm ≠ "" then
        { p with segment := some (insertOrUpdate (p.segment.getD []) nm (String.mk content)) }
      else p
    | none => p
  | .options =>
    { p with options := some (PromtOptionsParse use (parseOptionsToObject content) false) }
  | .grammar =>
    let validated := GrammarCheck content
    if validated ≠ [] then { p with grammar := some (String.mk validated) } else p

/-- The parser state: the loop variables of `parse`. -/
structure PState where
  inBlock : Bool
  cur : Option PPromt
  sec : Option Sect
  segName : Option String
  buf : List (List Char)
  out : List TPromt
deriving DecidableEq

/-- The initial parser state. -/
def initState : PState := ⟨false, none, none, none, [], []⟩

/-- Flush the pending section (if one is selected and has buffered content)
into the in-progress record. -/
def flushPending (use : Use) (st : PState) (p : PPromt) : PPromt :=
  match st.sec with
  | some sec => if st.buf ≠ [] then finishSection p sec st.buf use st.segName else p
  | none => p

/-- The flush-and-emit step shared by `begin`, `end` and end-of-input: flush
the pending section, then append the record when its `user` is truthy. -/
def emitted (use : Use) (st : PState) : List TPromt :=
  match st.cur with
  | some p =>
    if st.inBlock then
      let p2 := flushPending use st p
      match p2.user with
      | some u =>
        if u ≠ "" then st.out ++ [⟨p2.system, u, p2.options, p2.segment, p2.grammar⟩]
        else st.out
      | none => st.out
    else st.out
  | none => st.out

/-- List-prefix test. -/
def leadsWith : List Char → List Char → Bool
  | [], _ => true
  | _ :: _, [] => false
  | p :: ps, c :: cs => p = c && leadsWith ps cs

/-- The flush performed on every section-marker transition. -/
def flushCur (use : Use) (st : PState) : PPromt :=
  match st.cur with
  | some p => flushPending use st p
  | none => {}

/-- One line of the parser state machine (`parse`'s loop body). -/
def stepLine (use : Use) (st : PState) (line : List Char) : PState :=
  let trimmed := trimC line
  if trimmed = "$$begin".data then
    ⟨true, some {}, none, none, [], emitted use st⟩
  else if trimmed = "$$end".data then
    ⟨false, none, none, none, [], emitted use st⟩
  else if !(st.inBlock && st.cur.isSome) then st
  else if trimmed = "$$system".data then
    { st with cur := some (flushCur use st), sec := some .system, segName := none, buf := [] }
  else if trimmed = "$$user".data then
    { st with cur := some (flushCur use st), sec := some .user, segName := none, buf := [] }
  else if trimmed = "$$options".data then
    { st with cur := some (flushCur use st), sec := some .options, segName := none, buf := [] }
  else if trimmed = "$$grammar".data then
    { st with cur := some (flushCur use st), sec := some .grammar, segName := none, buf := [] }
  else if leadsWith "$$segment=".data trimmed then
    { st with cur := some (flushCur use st), sec := some .segment, segName := some (String.mk (trimC (trimmed.drop 10))), buf := [] }
  else
    match st.sec with
    | some _ => { st with buf := st.buf ++ [line] }
    | none => st

/-- The record parser over a list of lines, with the end-of-input flush. -/
def parseLines (use : Use) (lines : List (List Char)) : List TPromt :=
  emitted use (lines.foldl (stepLine use) initState)

/-- The model of `parse`: split into lines and run the state machine. -/
def parse (content : List Char) (use : Use) : List TPromt :=
  parseLines use (splitNl content)

/-- The model of `PromtLoad`. -/
def PromtLoad (raw : String) (use : Use) : List TPromt := parse raw.data use

mutual

/-- The model of a template-literal interpolation `${value}`
(`String(value)`), as `serializeOptionValue` applies it to non-array,
non-`undefined` values; defined on all of `JVal` for totality. -/
def jsToString : JVal → List Char
  | .jnull => "null".data
  | .jbool true => "true".data
  | .jbool false => "false".data
  | .jnum q => printNum q
  | .jstr s => s.data
  | .jobj _ => "[object Object]".data
  | .jarr xs => jsArrJoin xs

/-- `Array.prototype.toString`: elements joined by commas, `null` as empty. -/
def jsArrJoin : List JVal → List Char
  | [] => []
  | [x] => (match x with | .jnull => [] | v => jsToString v)
  | x :: y :: rest =>
    (match x with | .jnull => [] | v => jsToString v) ++ ',' :: jsArrJoin (y :: rest)

end

/-- The model of `serializeOptionValue`: a bare `key=` line for an
`undefined` value, `JSON.stringify` for arrays, `String(value)` otherwise. -/
def serializeOptionValue (k : String) (v : Option JVal) : List Char :=
  match v with
  | none => k.data ++ ['=']
  | some (.jarr xs) => k.data ++ '=' :: renderCompact (.jarr xs)
  | some val => k.data ++ '=' :: jsToString val

/-- The model of `serialize`'s `result` array: the pushed entries, in
order.  An entry may span several lines once joined. -/
def serializeEntries (promts : List TPromt) : List (List Char) :=
  promts.foldl (fun result p =>
    let r1 := result ++ ["$$begin".data]
    let r2 :=
      match p.options with
      | some os =>
        (r1 ++ ["$$options".data]) ++ os.map (fun kv => serializeOptionValue kv.1 kv.2)
      | none => r1
    let r3 :=
      match p.system with
      | some s => if s ≠ "" then r2 ++ ["$$system".data, s.data] else r2
      | none => r2
    let r4 := r3 ++ ["$$user".data, p.user.data]
    let r5 :=
      match p.grammar with
      | some g => if g ≠ "" then r4 ++ ["$$grammar".data, g.data] else r4
      | none => r4
    let r6 :=
      match p.segment with
      | some segs =>
        r5 ++ (segs.map (fun kv => ["$$segment=".data ++ kv.1.data, kv.2.data])).flatten
      | none => r5
    r6 ++ ["$$end".data]) []

/-- The model of `serialize`: the entries joined by newlines. -/
def serialize (promts : List TPromt) : List Char := joinNl (serializeEntries promts)

/-- The model of `PromtStore`. -/
def PromtStore (promts : List TPromt) : String := String.mk (serialize promts)

/-! ## The vendor-C adapter (`ToPromtOptionsLlamaCpp`) -/

/-- `options.key !== undefined`, on the option-record model. -/
def getOpt (opts : TPromtOptions) (k : String) : Option JVal :=
  match assocGet k opts with
  | some (some v) => some v
  | _ => none

/-- Conditional field copy (`if (x !== undefined) result.k = x`). -/
def addIf (r : List (String × JVal)) (k : String) : Option JVal → List (String × JVal)
  | some v => r ++ [(k, v)]
  | none => r

/-- `value.length` where JavaScript gives a number (arrays, strings). -/
def jsLen : JVal → Option Nat
  | .jarr xs => some xs.length
  | .jstr s => some s.length
  | _ => none

/-- `Object.keys(value).length`. -/
def jsKeysLen : JVal → Nat
  | .jobj fs => fs.length
  | .jarr xs => xs.length
  | .jstr s => s.length
  | _ => 0

/-- The model of `ToPromtOptionsLlamaCpp`: field copies in source order,
then the nested `repeatPenalty` sub-object, built only when at least one of
its five source fields is present, each spread in only when present. -/
def ToPromtOptionsLlamaCpp (options : TPromtOptions) : List (String × JVal) :=
  let r := addIf [] "temperature" (getOpt options "temperature")
  let r := addIf r "topP" (getOpt options "topP")
  let r := addIf r "topK" (getOpt options "topK")
  let r := addIf r "minP" (getOpt options "minP")
  let r := addIf r "maxTokens" (getOpt options "maxTokens")
  let r := addIf r "seed" (getOpt options "seed")
  let r := addIf r "trimWhitespaceSuffix" (getOpt options "trimWhitespace")
  let r :=
    match getOpt options "stopSequences" with
    | some v =>
      match jsLen v with
      | some n => if n > 0 then r ++ [("customStopTriggers", v)] else r
      | none => r
    | none => r
  let r :=
    match getOpt options "tokenBias" with
    | some v => if jsKeysLen v > 0 then r ++ [("tokenBias", v)] else r
    | none => r
  let r := addIf r "evaluationPriority" (getOpt options "evaluationPriority")
  let r := addIf r "contextShiftSize" (getOpt options "contextShiftSize")
  let r := addIf r "disableContextShift" (getOpt options "disableContextShift")
  let hasRepeatPenalty :=
    (getOpt options "repeatPenalty").isSome
      || (getOpt options "repeatPenaltyNum").isSome
      || (getOpt options "frequencyPenalty").isSome
      || (getOpt options "presencePenalty").isSome
      || (getOpt options "penalizeNewline").isSome
  if hasRepeatPenalty then
    let sub := addIf (addIf (addIf (addIf (addIf [] "penalty"
      (getOpt options "repeatPenalty"))
      "lastTokens" (getOpt options "repeatPenaltyNum"))
      "frequencyPenalty" (getOpt options "frequencyPenalty"))
      "presencePenalty" (getOpt options "presencePenalty"))
      "penalizeNewLine" (getOpt options "penalizeNewline")
    r ++ [("repeatPenalty", .jobj sub)]
  else r

/-! ## Declarative companions used by the theorems -/

/-- The contribution of one defaults-table entry to a validated record:
keep a passing raw value; otherwise the default under `useAllOptions`,
nothing without it. -/
def entryFor (use : Use) (raw : List (String × DecVal)) (useAll : Bool)
    (kd : String × JVal) : TPromtOptions :=
  match assocGet kd.1 raw with
  | none => if useAll then [(kd.1, some kd.2)] else []
  | some (.fin v) =>
    match propSchema kd.1 with
    | some sch =>
      if checkJ sch v then [(kd.1, some v)]
      else if useAll then [(kd.1, some kd.2)] else []
    | none => if useAll then [(kd.1, some kd.2)] else []
  | some (.infty _) => if useAll then [(kd.1, some kd.2)] else []

/-- The contribution of `seed`: present exactly when supplied and passing. -/
def seedEntry (raw : List (String × DecVal)) : TPromtOptions :=
  match assocGet "seed" raw with
  | none => []
  | some (.fin v) =>
    match propSchema "seed" with
    | some sch => if checkJ sch v then [("seed", some v)] else []
    | none => []
  | some (.infty _) => []

/-- The declarative reading of one option line (the Options Codec contract
of the specification): blank lines and lines whose first `=` is missing or
first contribute nothing; otherwise the trimmed left of the first `=` keyed
to the decoded trimmed right, nothing if the decoder gives no value. -/
def lineKV (line : List Char) : Option (String × DecVal) :=
  let trimmed := trimC line
  if trimmed = [] then none
  else
    match trimmed.findIdx? (fun c => c = '=') with
    | none => none
    | some 0 => none
    | some i =>
      (parseOptionValue (trimC (trimmed.drop (i + 1)))).map
        (fun v => (String.mk (trimC (trimmed.take i)), v))

/-- The declarative per-record serializer layout (the Record Serializer
contract of the specification, one entry list per record, in the fixed
order begin, options, system, user, grammar, segments, end). -/
def recordEntries (p : TPromt) : List (List Char) :=
  ["$$begin".data]
    ++ (match p.options with
        | some os => "$$options".data :: os.map (fun kv => serializeOptionValue kv.1 kv.2)
        | none => [])
    ++ (match p.system with
        | some s => if s ≠ "" then ["$$system".data, s.data] else []
        | none => [])
    ++ ["$$user".data, p.user.data]
    ++ (match p.grammar with
        | some g => if g ≠ "" then ["$$grammar".data, g.data] else []
        | none => [])
    ++ (match p.segment with
        | some segs => (segs.map (fun kv => ["$$segment=".data ++ kv.1.data, kv.2.data])).flatten
        | none => [])
    ++ ["$$end".data]

/-- The declarative reading of the vendor-C penalty sub-object (the
specification's field table): each of the five fields mapped to its target
name when present, omitted when absent. -/
def repeatSubSpec (options : TPromtOptions) : List (String × JVal) :=
  [("penalty", getOpt options "repeatPenalty"),
   ("lastTokens", getOpt options "repeatPenaltyNum"),
   ("frequencyPenalty", getOpt options "frequencyPenalty"),
   ("presencePenalty", getOpt options "presencePenalty"),
   ("penalizeNewLine", getOpt options "penalizeNewline")].filterMap
    (fun kv => kv.2.map (fun v => (kv.1, v)))

/-- Declaratively: the text has a parseable numeric head for `parseFloat` —
after leading whitespace and an optional sign, a digit, or a dot followed
by a digit. -/
def hasNumLead (cs : List Char) : Bool :=
  match signStrip (trimLeft cs) with
  | [] => false
  | c :: r =>
    if isDigitC c then true
    else if c = '.' then (match r with | c2 :: _ => isDigitC c2 | [] => false)
    else false

/-- Glue the first chunk of `ys` onto the last chunk of `xs` (how `splitNl`
acts on an append). -/
def glueLast : List (List Char) → List (List Char) → List (List Char)
  | [], ys => ys
  | [x], ys =>
    match ys with
    | [] => [x]
    | y :: yt => (x ++ y) :: yt
  | x :: x2 :: xt, ys => x :: glueLast (x2 :: xt) ys

/-- Marker test on an already-trimmed line: none of the five exact section
markers, neither delimiter, and not a segment marker. -/
def mfT (t : List Char) : Bool :=
  !(t = "$$begin".data) && !(t = "$$end".data) && !(t = "$$system".data)
    && !(t = "$$user".data) && !(t = "$$options".data) && !(t = "$$grammar".data)
    && !(leadsWith "$$segment=".data t)

/-- A line the record parser would buffer rather than act on. -/
def isMarkerFree (l : List Char) : Bool := mfT (trimC l)

/-- A rest-of-input that cannot extend a just-parsed JSON number: it does
not begin with a digit, a dot, or an exponent letter. -/
def restDelim (cs : List Char) : Bool :=
  match cs with
  | [] => true
  | c :: _ => !(isDigitC c || c = '.' || c = 'e' || c = 'E')

/-- A denominator dividing a power of ten: exactly the rationals the JSON
number parser and the option-value decoder can produce. -/
def denOkQ (q : ℚ) : Prop := ∃ j, q.den ∣ 10 ^ j

mutual

/-- Every number in the tree has a power-of-ten denominator. -/
def denOkJ : JVal → Prop
  | .jnull => True
  | .jbool _ => True
  | .jnum q => denOkQ q
  | .jstr _ => True
  | .jarr xs => denOkLJ xs
  | .jobj fs => denOkFJ fs

/-- `denOkJ` on element lists. -/
def denOkLJ : List JVal → Prop
  | [] => True
  | x :: xs => denOkJ x ∧ denOkLJ xs

/-- `denOkJ` on field lists, together with key distinctness (the invariant
of objects built by `object[key] = value` assignment). -/
def denOkFJ : List (String × JVal) → Prop
  | [] => True
  | kv :: fs => denOkJ kv.2 ∧ kv.1 ∉ fs.map Prod.fst ∧ denOkFJ fs

end

/-- Denominator-soundness of a decoded value (the infinities carry no
rational). -/
def denOkDec : DecVal → Prop
  | .fin v => denOkJ v
  | .infty _ => True

mutual

/-- A structural size used to bound the parser fuel. -/
def sizeJ : JVal → Nat
  | .jnull => 1
  | .jbool _ => 1
  | .jnum _ => 1
  | .jstr _ => 1
  | .jarr xs => sizeLJ xs + 1
  | .jobj fs => sizeFJ fs + 1

/-- `sizeJ` on element lists. -/
def sizeLJ : List JVal → Nat
  | [] => 0
  | x :: xs => sizeJ x + sizeLJ xs + 1

/-- `sizeJ` on field lists. -/
def sizeFJ : List (String × JVal) → Nat
  | [] => 0
  | kv :: fs => sizeJ kv.2 + sizeFJ fs + 1

end

/-- The text the serializer writes for a present option value. -/
def optValRepr : JVal → List Char
  | .jarr xs => renderCompact (.jarr xs)
  | v => jsToString v

/-- The shapes a validated option value can take: a boolean, a number with
a power-of-ten denominator, or an array of strings. -/
def structOk : JVal → Prop
  | .jbool _ => True
  | .jnum q => denOkQ q
  | .jarr xs => ∀ x ∈ xs, ∃ s, x = JVal.jstr s
  | _ => False

/-- A line whose trimmed form does not start with `$` (hence is no marker). -/
def goodL (l : List Char) : Prop := ∀ c, (trimC l).head? = some c → c ≠ '$'

/-- The option-record entries with a present value, as raw codec output. -/
def stripSome (os : TPromtOptions) : List (String × DecVal) :=
  os.flatMap (fun kv => match kv.2 with | some v => [(kv.1, .fin v)] | none => [])

/-- The shape every schema key enjoys: nonempty, trimmed, free of `=`, LF
and a leading `$` or space (so a `key=value` line re-splits at the key). -/
def keyOk (k : String) : Bool :=
  match k.data with
  | [] => false
  | c :: _ =>
    !isJsSpace c && !(c = '$')
      && !(k.data.any (fun x => x = '=' || x = '\n'))
      && (trimC k.data = k.data)

/-- Canonical section text as the parser stores it: trimmed, and every line
buffers (no line trims to a marker). -/
def textCanon (s : String) : Prop :=
  trimC s.data = s.data ∧ ∀ l ∈ splitNl s.data, mfT (trimC l) = true

/-- Canonical validated options: produced by the validator (without
defaults) from some raw mapping of denominator-sound values. -/
def optsCanon (use : Use) (os : TPromtOptions) : Prop :=
  ∃ raw, (∀ kv ∈ raw, denOkDec kv.2) ∧ os = PromtOptionsParse use raw false

/-- Canonical segment table: nonempty, distinct names, each name nonempty,
trimmed and single-line, each value canonical section text. -/
def segsCanon (segs : List (String × String)) : Prop :=
  segs ≠ [] ∧ (segs.map Prod.fst).Nodup ∧
    ∀ kv ∈ segs, kv.1 ≠ "" ∧ trimC kv.1.data = kv.1.data ∧ '\n' ∉ kv.1.data
      ∧ textCanon kv.2

/-- Canonical grammar text: a `GrammarCheck` fixed point, i.e. the pretty
rendering of some denominator-sound JSON value. -/
def gramCanon (g : String) : Prop := ∃ v, denOkJ v ∧ g.data = renderPretty v

/-- The canonical shape of every record the parser emits. -/
def recCanon (use : Use) (p : TPromt) : Prop :=
  (∀ s, p.system = some s → textCanon s)
    ∧ (textCanon p.user ∧ p.user ≠ "")
    ∧ (∀ os, p.options = some os → optsCanon use os)
    ∧ (∀ segs, p.segment = some segs → segsCanon segs)
    ∧ (∀ g, p.grammar = some g → gramCanon g)

/-- The canonical shape of the in-progress record. -/
def ppCanon (use : Use) (pp : PPromt) : Prop :=
  (∀ s, pp.system = some s → textCanon s)
    ∧ (∀ u, pp.user = some u → textCanon u)
    ∧ (∀ os, pp.options = some os → optsCanon use os)
    ∧ (∀ segs, pp.segment = some segs → segsCanon segs)
    ∧ (∀ g, pp.grammar = some g → gramCanon g)

/-- The canonical shape of the whole parser state. -/
def stCanon (use : Use) (st : PState) : Prop :=
  (∀ p ∈ st.out, recCanon use p)
    ∧ (∀ pp, st.cur = some pp → ppCanon use pp)
    ∧ (∀ l ∈ st.buf, mfT (trimC l) = true ∧ '\n' ∉ l)
    ∧ (∀ nm, st.segName = some nm → trimC nm.data = nm.data ∧ '\n' ∉ nm.data)

/-- The record conditions under which serialize-then-parse reproduces a
record exactly: a present option record is nonempty and holds no numeric
value `0` or `1` (those serialize to boolean tokens), and `system` is not
the (unserializable) present-but-empty text. -/
def goodR (p : TPromt) : Bool :=
  (match p.options with
   | none => true
   | some os =>
     !(os = []) && os.all (fun kv =>
       !(kv.2 = some (.jnum 0)) && !(kv.2 = some (.jnum 1))))
  && !(p.system = some "")

/-- A parser state in the middle of replaying one serialized record: inside
a block, with a current record whose pending-section flush would produce
`pp'`, and output so far `out`. -/
def midState (use : Use) (st : PState) (pp' : PPromt) (out : List TPromt) : Prop :=
  st.inBlock = true ∧ st.out = out ∧ ∃ pp, st.cur = some pp ∧ flushPending use st pp = pp'

/-! # Theorems

First the generic association-list lemmas, then characterizations of the
program's components, then the claim theorems. -/

theorem insertOrUpdate_fresh {α : Type} (m : List (String × α)) (k : String) (v : α)
    (h : ∀ kv ∈ m, kv.1 ≠ k) : insertOrUpdate m k v = m ++ [(k, v)] := by
  unfold insertOrUpdate
  rw [if_neg]
  intro hany
  rw [List.any_eq_true] at hany
  obtain ⟨kv, hm, he⟩ := hany
  rw [decide_eq_true_eq] at he
  exact h kv hm he

theorem insertOrUpdate_mem {α : Type} (m : List (String × α)) (k : String) (v : α)
    (kv : String × α) (h : kv ∈ insertOrUpdate m k v) : kv ∈ m ∨ kv = (k, v) := by
  unfold insertOrUpdate at h
  by_cases hany : m.any (fun kv => kv.1 = k) = true
  · rw [if_pos hany, List.mem_map] at h
    obtain ⟨kv0, hm0, he0⟩ := h
    by_cases hk : kv0.1 = k
    · rw [if_pos hk] at he0
      exact Or.inr he0.symm
    · rw [if_neg hk] at he0
      exact Or.inl (he0 ▸ hm0)
  · rw [if_neg hany] at h
    rcases List.mem_append.mp h with h2 | h2
    · exact Or.inl h2
    · rw [List.mem_singleton] at h2
      exact Or.inr h2

theorem insertOrUpdate_keys_nodup {α : Type} (m : List (String × α)) (k : String)
    (v : α) (h : (m.map Prod.fst).Nodup) :
    ((insertOrUpdate m k v).map Prod.fst).Nodup := by
  unfold insertOrUpdate
  by_cases hany : m.any (fun kv => kv.1 = k) = true
  · rw [if_pos hany]
    rw [show (m.map (fun kv => if kv.1 = k then (k, v) else kv)).map Prod.fst
      = m.map Prod.fst from ?_]
    · exact h
    · rw [List.map_map]
      apply List.map_congr_left
      intro kv _
      by_cases hk : kv.1 = k
      · simp [Function.comp, hk]
      · simp [Function.comp, hk]
  · rw [if_neg hany, List.map_append]
    refine List.Nodup.append h (List.nodup_singleton k) ?_
    intro x hx hxk
    rw [List.mem_map] at hx
    obtain ⟨kv, hm, he⟩ := hx
    rw [show x = k from by simpa using hxk] at he
    exact hany (List.any_eq_true.mpr ⟨kv, hm, by simp [he]⟩)

theorem insertOrUpdate_ne_nil {α : Type} (m : List (String × α)) (k : String) (v : α) :
    insertOrUpdate m k v ≠ [] := by
  unfold insertOrUpdate
  by_cases hany : m.any (fun kv => kv.1 = k) = true
  · rw [if_pos hany]
    rw [List.any_eq_true] at hany
    obtain ⟨kv, hm, _⟩ := hany
    intro he
    rw [List.map_eq_nil_iff] at he
    rw [he] at hm
    exact List.not_mem_nil kv hm
  · rw [if_neg hany]
    simp

theorem denOkFJ_head (kv : String × JVal) (fs : List (String × JVal))
    (h : denOkFJ (kv :: fs)) : denOkJ kv.2 :=
  (show denOkJ kv.2 ∧ kv.1 ∉ fs.map Prod.fst ∧ denOkFJ fs from h).1

theorem denOkFJ_tail (kv : String × JVal) (fs : List (String × JVal))
    (h : denOkFJ (kv :: fs)) : denOkFJ fs :=
  (show denOkJ kv.2 ∧ kv.1 ∉ fs.map Prod.fst ∧ denOkFJ fs from h).2.2

theorem denOkFJ_keys_nodup : ∀ (fs : List (String × JVal)), denOkFJ fs →
    (fs.map Prod.fst).Nodup
  | [], _ => List.nodup_nil
  | kv :: fs, h => by
    obtain ⟨-, hnm, ht⟩ :=
      (show denOkJ kv.2 ∧ kv.1 ∉ fs.map Prod.fst ∧ denOkFJ fs from h)
    rw [List.map_cons]
    exact List.Nodup.cons hnm (denOkFJ_keys_nodup fs ht)

theorem denOkFJ_of_parts : ∀ (fs : List (String × JVal)),
    (fs.map Prod.fst).Nodup → (∀ kv ∈ fs, denOkJ kv.2) → denOkFJ fs
  | [], _, _ => trivial
  | kv :: fs, hnd, hv => by
    rw [List.map_cons, List.nodup_cons] at hnd
    exact ⟨hv kv (List.mem_cons_self kv fs), hnd.1,
      denOkFJ_of_parts fs hnd.2 (fun kv2 h2 => hv kv2 (List.mem_cons_of_mem kv h2))⟩

theorem collectFields_go_mem (fs : List (String × JVal)) :
    ∀ (acc : List (String × JVal)) (kv : String × JVal),
    kv ∈ fs.foldl (fun m kv => insertOrUpdate m kv.1 kv.2) acc →
    kv ∈ acc ∨ kv ∈ fs := by
  induction fs with
  | nil =>
    intro acc kv h
    exact Or.inl h
  | cons f t ih =>
    intro acc kv h
    rw [List.foldl_cons] at h
    rcases ih (insertOrUpdate acc f.1 f.2) kv h with h2 | h2
    · rcases insertOrUpdate_mem acc f.1 f.2 kv h2 with h3 | h3
      · exact Or.inl h3
      · exact Or.inr (by rw [h3]; exact List.mem_cons_self _ _)
    · exact Or.inr (List.mem_cons_of_mem f h2)

theorem collectFields_go_nodup (fs : List (String × JVal)) :
    ∀ acc, (acc.map Prod.fst).Nodup →
    ((fs.foldl (fun m kv => insertOrUpdate m kv.1 kv.2) acc).map Prod.fst).Nodup := by
  induction fs with
  | nil =>
    intro acc h
    exact h
  | cons f t ih =>
    intro acc h
    rw [List.foldl_cons]
    exact ih _ (insertOrUpdate_keys_nodup acc f.1 f.2 h)

theorem collectFields_denOk (fs : List (String × JVal))
    (h : ∀ kv ∈ fs, denOkJ kv.2) : denOkFJ (collectFields fs) := by
  apply denOkFJ_of_parts
  · exact collectFields_go_nodup fs [] List.nodup_nil
  · intro kv hkv
    rcases collectFields_go_mem fs [] kv hkv with h2 | h2
    · exact absurd h2 (List.not_mem_nil kv)
    · exact h kv h2

theorem collectFields_go_fresh : ∀ (fs acc : List (String × JVal)),
    ((acc ++ fs).map Prod.fst).Nodup →
    fs.foldl (fun m kv => insertOrUpdate m kv.1 kv.2) acc = acc ++ fs
  | [], acc, _ => by simp
  | f :: t, acc, h => by
    obtain ⟨k0, v0⟩ := f
    have hfresh : ∀ kv ∈ acc, kv.1 ≠ k0 := by
      intro kv hkv he
      rw [List.map_append, List.nodup_append] at h
      apply h.2.2 (List.mem_map_of_mem Prod.fst hkv)
      rw [List.map_cons, he]
      exact List.mem_cons_self _ _
    simp only [List.foldl_cons]
    rw [insertOrUpdate_fresh acc k0 v0 hfresh,
      collectFields_go_fresh t (acc ++ [(k0, v0)])
        (by rw [List.append_assoc]; exact h)]
    simp

theorem collectFields_nodup_id (fs : List (String × JVal))
    (h : (fs.map Prod.fst).Nodup) : collectFields fs = fs := by
  have h2 := collectFields_go_fresh fs [] (by simpa using h)
  simpa [collectFields] using h2

theorem assocGet_nil {α : Type} (k : String) : assocGet k ([] : List (String × α)) = none := rfl

theorem assocGet_cons {α : Type} (k : String) (kv : String × α) (rest : List (String × α)) :
    assocGet k (kv :: rest) = if kv.1 = k then some kv.2 else assocGet k rest := rfl

theorem assocGet_append {α : Type} (k : String) (a b : List (String × α)) :
    assocGet k (a ++ b) =
      match assocGet k a with
      | some v => some v
      | none => assocGet k b := by
  induction a with
  | nil => simp [assocGet]
  | cons kv rest ih =>
    by_cases h : kv.1 = k <;> simp [assocGet_cons, h, ih]

theorem assocGet_eq_none_of_keys {α : Type} (k : String) (l : List (String × α))
    (h : ∀ kv ∈ l, kv.1 ≠ k) : assocGet k l = none := by
  induction l with
  | nil => rfl
  | cons kv rest ih =>
    rw [assocGet_cons, if_neg (h kv (List.mem_cons_self kv rest))]
    exact ih (fun x hx => h x (List.mem_cons_of_mem kv hx))

/-- The validator, characterized entrywise: the defaults-table walk
contributes `entryFor` per field in declaration order, then `seedEntry`. -/
theorem promtOptionsParse_eq (use : Use) (raw : List (String × DecVal)) (useAll : Bool) :
    PromtOptionsParse use raw useAll =
      (defaultsOf use).flatMap (entryFor use raw useAll) ++ seedEntry raw := by
  have hfold : ∀ (l : List (String × JVal)) (r : TPromtOptions),
      l.foldl (fun result kd =>
        match assocGet kd.1 raw with
        | none => if useAll then result ++ [(kd.1, some kd.2)] else result
        | some (.fin v) =>
          match propSchema kd.1 with
          | some sch =>
            if checkJ sch v then result ++ [(kd.1, some v)]
            else if useAll then result ++ [(kd.1, some kd.2)] else result
          | none => if useAll then result ++ [(kd.1, some kd.2)] else result
        | some (.infty _) =>
          if useAll then result ++ [(kd.1, some kd.2)] else result) r
      = r ++ l.flatMap (entryFor use raw useAll) := by
    intro l
    induction l with
    | nil => intro r; simp
    | cons kd rest ih =>
      intro r
      have hone : (match assocGet kd.1 raw with
          | none => if useAll then r ++ [(kd.1, some kd.2)] else r
          | some (.fin v) =>
            match propSchema kd.1 with
            | some sch =>
              if checkJ sch v then r ++ [(kd.1, some v)]
              else if useAll then r ++ [(kd.1, some kd.2)] else r
            | none => if useAll then r ++ [(kd.1, some kd.2)] else r
          | some (.infty _) =>
            if useAll then r ++ [(kd.1, some kd.2)] else r)
          = r ++ entryFor use raw useAll kd := by
        unfold entryFor
        cases hget : assocGet kd.1 raw with
        | none => cases useAll <;> simp
        | some dv =>
          cases dv with
          | fin v =>
            cases propSchema kd.1 with
            | none => cases useAll <;> simp
            | some sch =>
              by_cases hc : checkJ sch v = true
              · simp [hc]
              · cases useAll <;> simp [hc]
          | infty b => cases useAll <;> simp
      rw [List.foldl_cons, hone, List.flatMap_cons, ih, List.append_assoc]
  have hseed : ∀ base : TPromtOptions,
      (match assocGet "seed" raw with
       | none => base
       | some (.fin v) =>
         match propSchema "seed" with
         | some sch => if checkJ sch v then base ++ [("seed", some v)] else base
         | none => base
       | some (.infty _) => base)
      = base ++ seedEntry raw := by
    intro base
    unfold seedEntry
    cases assocGet "seed" raw with
    | none => simp
    | some dv =>
      cases dv with
      | fin v =>
        by_cases hc : checkJ (FieldSchema.integer 0 none) v = true <;>
          simp [propSchema, hc]
      | infty b => simp
  unfold PromtOptionsParse
  rw [hfold, List.nil_append, hseed]

theorem entryFor_key (use : Use) (raw : List (String × DecVal)) (useAll : Bool)
    (kd : String × JVal) : ∀ x ∈ entryFor use raw useAll kd, x.1 = kd.1 := by
  intro x hx
  unfold entryFor at hx
  split at hx
  · split at hx <;> simp_all
  · split at hx
    · split at hx
      · simp_all
      · split at hx <;> simp_all
    · split at hx <;> simp_all
  · split at hx <;> simp_all

theorem seedEntry_key (raw : List (String × DecVal)) :
    ∀ x ∈ seedEntry raw, x.1 = "seed" := by
  intro x hx
  unfold seedEntry at hx
  split at hx
  · simp_all
  · split at hx
    · split at hx <;> simp_all
    · simp_all
  · simp_all

/-- In a key-distinct defaults walk, the lookup of a listed field's key is
its own entry's lookup. -/
theorem assocGet_flatMap_entry (use : Use) (raw : List (String × DecVal)) (useAll : Bool)
    (k : String) :
    ∀ (l : List (String × JVal)), (l.map Prod.fst).Nodup →
      ∀ kd ∈ l, kd.1 = k →
        assocGet k (l.flatMap (entryFor use raw useAll)) =
          assocGet k (entryFor use raw useAll kd) := by
  intro l
  induction l with
  | nil => intro _ kd h; exact absurd h (List.not_mem_nil kd)
  | cons kd0 rest ih =>
    intro hnodup kd hmem hk
    rw [List.flatMap_cons, assocGet_append]
    rcases List.mem_cons.mp hmem with heq | htail
    · subst heq
      cases hget : assocGet k (entryFor use raw useAll kd) with
      | some v => simp
      | none =>
        have hrest : assocGet k (rest.flatMap (entryFor use raw useAll)) = none := by
          apply assocGet_eq_none_of_keys
          intro x hx
          rcases List.mem_flatMap.mp hx with ⟨kd2, hkd2, hxin⟩
          rw [entryFor_key use raw useAll kd2 x hxin]
          intro hcontra
          have : kd.1 ∈ rest.map Prod.fst := by
            rw [hk, ← hcontra]
            exact List.mem_map_of_mem Prod.fst hkd2
          rw [hk] at this
          exact (List.nodup_cons.mp hnodup).1 (hk ▸ this)
        simp [hrest]
    · have hne : kd0.1 ≠ k := by
        intro hcontra
        have : kd.1 ∈ rest.map Prod.fst := List.mem_map_of_mem Prod.fst htail
        rw [hk, ← hcontra] at this
        exact (List.nodup_cons.mp hnodup).1 this
      have hhead : assocGet k (entryFor use raw useAll kd0) = none := by
        apply assocGet_eq_none_of_keys
        intro x hx
        rw [entryFor_key use raw useAll kd0 x hx]
        exact hne
      rw [hhead]
      exact ih (List.nodup_cons.mp hnodup).2 kd htail hk

/-- The keys of the defaults tables are distinct and do not include
`seed`. -/
theorem defaults_keys_nodup (use : Use) :
    ((defaultsOf use).map Prod.fst).Nodup ∧ ∀ kd ∈ defaultsOf use, kd.1 ≠ "seed" := by
  cases use <;> exact ⟨by decide, by decide⟩

/-- Every profile default passes its own field's check. -/
theorem defaults_pass_check (use : Use) :
    ∀ kd ∈ defaultsOf use,
      (match propSchema kd.1 with
       | some sch => checkJ sch kd.2
       | none => false) = true := by
  cases use <;> decide

/-- C2: for every profile, every field of the defaults walk, and every
supplied raw value failing that field's declared check, `PromtOptionsParse`
substitutes the profile default under `useAllOptions = true` and omits the
field under `useAllOptions = false`; the invalid value is never kept, and
(the function being total) no error is raised. -/
theorem c2_invalid_value_behavior (use : Use) (f : String) (d : JVal)
    (raw : List (String × DecVal)) (v : DecVal) (sch : FieldSchema)
    (hmem : (f, d) ∈ defaultsOf use)
    (hraw : assocGet f raw = some v)
    (hsch : propSchema f = some sch)
    (hfail : checkDec sch v = false) :
    assocGet f (PromtOptionsParse use raw true) = some (some d)
      ∧ assocGet f (PromtOptionsParse use raw false) = none := by
  have hentry : ∀ useAll : Bool,
      entryFor use raw useAll (f, d) = if useAll then [(f, some d)] else [] := by
    intro useAll
    unfold entryFor
    cases v with
    | fin jv =>
      have hf : checkJ sch jv = false := hfail
      simp only [hraw, hsch, hf]
      simp
    | infty b => simp [hraw]
  have hflat : ∀ useAll : Bool,
      assocGet f ((defaultsOf use).flatMap (entryFor use raw useAll)) =
        assocGet f (entryFor use raw useAll (f, d)) :=
    fun useAll => assocGet_flatMap_entry use raw useAll f (defaultsOf use)
      (defaults_keys_nodup use).1 (f, d) hmem rfl
  have hseedNone : assocGet f (seedEntry raw) = none := by
    apply assocGet_eq_none_of_keys
    intro x hx
    rw [seedEntry_key raw x hx]
    intro hcontra
    exact (defaults_keys_nodup use).2 (f, d) hmem hcontra.symm
  constructor
  · rw [promtOptionsParse_eq, assocGet_append, hflat true, hentry true]
    simp [assocGet]
  · rw [promtOptionsParse_eq, assocGet_append, hflat false, hentry false]
    simp [assocGet, hseedNone]

/-- C2 witness: profile `core`, field `temperature`, raw value `99` (out of
bounds). -/
theorem c2_witness :
    assocGet "temperature"
        (PromtOptionsParse .core [("temperature", DecVal.fin (JVal.jnum 99))] true)
      = some (some (JVal.jnum (mkRat 8 10)))
    ∧ assocGet "temperature"
        (PromtOptionsParse .core [("temperature", DecVal.fin (JVal.jnum 99))] false)
      = none :=
  c2_invalid_value_behavior .core "temperature" (JVal.jnum (mkRat 8 10))
    [("temperature", DecVal.fin (JVal.jnum 99))] (DecVal.fin (JVal.jnum 99))
    (.number 0 2) (by decide) (by decide) (by decide) (by decide)

/-- C3: for every profile, raw mapping and `useAllOptions` flag, `seed` is
present in the validated record exactly when the raw mapping supplies a
value passing the integer/bounds check — and then it is that supplied
value; it is never filled from a default. -/
theorem c3_seed_characterization (use : Use) (raw : List (String × DecVal))
    (useAll : Bool) :
    assocGet "seed" (PromtOptionsParse use raw useAll) =
      match assocGet "seed" raw with
      | some (.fin jv) =>
        if checkJ (.integer 0 none) jv = true then some (some jv) else none
      | some (.infty _) => none
      | none => none := by
  rw [promtOptionsParse_eq, assocGet_append]
  have hflat : assocGet "seed" ((defaultsOf use).flatMap (entryFor use raw useAll)) = none := by
    apply assocGet_eq_none_of_keys
    intro x hx
    rcases List.mem_flatMap.mp hx with ⟨kd, hkd, hxin⟩
    rw [entryFor_key use raw useAll kd x hxin]
    exact (defaults_keys_nodup use).2 kd hkd
  rw [hflat]
  unfold seedEntry
  have hs : propSchema "seed" = some (.integer 0 none) := rfl
  cases assocGet "seed" raw with
  | none => simp [assocGet]
  | some dv =>
    cases dv with
    | fin jv =>
      rw [hs]
      by_cases hc : checkJ (.integer 0 none) jv = true <;> simp [hc, assocGet]
    | infty b => simp [assocGet]

/-- C8: every entry of a validated option record carries a recognized field
name and a defined value satisfying that field's declared type and bounds
(in particular, substituted defaults satisfy the bounds they replace). -/
theorem c8_options_wellformed (use : Use) (raw : List (String × DecVal))
    (useAll : Bool) (k : String) (w : Option JVal)
    (hmem : (k, w) ∈ PromtOptionsParse use raw useAll) :
    ∃ sch v, propSchema k = some sch ∧ w = some v ∧ checkJ sch v = true := by
  rw [promtOptionsParse_eq] at hmem
  rcases List.mem_append.mp hmem with hbase | hseed
  · rcases List.mem_flatMap.mp hbase with ⟨kd, hkd, hxin⟩
    have hdef := defaults_pass_check use kd hkd
    have hcase : (k, w) = (kd.1, some kd.2)
        ∨ ∃ v, (k, w) = (kd.1, some v) ∧ checkJ ((propSchema kd.1).getD .boolean) v = true := by
      unfold entryFor at hxin
      split at hxin
      · split at hxin
        · exact Or.inl (List.mem_singleton.mp hxin)
        · exact absurd hxin (List.not_mem_nil _)
      · rename_i v hv
        split at hxin
        · rename_i sch hsch
          split at hxin
          · rename_i hcheck
            refine Or.inr ⟨v, List.mem_singleton.mp hxin, ?_⟩
            rw [hsch]
            exact hcheck
          · split at hxin
            · exact Or.inl (List.mem_singleton.mp hxin)
            · exact absurd hxin (List.not_mem_nil _)
        · split at hxin
          · exact Or.inl (List.mem_singleton.mp hxin)
          · exact absurd hxin (List.not_mem_nil _)
      · split at hxin
        · exact Or.inl (List.mem_singleton.mp hxin)
        · exact absurd hxin (List.not_mem_nil _)
    rcases hsch' : propSchema kd.1 with _ | sch
    · rw [hsch'] at hdef
      exact absurd hdef (by simp)
    · rw [hsch'] at hdef
      rcases hcase with heq | ⟨v, heq, hchk⟩
      · obtain ⟨hk, hw⟩ := Prod.mk.injEq .. ▸ heq
        exact ⟨sch, kd.2, by rw [hk, hsch'], hw, hdef⟩
      · obtain ⟨hk, hw⟩ := Prod.mk.injEq .. ▸ heq
        rw [hsch'] at hchk
        exact ⟨sch, v, by rw [hk, hsch'], hw, hchk⟩
  · unfold seedEntry at hseed
    split at hseed
    · exact absurd hseed (List.not_mem_nil _)
    · rename_i v hv
      split at hseed
      · rename_i sch hsch
        split at hseed
        · rename_i hcheck
          obtain ⟨hk, hw⟩ := Prod.mk.injEq .. ▸ List.mem_singleton.mp hseed
          exact ⟨sch, v, by rw [hk]; exact hsch, hw, hcheck⟩
        · exact absurd hseed (List.not_mem_nil _)
      · exact absurd hseed (List.not_mem_nil _)
    · exact absurd hseed (List.not_mem_nil _)

/-- C8 witness: a kept raw value, a substituted default, and a kept seed
all satisfy their field's declared constraints. -/
theorem c8_witness :
    ∃ sch v, propSchema "maxTokens" = some sch
      ∧ (some (JVal.jnum 128) : Option JVal) = some v ∧ checkJ sch v = true :=
  c8_options_wellformed .core
    [("maxTokens", DecVal.fin (JVal.jnum 0)), ("seed", DecVal.fin (JVal.jnum 7))]
    true "maxTokens" (some (JVal.jnum 128)) (by decide)


/-- C5: the Value Decoder's branch order, first match wins: the scenario
inputs (the array branch checked against the original, un-quote-stripped
text; booleans case-insensitive on the quote-stripped text; comma accepted
as decimal separator; empty text gives no value), together with the general
case-insensitive boolean-token rules. -/
theorem c5_value_decoder_scenarios :
    parseOptionValue "[\"a\",\"b\"]".data = some (.fin (.jarr [.jstr "a", .jstr "b"]))
    ∧ parseOptionValue "Y".data = some (.fin (.jbool true))
    ∧ parseOptionValue "1,5".data = some (.fin (.jnum (mkRat 3 2)))
    ∧ parseOptionValue "".data = none
    ∧ (∀ cs : List Char, cs ≠ [] → cs.head? ≠ some '[' →
        ((stripQuotes cs).map Char.toLower = "true".data
          ∨ (stripQuotes cs).map Char.toLower = "1".data
          ∨ (stripQuotes cs).map Char.toLower = "y".data) →
        parseOptionValue cs = some (.fin (.jbool true)))
    ∧ (∀ cs : List Char, cs ≠ [] → cs.head? ≠ some '[' →
        ((stripQuotes cs).map Char.toLower = "false".data
          ∨ (stripQuotes cs).map Char.toLower = "0".data
          ∨ (stripQuotes cs).map Char.toLower = "n".data) →
        parseOptionValue cs = some (.fin (.jbool false))) := by
  refine ⟨by decide, by decide, by decide, by decide, ?_, ?_⟩
  · intro cs hne hhead htok
    have hcond : ((stripQuotes cs).map Char.toLower = "true".data
        || (stripQuotes cs).map Char.toLower = "1".data
        || (stripQuotes cs).map Char.toLower = "y".data) = true := by
      rcases htok with h | h | h <;> rw [h] <;> decide
    simp only [parseOptionValue, if_neg hne]
    simp [hhead, hcond]
  · intro cs hne hhead htok
    have hcond1 : ((stripQuotes cs).map Char.toLower = "true".data
        || (stripQuotes cs).map Char.toLower = "1".data
        || (stripQuotes cs).map Char.toLower = "y".data) = false := by
      rcases htok with h | h | h <;> rw [h] <;> decide
    have hcond2 : ((stripQuotes cs).map Char.toLower = "false".data
        || (stripQuotes cs).map Char.toLower = "0".data
        || (stripQuotes cs).map Char.toLower = "n".data) = true := by
      rcases htok with h | h | h <;> rw [h] <;> decide
    simp only [parseOptionValue, if_neg hne]
    simp [hhead, hcond1, hcond2]

/-- C5 witness: the general boolean rule applied at `TRUE` and `N`. -/
theorem c5_witness :
    parseOptionValue "TRUE".data = some (.fin (.jbool true))
    ∧ parseOptionValue "N".data = some (.fin (.jbool false)) :=
  ⟨c5_value_decoder_scenarios.2.2.2.2.1 "TRUE".data (by decide) (by decide)
      (Or.inl (by decide)),
    c5_value_decoder_scenarios.2.2.2.2.2 "N".data (by decide) (by decide)
      (Or.inr (Or.inr (by decide)))⟩

theorem addIf_assocGet (k k' : String) (h : k' ≠ k) (r : List (String × JVal))
    (v : Option JVal) : assocGet k (addIf r k' v) = assocGet k r := by
  cases v with
  | none => rfl
  | some w =>
    rw [addIf, assocGet_append]
    cases assocGet k r <;> simp [assocGet_cons, assocGet_nil, h]

theorem append_one_assocGet_ne (k k' : String) (h : k' ≠ k)
    (r : List (String × JVal)) (v : JVal) :
    assocGet k (r ++ [(k', v)]) = assocGet k r := by
  rw [assocGet_append]
  cases assocGet k r <;> simp [assocGet_cons, assocGet_nil, h]

/-- The vendor-C penalty sub-object, as built, equals its declarative
field-table reading. -/
theorem repeatSub_eq (options : TPromtOptions) :
    addIf (addIf (addIf (addIf (addIf [] "penalty"
      (getOpt options "repeatPenalty"))
      "lastTokens" (getOpt options "repeatPenaltyNum"))
      "frequencyPenalty" (getOpt options "frequencyPenalty"))
      "presencePenalty" (getOpt options "presencePenalty"))
      "penalizeNewLine" (getOpt options "penalizeNewline")
    = repeatSubSpec options := by
  unfold repeatSubSpec
  cases h1 : getOpt options "repeatPenalty" <;>
    cases h2 : getOpt options "repeatPenaltyNum" <;>
      cases h3 : getOpt options "frequencyPenalty" <;>
        cases h4 : getOpt options "presencePenalty" <;>
          cases h5 : getOpt options "penalizeNewline" <;>
            simp [addIf]

/-- C9: the vendor-C adapter builds a nested `repeatPenalty` sub-object
exactly when one of its five source fields is present, mapping present
fields to `penalty`, `lastTokens`, `frequencyPenalty`, `presencePenalty`,
`penalizeNewLine` and omitting absent ones; the scenario projection
produces only the nested object, with no top-level scalar. -/
theorem c9_llamacpp_repeat_penalty :
    (∀ options : TPromtOptions,
      assocGet "repeatPenalty" (ToPromtOptionsLlamaCpp options) =
        (if (getOpt options "repeatPenalty").isSome
            || (getOpt options "repeatPenaltyNum").isSome
            || (getOpt options "frequencyPenalty").isSome
            || (getOpt options "presencePenalty").isSome
            || (getOpt options "penalizeNewline").isSome
          then some (.jobj (repeatSubSpec options)) else none))
    ∧ ToPromtOptionsLlamaCpp
        [("repeatPenalty", some (.jnum (mkRat 11 10))),
          ("repeatPenaltyNum", some (.jnum 64)),
          ("frequencyPenalty", some (.jnum (mkRat 1 2)))]
      = [("repeatPenalty", .jobj
          [("penalty", .jnum (mkRat 11 10)), ("lastTokens", .jnum 64),
            ("frequencyPenalty", .jnum (mkRat 1 2))])] := by
  constructor
  · intro options
    simp only [ToPromtOptionsLlamaCpp]
    have h7 : assocGet "repeatPenalty"
        (addIf (addIf (addIf (addIf (addIf (addIf (addIf [] "temperature"
          (getOpt options "temperature")) "topP" (getOpt options "topP"))
          "topK" (getOpt options "topK")) "minP" (getOpt options "minP"))
          "maxTokens" (getOpt options "maxTokens")) "seed" (getOpt options "seed"))
          "trimWhitespaceSuffix" (getOpt options "trimWhitespace")) = none := by
      rw [addIf_assocGet _ _ (by decide), addIf_assocGet _ _ (by decide),
        addIf_assocGet _ _ (by decide), addIf_assocGet _ _ (by decide),
        addIf_assocGet _ _ (by decide), addIf_assocGet _ _ (by decide),
        addIf_assocGet _ _ (by decide)]
      rfl
    generalize hr7 : (addIf (addIf (addIf (addIf (addIf (addIf (addIf [] "temperature"
      (getOpt options "temperature")) "topP" (getOpt options "topP"))
      "topK" (getOpt options "topK")) "minP" (getOpt options "minP"))
      "maxTokens" (getOpt options "maxTokens")) "seed" (getOpt options "seed"))
      "trimWhitespaceSuffix" (getOpt options "trimWhitespace")) = r7 at h7 ⊢
    have h8 : ∀ r8, assocGet "repeatPenalty" r8 = none →
        assocGet "repeatPenalty"
          (addIf (addIf (addIf r8 "evaluationPriority"
            (getOpt options "evaluationPriority"))
            "contextShiftSize" (getOpt options "contextShiftSize"))
            "disableContextShift" (getOpt options "disableContextShift")) = none := by
      intro r8 h
      rw [addIf_assocGet _ _ (by decide), addIf_assocGet _ _ (by decide),
        addIf_assocGet _ _ (by decide)]
      exact h
    have hstop : assocGet "repeatPenalty"
        (match getOpt options "stopSequences" with
          | some v =>
            match jsLen v with
            | some n => if n > 0 then r7 ++ [("customStopTriggers", v)] else r7
            | none => r7
          | none => r7) = none := by
      split
      · split
        · split
          · rw [append_one_assocGet_ne _ _ (by decide)]
            exact h7
          · exact h7
        · exact h7
      · exact h7
    generalize hrs : (match getOpt options "stopSequences" with
        | some v =>
          match jsLen v with
          | some n => if n > 0 then r7 ++ [("customStopTriggers", v)] else r7
          | none => r7
        | none => r7) = rS at hstop ⊢
    have htb : assocGet "repeatPenalty"
        (match getOpt options "tokenBias" with
          | some v => if jsKeysLen v > 0 then rS ++ [("tokenBias", v)] else rS
          | none => rS) = none := by
      split
      · split
        · rw [append_one_assocGet_ne _ _ (by decide)]
          exact hstop
        · exact hstop
      · exact hstop
    generalize hrt : (match getOpt options "tokenBias" with
        | some v => if jsKeysLen v > 0 then rS ++ [("tokenBias", v)] else rS
        | none => rS) = rT at htb ⊢
    have hfinal := h8 rT htb
    split
    · rename_i hrp
      rw [assocGet_append, hfinal]
      simp [assocGet_cons, repeatSub_eq, hrp]
    · exact hfinal
  · decide

theorem parseFloatQ_none_iff (cs : List Char) :
    parseFloatQ cs = none ↔ hasNumLead cs = false := by
  simp only [parseFloatQ, hasNumLead]
  generalize signStrip (trimLeft cs) = s1
  cases s1 with
  | nil => simp
  | cons c r =>
    by_cases hc : isDigitC c = true
    · simp [List.takeWhile_cons, hc]
    · rw [Bool.not_eq_true] at hc
      simp only [List.takeWhile_cons, hc, cond_false, List.length_nil, List.drop_zero]
      by_cases hdot : c = '.'
      · subst hdot
        cases r with
        | nil => simp
        | cons c2 r2 =>
          by_cases hc2 : isDigitC c2 = true
          · simp [List.takeWhile_cons, hc2]
          · rw [Bool.not_eq_true] at hc2
            simp [List.takeWhile_cons, hc2]
      · simp [hdot, hc]

theorem isPrefixOf_head (c : Char) (t b : List Char)
    (h : (c :: t).isPrefixOf b = true) : ∃ r, b = c :: r := by
  cases b with
  | nil => exact absurd h (by simp [List.isPrefixOf])
  | cons x xs =>
    refine ⟨xs, ?_⟩
    simp only [List.isPrefixOf, Bool.and_eq_true, beq_iff_eq] at h
    rw [h.1]

/-- `parseFloat`'s two alternatives are mutually exclusive: when the text
leads with the `Infinity` keyword, the decimal-literal parse fails. -/
theorem infLead_parseFloatQ_none (cs : List Char) (h : infLead cs = true) :
    parseFloatQ cs = none := by
  unfold infLead at h
  obtain ⟨r, hr⟩ := isPrefixOf_head 'I' "nfinity".data (signStrip (trimLeft cs)) h
  simp only [parseFloatQ]
  rw [hr]
  simp [List.takeWhile_cons, show isDigitC 'I' = false from by decide,
    show ¬('I' = '.') from by decide]

/-- C10: for a right-hand side that is neither a boolean token nor an
array, the decoder returns the number given by `parseFloat`'s longest
numeric prefix of the (quote-stripped, first-comma-dotted) text whenever
one exists — `12abc` gives 12, `1,5,7` gives 1.5 (only the first comma is
replaced) — and the no-value branch is reached only when `parseFloat`
fails, i.e. when the text has neither a parseable numeric head nor
`parseFloat`'s `Infinity` keyword head. -/
theorem c10_numeric_fallback :
    parseOptionValue "12abc".data = some (.fin (.jnum 12))
    ∧ parseOptionValue "1,5,7".data = some (.fin (.jnum (mkRat 3 2)))
    ∧ (∀ cs : List Char, parseOptionValue cs = none →
        parseFloatQ (replaceFirstC ',' '.' (stripQuotes cs)) = none
          ∧ infLead (replaceFirstC ',' '.' (stripQuotes cs)) = false
          ∧ hasNumLead (replaceFirstC ',' '.' (stripQuotes cs)) = false)
    ∧ (∀ cs : List Char,
        (parseFloatQ cs = none ∧ infLead cs = false)
          ↔ (hasNumLead cs || infLead cs) = false)
    ∧ (∀ (cs : List Char) (q : ℚ), cs ≠ [] → cs.head? ≠ some '[' →
        (stripQuotes cs).map Char.toLower ∉
          (["true".data, "1".data, "y".data,
            "false".data, "0".data, "n".data] : List (List Char)) →
        parseFloatQ (replaceFirstC ',' '.' (stripQuotes cs)) = some q →
        parseOptionValue cs = some (.fin (.jnum q))) := by
  refine ⟨by decide, by decide, ?_, ?_, ?_⟩
  · intro cs h
    by_cases hne : cs = []
    · subst hne
      decide
    · simp only [parseOptionValue, if_neg hne] at h
      split at h
      · exact absurd h (by simp)
      · split at h
        · exact absurd h (by simp)
        · split at h
          · exact absurd h (by simp)
          · split at h
            · exact absurd h (by simp)
            · split at h
              · exact absurd h (by simp)
              · rename_i hninf hx hpf
                exact ⟨hpf, by simpa using hninf,
                  parseFloatQ_none_iff _ |>.mp hpf⟩
  · intro cs
    constructor
    · rintro ⟨h1, h2⟩
      rw [parseFloatQ_none_iff] at h1
      simp [h1, h2]
    · intro h
      rw [Bool.or_eq_false_iff] at h
      exact ⟨(parseFloatQ_none_iff cs).mpr h.1, h.2⟩
  · intro cs q hne hhead htok hpf
    have harr : (if cs.head? = some '[' then
        (match jsonParseFull cs with
          | some (.jarr xs) => some (DecVal.fin (JVal.jarr xs))
          | _ => none)
        else none) = none := if_neg hhead
    have h1 : ((stripQuotes cs).map Char.toLower = "true".data
        || (stripQuotes cs).map Char.toLower = "1".data
        || (stripQuotes cs).map Char.toLower = "y".data) = false := by
      simp only [List.mem_cons, not_or] at htok
      simp [htok.1, htok.2.1, htok.2.2.1]
    have h2 : ((stripQuotes cs).map Char.toLower = "false".data
        || (stripQuotes cs).map Char.toLower = "0".data
        || (stripQuotes cs).map Char.toLower = "n".data) = false := by
      simp only [List.mem_cons, not_or] at htok
      simp [htok.2.2.2.1, htok.2.2.2.2.1, htok.2.2.2.2.2.1]
    have hinf : infLead (replaceFirstC ',' '.' (stripQuotes cs)) = false := by
      by_contra hcontra
      rw [Bool.not_eq_false] at hcontra
      rw [infLead_parseFloatQ_none _ hcontra] at hpf
      exact Option.noConfusion hpf
    simp only [parseOptionValue, if_neg hne]
    simp [harr, h1, h2, hinf, hpf]

/-- C10 witness: the general numeric-fallback rule applied at `3x7`. -/
theorem c10_witness : parseOptionValue "3x7".data = some (.fin (.jnum 3)) :=
  c10_numeric_fallback.2.2.2.2 "3x7".data 3 (by decide) (by decide)
    (by decide) (by decide)

theorem any_key_of_assocGet {α : Type} (k : String) (m : List (String × α))
    (h : m.any (fun kv => kv.1 = k) = false) : assocGet k m = none := by
  induction m with
  | nil => rfl
  | cons kv rest ih =>
    simp only [List.any_cons, Bool.or_eq_false_iff] at h
    rw [assocGet_cons, if_neg (by simpa using h.1)]
    exact ih h.2

theorem assocGet_map_update {α : Type} (k k0 : String) (v : α) :
    ∀ m : List (String × α),
      assocGet k (m.map (fun kv => if kv.1 = k0 then (k0, v) else kv)) =
        if k0 = k then
          (match assocGet k m with
           | some _ => some v
           | none => none)
        else assocGet k m := by
  intro m
  induction m with
  | nil => by_cases h : k0 = k <;> simp [assocGet, h]
  | cons kv rest ih =>
    by_cases h0 : kv.1 = k0
    · by_cases hk : k0 = k
      · subst hk
        simp [assocGet_cons, h0, ih]
      · have hkvk : kv.1 ≠ k := by rw [h0]; exact hk
        simp [assocGet_cons, h0, hkvk, ih, hk]
    · by_cases hkvk : kv.1 = k
      · have hk : ¬ (k0 = k) := fun e => h0 (by rw [hkvk, e])
        have hk2 : ¬ (k = k0) := fun e => hk e.symm
        simp [assocGet_cons, h0, hkvk, hk, hk2]
      · simp [assocGet_cons, h0, hkvk, ih]

theorem assocGet_insertOrUpdate {α : Type} (k k0 : String) (v : α)
    (m : List (String × α)) :
    assocGet k (insertOrUpdate m k0 v) = if k0 = k then some v else assocGet k m := by
  unfold insertOrUpdate
  by_cases hany : m.any (fun kv => kv.1 = k0) = true
  · rw [if_pos hany, assocGet_map_update]
    by_cases hk : k0 = k
    · subst hk
      cases hg : assocGet k0 m with
      | none =>
        exfalso
        rcases List.any_eq_true.mp hany with ⟨kv, hkv, hkey⟩
        have : assocGet k0 m ≠ none := by
          clear hany hg
          induction m with
          | nil => exact absurd hkv (List.not_mem_nil kv)
          | cons kv2 rest ih =>
            rcases List.mem_cons.mp hkv with rfl | htail
            · rw [assocGet_cons, if_pos (by simpa using hkey)]
              simp
            · rw [assocGet_cons]
              split
              · simp
              · exact ih htail
        exact this hg
      | some w => simp
    · simp [hk]
  · rw [if_neg hany, assocGet_append]
    rw [Bool.not_eq_true] at hany
    by_cases hk : k0 = k
    · subst hk
      rw [any_key_of_assocGet k0 m hany]
      simp [assocGet_cons]
    · cases hg : assocGet k m <;> simp [assocGet_cons, assocGet_nil, hk]

/-- One line of the codec loop behaves as `lineKV` says. -/
theorem codec_step (options : List (String × DecVal)) (line : List Char) :
    (let trimmed := trimC line
     if trimmed = [] then options
     else
       match trimmed.findIdx? (fun c => c = '=') with
       | none => options
       | some 0 => options
       | some i =>
         let key := trimC (trimmed.take i)
         let valueStr := trimC (trimmed.drop (i + 1))
         match parseOptionValue valueStr with
         | some v => insertOrUpdate options (String.mk key) v
         | none => options)
    = match lineKV line with
      | some kv => insertOrUpdate options kv.1 kv.2
      | none => options := by
  unfold lineKV
  by_cases hblank : trimC line = []
  · simp [hblank]
  · simp only [if_neg hblank]
    cases hidx : (trimC line).findIdx? (fun c => c = '=') with
    | none => simp
    | some i =>
      cases i with
      | zero => simp
      | succ j =>
        cases hpv : parseOptionValue (trimC ((trimC line).drop (j + 1 + 1))) <;>
          simp [hpv]

/-- C7: the Options Codec keyed by `k`: split into lines; each non-blank
line contributes through `lineKV` (first `=` splits it, missing or leading
`=` contributes nothing, the key is the trimmed left side, a right side the
Value Decoder rejects is dropped), and among contributions with the same
key the last line's value wins. -/
theorem c7_codec_contract (content : List Char) (k : String) :
    assocGet k (parseOptionsToObject content) =
      ((splitNl content).filterMap lineKV).foldl
        (fun acc kv => if kv.1 = k then some kv.2 else acc) none := by
  unfold parseOptionsToObject
  have main : ∀ (lines : List (List Char)) (acc : List (String × DecVal)),
      assocGet k (lines.foldl (fun options line =>
        let trimmed := trimC line
        if trimmed = [] then options
        else
          match trimmed.findIdx? (fun c => c = '=') with
          | none => options
          | some 0 => options
          | some i =>
            let key := trimC (trimmed.take i)
            let valueStr := trimC (trimmed.drop (i + 1))
            match parseOptionValue valueStr with
            | some v => insertOrUpdate options (String.mk key) v
            | none => options) acc) =
      (lines.filterMap lineKV).foldl
        (fun a kv => if kv.1 = k then some kv.2 else a) (assocGet k acc) := by
    intro lines
    induction lines with
    | nil => intro acc; rfl
    | cons l rest ih =>
      intro acc
      rw [List.foldl_cons, List.filterMap_cons, ih, codec_step]
      cases hkv : lineKV l with
      | none => rfl
      | some kv =>
        rw [List.foldl_cons, assocGet_insertOrUpdate]
  rw [main]
  rfl

/-- The serializer's per-record pushes are exactly `recordEntries`. -/
theorem serializeEntries_eq (promts : List TPromt) :
    serializeEntries promts = (promts.map recordEntries).flatten := by
  unfold serializeEntries
  have main : ∀ (l : List TPromt) (acc : List (List Char)),
      l.foldl (fun result p =>
        let r1 := result ++ ["$$begin".data]
        let r2 :=
          match p.options with
          | some os =>
            (r1 ++ ["$$options".data]) ++ os.map (fun kv => serializeOptionValue kv.1 kv.2)
          | none => r1
        let r3 :=
          match p.system with
          | some s => if s ≠ "" then r2 ++ ["$$system".data, s.data] else r2
          | none => r2
        let r4 := r3 ++ ["$$user".data, p.user.data]
        let r5 :=
          match p.grammar with
          | some g => if g ≠ "" then r4 ++ ["$$grammar".data, g.data] else r4
          | none => r4
        let r6 :=
          match p.segment with
          | some segs =>
            r5 ++ (segs.map (fun kv => ["$$segment=".data ++ kv.1.data, kv.2.data])).flatten
          | none => r5
        r6 ++ ["$$end".data]) acc
      = acc ++ (l.map recordEntries).flatten := by
    intro l
    induction l with
    | nil => intro acc; simp
    | cons p rest ih =>
      intro acc
      rw [List.foldl_cons, ih, List.map_cons, List.flatten_cons, ← List.append_assoc]
      congr 1
      unfold recordEntries
      cases p.options <;> cases p.system <;> cases p.grammar <;> cases p.segment <;>
        simp [List.append_assoc] <;> split_ifs <;> simp [List.append_assoc]
  rw [main]
  rfl

/-- C6: the claim's unconditional "if `system` is present, `$$system` and
its text; if `grammar` is present, `$$grammar` and its text" is false — the
code tests JavaScript truthiness, so a present-but-empty string is skipped
(see the counterexample).  Corrected layout, proved here: per record the
serializer emits, in this fixed order: `$$begin`; when `options` is present
(even empty), `$$options` and one entry per option in iteration order — an
`undefined` value as a bare `key=` line, an array value as its
`JSON.stringify` literal, any other value by its `String(value)` text; when
`system` is present and nonempty, `$$system` and its text; always `$$user`
and the user text (even empty); when `grammar` is present and nonempty,
`$$grammar` and its text; one `$$segment=<name>` marker plus text per
segment entry in iteration order; `$$end`. -/
theorem c6_serializer_layout :
    (∀ promts : List TPromt, serializeEntries promts = (promts.map recordEntries).flatten)
    ∧ (∀ promts : List TPromt, PromtStore promts = String.mk (joinNl (serializeEntries promts)))
    ∧ (∀ k : String, serializeOptionValue k none = k.data ++ ['='])
    ∧ (∀ (k : String) (xs : List JVal),
        serializeOptionValue k (some (.jarr xs)) = k.data ++ '=' :: renderCompact (.jarr xs))
    ∧ (∀ (k : String) (q : ℚ),
        serializeOptionValue k (some (.jnum q)) = k.data ++ '=' :: printNum q)
    ∧ (∀ (k : String) (b : Bool),
        serializeOptionValue k (some (.jbool b)) =
          k.data ++ '=' :: (if b then "true".data else "false".data)) :=
  ⟨serializeEntries_eq, fun _ => rfl, fun _ => rfl, fun _ _ => rfl, fun _ _ => rfl,
    fun k b => by cases b <;> rfl⟩

theorem c6_counterexample :
    (⟨some "", "hi", none, none, some ""⟩ : TPromt).system ≠ none
    ∧ "$$system".data ∉ splitNl (serialize [⟨some "", "hi", none, none, some ""⟩])
    ∧ (⟨some "", "hi", none, none, some ""⟩ : TPromt).grammar ≠ none
    ∧ "$$grammar".data ∉ splitNl (serialize [⟨some "", "hi", none, none, some ""⟩]) := by
  decide

/-! ## Trimming lemmas -/

theorem dropWhile_self_idem {α : Type} (p : α → Bool) (l : List α) :
    (l.dropWhile p).dropWhile p = l.dropWhile p := by
  induction l with
  | nil => rfl
  | cons c t ih =>
    by_cases h : p c = true
    · simp [List.dropWhile_cons, h, ih]
    · simp [List.dropWhile_cons, h]

theorem trimLeft_trimLeft (x : List Char) : trimLeft (trimLeft x) = trimLeft x :=
  dropWhile_self_idem isJsSpace x

theorem trimRight_trimRight (x : List Char) : trimRight (trimRight x) = trimRight x := by
  unfold trimRight
  rw [List.reverse_reverse, trimLeft_trimLeft]

theorem trimLeft_cons_space (c : Char) (x : List Char) (h : isJsSpace c = true) :
    trimLeft (c :: x) = trimLeft x := by
  simp [trimLeft, List.dropWhile_cons, h]

theorem trimLeft_cons_nonspace (c : Char) (x : List Char) (h : isJsSpace c = false) :
    trimLeft (c :: x) = c :: x := by
  simp [trimLeft, List.dropWhile_cons, h]

theorem trimLeft_spaces_append (sp x : List Char) (h : sp.all isJsSpace = true) :
    trimLeft (sp ++ x) = trimLeft x := by
  induction sp with
  | nil => rfl
  | cons c t ih =>
    simp only [List.all_cons, Bool.and_eq_true] at h
    rw [List.cons_append, trimLeft_cons_space c _ h.1]
    exact ih h.2

theorem trimRight_append_spaces (x sp : List Char) (h : sp.all isJsSpace = true) :
    trimRight (x ++ sp) = trimRight x := by
  unfold trimRight
  rw [List.reverse_append, trimLeft_spaces_append _ _ (by simpa using h)]

theorem trimC_cons_space (c : Char) (x : List Char) (h : isJsSpace c = true) :
    trimC (c :: x) = trimC x := by
  unfold trimC
  rw [trimLeft_cons_space c x h]

theorem trimC_spaces_append (sp x : List Char) (h : sp.all isJsSpace = true) :
    trimC (sp ++ x) = trimC x := by
  unfold trimC
  rw [trimLeft_spaces_append sp x h]

theorem trimLeft_append_of_ne_nil (x y : List Char) (hx : trimLeft x ≠ []) :
    trimLeft (x ++ y) = trimLeft x ++ y := by
  induction x with
  | nil => exact absurd rfl hx
  | cons c t ih =>
    by_cases h : isJsSpace c = true
    · rw [List.cons_append, trimLeft_cons_space c _ h, trimLeft_cons_space c t h]
      exact ih (by rwa [trimLeft_cons_space c t h] at hx)
    · rw [Bool.not_eq_true] at h
      rw [List.cons_append, trimLeft_cons_nonspace _ _ h, trimLeft_cons_nonspace _ _ h]
      simp

theorem trimLeft_all_spaces (x : List Char) (h : x.all isJsSpace = true) :
    trimLeft x = [] := by
  have := trimLeft_spaces_append x [] h
  simpa using this

theorem trimRight_all_spaces (x : List Char) (h : x.all isJsSpace = true) :
    trimRight x = [] := by
  unfold trimRight
  rw [trimLeft_all_spaces _ (by simpa using h)]
  rfl

theorem trimC_append_spaces (x sp : List Char) (h : sp.all isJsSpace = true) :
    trimC (x ++ sp) = trimC x := by
  unfold trimC
  by_cases hx : trimLeft x = []
  · have hxsp : (x ++ sp).all isJsSpace = true := by
      rw [List.all_append]
      refine Bool.and_eq_true .. ▸ ⟨?_, h⟩
      by_contra hcon
      rw [Bool.not_eq_true] at hcon
      rcases List.all_eq_false.mp hcon with ⟨c, hc, hcs⟩
      have hdec := List.takeWhile_append_dropWhile (p := isJsSpace) (l := x)
      have : c ∈ x.takeWhile isJsSpace := by
        rw [← hdec] at hc
        rcases List.mem_append.mp hc with h1 | h2
        · exact h1
        · exact absurd h2 (by rw [show x.dropWhile isJsSpace = trimLeft x from rfl, hx]; simp)
      have := List.mem_takeWhile_imp this
      simp_all
    rw [trimLeft_all_spaces _ hxsp, hx]
  · rw [trimLeft_append_of_ne_nil x sp hx, trimRight_append_spaces _ _ h]

theorem trimC_trimC (x : List Char) : trimC (trimC x) = trimC x := by
  unfold trimC
  have hdecomp := List.takeWhile_append_dropWhile (p := isJsSpace) (l := (trimLeft x).reverse)
  have hws : ((trimLeft x).reverse.takeWhile isJsSpace).all isJsSpace = true := by
    rw [List.all_eq_true]
    intro c hc
    exact List.mem_takeWhile_imp hc
  have hr : trimLeft x = trimRight (trimLeft x) ++ ((trimLeft x).reverse.takeWhile isJsSpace).reverse := by
    unfold trimRight
    conv_lhs => rw [← List.reverse_reverse (trimLeft x), ← hdecomp]
    rw [List.reverse_append]
    rfl
  have hleft : trimLeft (trimRight (trimLeft x)) = trimRight (trimLeft x) := by
    cases htr : trimRight (trimLeft x) with
    | nil => rfl
    | cons c t =>
      have hx2 : trimLeft x = c :: (t ++ ((trimLeft x).reverse.takeWhile isJsSpace).reverse) := by
        conv_lhs => rw [hr, htr]
        rw [List.cons_append]
      have hc : isJsSpace c = false := by
        by_contra hcon
        rw [Bool.not_eq_false] at hcon
        have := trimLeft_trimLeft x
        rw [hx2, trimLeft_cons_space c _ hcon] at this
        have hlen := congrArg List.length this
        have hle : (trimLeft (t ++ ((trimLeft x).reverse.takeWhile isJsSpace).reverse)).length
            ≤ (t ++ ((trimLeft x).reverse.takeWhile isJsSpace).reverse).length :=
          (List.dropWhile_sublist (p := isJsSpace)
            (l := t ++ ((trimLeft x).reverse.takeWhile isJsSpace).reverse)).length_le
        simp only [List.length_cons] at hlen
        omega
      rw [trimLeft_cons_nonspace c t hc]
  rw [hleft, trimRight_trimRight]

/-! ## The parser's user-section invariant (claim C4) -/

theorem finishSection_userCanon (p : PPromt) (sec : Sect) (lines : List (List Char))
    (use : Use) (segName : Option String)
    (h : ∀ u, p.user = some u → trimC u.data = u.data) :
    ∀ u, (finishSection p sec lines use segName).user = some u → trimC u.data = u.data := by
  intro u hu
  cases sec with
  | system => exact h u hu
  | user =>
    have hu2 : some (String.mk (trimC (joinNl lines))) = some u := hu
    cases hu2
    show trimC (trimC (joinNl lines)) = trimC (joinNl lines)
    exact trimC_trimC _
  | segment =>
    cases segName with
    | none => exact h u hu
    | some nm =>
      by_cases hnm : nm ≠ ""
      · have h3 : (if nm ≠ "" then ({ p with segment := some (insertOrUpdate (p.segment.getD []) nm (String.mk (trimC (joinNl lines)))) } : PPromt) else p).user = some u := hu
        rw [if_pos hnm] at h3
        exact h u h3
      · have h3 : (if nm ≠ "" then ({ p with segment := some (insertOrUpdate (p.segment.getD []) nm (String.mk (trimC (joinNl lines)))) } : PPromt) else p).user = some u := hu
        rw [if_neg hnm] at h3
        exact h u h3
  | options => exact h u hu
  | grammar =>
    by_cases hg : GrammarCheck (trimC (joinNl lines)) ≠ []
    · have h3 : (if GrammarCheck (trimC (joinNl lines)) ≠ [] then ({ p with grammar := some (String.mk (GrammarCheck (trimC (joinNl lines)))) } : PPromt) else p).user = some u := hu
      rw [if_pos hg] at h3
      exact h u h3
    · have h3 : (if GrammarCheck (trimC (joinNl lines)) ≠ [] then ({ p with grammar := some (String.mk (GrammarCheck (trimC (joinNl lines)))) } : PPromt) else p).user = some u := hu
      rw [if_neg hg] at h3
      exact h u h3

theorem flushPending_userCanon (use : Use) (st : PState) (p : PPromt)
    (h : ∀ u, p.user = some u → trimC u.data = u.data) :
    ∀ u, (flushPending use st p).user = some u → trimC u.data = u.data := by
  unfold flushPending
  cases st.sec with
  | none => exact h
  | some sec =>
    show ∀ u, (if st.buf ≠ [] then finishSection p sec st.buf use st.segName else p).user
        = some u → trimC u.data = u.data
    by_cases hb : st.buf ≠ []
    · rw [if_pos hb]
      exact finishSection_userCanon p sec st.buf use st.segName h
    · rw [if_neg hb]
      exact h

theorem flushCur_userCanon (use : Use) (st : PState)
    (h : ∀ p, st.cur = some p → ∀ u, p.user = some u → trimC u.data = u.data) :
    ∀ u, (flushCur use st).user = some u → trimC u.data = u.data := by
  unfold flushCur
  cases hc : st.cur with
  | none =>
    intro u hu
    exact Option.noConfusion hu
  | some p => exact flushPending_userCanon use st p (h p hc)

theorem emitted_userOk (use : Use) (st : PState)
    (hout : ∀ r ∈ st.out, trimC r.user.data = r.user.data ∧ r.user ≠ "")
    (hcur : ∀ p, st.cur = some p → ∀ u, p.user = some u → trimC u.data = u.data) :
    ∀ r ∈ emitted use st, trimC r.user.data = r.user.data ∧ r.user ≠ "" := by
  intro r hr
  cases hc : st.cur with
  | none =>
    have he : emitted use st = st.out := by simp [emitted, hc]
    rw [he] at hr
    exact hout r hr
  | some p =>
    cases hib : st.inBlock with
    | false =>
      have he : emitted use st = st.out := by simp [emitted, hc, hib]
      rw [he] at hr
      exact hout r hr
    | true =>
      have hcanon := flushPending_userCanon use st p (hcur p hc)
      cases hu : (flushPending use st p).user with
      | none =>
        have he : emitted use st = st.out := by simp [emitted, hc, hib, hu]
        rw [he] at hr
        exact hout r hr
      | some u =>
        by_cases hne : u ≠ ""
        · have he : emitted use st = st.out ++
              [⟨(flushPending use st p).system, u, (flushPending use st p).options,
                (flushPending use st p).segment, (flushPending use st p).grammar⟩] := by
            simp [emitted, hc, hib, hu, hne]
          rw [he] at hr
          rcases List.mem_append.mp hr with h1 | h2
          · exact hout r h1
          · have hrr : r = ⟨(flushPending use st p).system, u, (flushPending use st p).options,
                (flushPending use st p).segment, (flushPending use st p).grammar⟩ :=
              List.mem_singleton.mp h2
            subst hrr
            exact ⟨hcanon u hu, hne⟩
        · have he2 : u = "" := not_ne_iff.mp hne
          have he : emitted use st = st.out := by simp [emitted, hc, hib, hu, he2]
          rw [he] at hr
          exact hout r hr

theorem stepLine_userInv (use : Use) (st : PState) (line : List Char)
    (hout : ∀ r ∈ st.out, trimC r.user.data = r.user.data ∧ r.user ≠ "")
    (hcur : ∀ p, st.cur = some p → ∀ u, p.user = some u → trimC u.data = u.data) :
    (∀ r ∈ (stepLine use st line).out, trimC r.user.data = r.user.data ∧ r.user ≠ "")
    ∧ (∀ p, (stepLine use st line).cur = some p →
        ∀ u, p.user = some u → trimC u.data = u.data) := by
  have hstep : stepLine use st line =
      (if trimC line = "$$begin".data then ⟨true, some {}, none, none, [], emitted use st⟩
       else if trimC line = "$$end".data then ⟨false, none, none, none, [], emitted use st⟩
       else if !(st.inBlock && st.cur.isSome) then st
       else if trimC line = "$$system".data then { st with cur := some (flushCur use st), sec := some .system, segName := none, buf := [] }
       else if trimC line = "$$user".data then { st with cur := some (flushCur use st), sec := some .user, segName := none, buf := [] }
       else if trimC line = "$$options".data then { st with cur := some (flushCur use st), sec := some .options, segName := none, buf := [] }
       else if trimC line = "$$grammar".data then { st with cur := some (flushCur use st), sec := some .grammar, segName := none, buf := [] }
       else if leadsWith "$$segment=".data (trimC line) then { st with cur := some (flushCur use st), sec := some .segment, segName := some (String.mk (trimC ((trimC line).drop 10))), buf := [] }
       else match st.sec with
            | some _ => { st with buf := st.buf ++ [line] }
            | none => st) := rfl
  rw [hstep]
  split
  · refine ⟨emitted_userOk use st hout hcur, ?_⟩
    intro p hp u hu
    cases hp
    exact Option.noConfusion hu
  split
  · refine ⟨emitted_userOk use st hout hcur, ?_⟩
    intro p hp
    exact Option.noConfusion hp
  split
  · exact ⟨hout, hcur⟩
  split
  · refine ⟨hout, ?_⟩
    intro p hp
    cases hp
    exact flushCur_userCanon use st hcur
  split
  · refine ⟨hout, ?_⟩
    intro p hp
    cases hp
    exact flushCur_userCanon use st hcur
  split
  · refine ⟨hout, ?_⟩
    intro p hp
    cases hp
    exact flushCur_userCanon use st hcur
  split
  · refine ⟨hout, ?_⟩
    intro p hp
    cases hp
    exact flushCur_userCanon use st hcur
  split
  · refine ⟨hout, ?_⟩
    intro p hp
    cases hp
    exact flushCur_userCanon use st hcur
  split
  · exact ⟨hout, hcur⟩
  · exact ⟨hout, hcur⟩

theorem foldl_userInv (use : Use) (lines : List (List Char)) :
    ∀ st : PState,
      (∀ r ∈ st.out, trimC r.user.data = r.user.data ∧ r.user ≠ "") →
      (∀ p, st.cur = some p → ∀ u, p.user = some u → trimC u.data = u.data) →
      (∀ r ∈ (lines.foldl (stepLine use) st).out,
          trimC r.user.data = r.user.data ∧ r.user ≠ "")
      ∧ (∀ p, (lines.foldl (stepLine use) st).cur = some p →
          ∀ u, p.user = some u → trimC u.data = u.data) := by
  induction lines with
  | nil =>
    intro st h1 h2
    exact ⟨h1, h2⟩
  | cons l rest ih =>
    intro st h1 h2
    have h3 := stepLine_userInv use st l h1 h2
    exact ih (stepLine use st l) h3.1 h3.2

/-- C4: every record appearing in the output of `PromtLoad` has a `user`
text that is already trimmed and nonempty; consequently a block whose
`user` section was never set, or whose content trims to the empty string,
contributes no record — whatever other sections it contains. -/
theorem c4_user_required (raw : String) (use : Use) :
    ∀ r ∈ PromtLoad raw use, trimC r.user.data = r.user.data ∧ r.user ≠ "" := by
  have h := foldl_userInv use (splitNl raw.data) initState
    (by intro r hr; exact absurd hr (List.not_mem_nil r))
    (by intro p hp; exact Option.noConfusion hp)
  intro r hr
  exact emitted_userOk use _ h.1 h.2 r hr

/-! ## Decimal printing round-trips (toward the serializer round-trip) -/

theorem dvd_pow_ten_self : ∀ d : Nat, d ≠ 0 → (∃ j, d ∣ 10 ^ j) → d ∣ 10 ^ d := by
  intro d
  induction d using Nat.strong_induction_on with
  | _ d ih =>
    rintro hd ⟨j, hj⟩
    by_cases h1 : d = 1
    · subst h1
      exact one_dvd _
    by_cases hco : Nat.gcd d 10 = 1
    · have hcop : Nat.Coprime d (10 ^ j) := Nat.Coprime.pow_right j hco
      have hgl : Nat.gcd d (10 ^ j) = d := Nat.gcd_eq_left hj
      exact absurd (hgl ▸ hcop) h1
    · have hgdvd10 : Nat.gcd d 10 ∣ 10 := Nat.gcd_dvd_right d 10
      have hgdvdd : Nat.gcd d 10 ∣ d := Nat.gcd_dvd_left d 10
      have hg0 : Nat.gcd d 10 ≠ 0 := by
        intro h0
        exact hd (Nat.eq_zero_of_gcd_eq_zero_left h0)
      have hg2 : 2 ≤ Nat.gcd d 10 := by
        rcases Nat.lt_or_ge (Nat.gcd d 10) 2 with h2 | h2
        · omega
        · exact h2
      have hdd : d = Nat.gcd d 10 * (d / Nat.gcd d 10) := (Nat.mul_div_cancel' hgdvdd).symm
      have hd'lt : d / Nat.gcd d 10 < d := Nat.div_lt_self (Nat.pos_of_ne_zero hd) hg2
      have hd'0 : d / Nat.gcd d 10 ≠ 0 := by
        intro h0
        rw [h0, Nat.mul_zero] at hdd
        exact hd hdd
      have hd'dvd : d / Nat.gcd d 10 ∣ d := ⟨Nat.gcd d 10, by rw [mul_comm]; exact hdd⟩
      have ihd' : d / Nat.gcd d 10 ∣ 10 ^ (d / Nat.gcd d 10) :=
        ih _ hd'lt hd'0 ⟨j, dvd_trans hd'dvd hj⟩
      have hstep : d ∣ 10 ^ (d / Nat.gcd d 10 + 1) := by
        have hm : d / Nat.gcd d 10 * Nat.gcd d 10 ∣ 10 ^ (d / Nat.gcd d 10) * 10 :=
          mul_dvd_mul ihd' hgdvd10
        calc d = d / Nat.gcd d 10 * Nat.gcd d 10 := by rw [mul_comm]; exact hdd
          _ ∣ 10 ^ (d / Nat.gcd d 10) * 10 := hm
          _ = 10 ^ (d / Nat.gcd d 10 + 1) := (pow_succ 10 _).symm
      exact dvd_trans hstep (pow_dvd_pow 10 (by omega))

/-- `decExp` finds a valid exponent whenever one exists. -/
theorem decExp_spec (d : Nat) (hd : d ≠ 0) (h : ∃ j, d ∣ 10 ^ j) :
    ∃ k, decExp d = some k ∧ d ∣ 10 ^ k := by
  have hdd : d ∣ 10 ^ d := dvd_pow_ten_self d hd h
  unfold decExp
  cases hf : (List.range (d + 1)).find? (fun k => decide (d ∣ 10 ^ k)) with
  | none =>
    have hnone := List.find?_eq_none.mp hf d (by simp)
    simp at hnone
    exact absurd hdd hnone
  | some k =>
    refine ⟨k, rfl, ?_⟩
    have := List.find?_some hf
    simpa using this

theorem charDigit_digitChar (d : Nat) (h : d < 10) : charDigit (digitChar d) = d := by
  interval_cases d <;> decide

theorem isDigitC_digitChar (d : Nat) (h : d < 10) : isDigitC (digitChar d) = true := by
  interval_cases d <;> decide

theorem natDigitsAux_eq : ∀ fuel n, n ≤ fuel →
    natDigitsAux fuel n = (Nat.digits 10 n).map digitChar := by
  intro fuel
  induction fuel with
  | zero =>
    intro n h
    interval_cases n
    simp [natDigitsAux]
  | succ f ih =>
    intro n h
    by_cases h0 : n = 0
    · subst h0
      simp [natDigitsAux]
    · show (if n = 0 then [] else digitChar (n % 10) :: natDigitsAux f (n / 10)) = _
      rw [if_neg h0]
      rw [Nat.digits_def' (by norm_num : (1 : Nat) < 10) (Nat.pos_of_ne_zero h0)]
      rw [List.map_cons]
      have hdiv : n / 10 < n := Nat.div_lt_self (Nat.pos_of_ne_zero h0) (by norm_num)
      rw [ih (n / 10) (by omega)]

theorem natVal_append_one (a : List Char) (c : Char) :
    natVal (a ++ [c]) = 10 * natVal a + charDigit c := by
  simp [natVal, List.foldl_append]

theorem natVal_rev_map (ds : List Nat) (h : ∀ d ∈ ds, d < 10) :
    natVal ((ds.map digitChar).reverse) = Nat.ofDigits 10 ds := by
  induction ds with
  | nil => simp [natVal, Nat.ofDigits]
  | cons d rest ih =>
    simp only [List.map_cons, List.reverse_cons]
    rw [natVal_append_one, ih (fun x hx => h x (List.mem_cons_of_mem d hx)),
      charDigit_digitChar d (h d (List.mem_cons_self d rest)), Nat.ofDigits_cons]
    ring

theorem natVal_natDigitsStr (n : Nat) : natVal (natDigitsStr n) = n := by
  by_cases h0 : n = 0
  · subst h0
    decide
  · unfold natDigitsStr
    rw [if_neg h0, natDigitsAux_eq n n le_rfl,
      natVal_rev_map _ (fun d hd => Nat.digits_lt_base (by norm_num) hd)]
    exact Nat.ofDigits_digits 10 n

theorem natVal_cons_zero (cs : List Char) : natVal ('0' :: cs) = natVal cs := by
  have h : 10 * 0 + charDigit '0' = 0 := by decide
  show List.foldl _ (10 * 0 + charDigit '0') cs = List.foldl _ 0 cs
  rw [h]

theorem natVal_replicate_zero (k : Nat) (cs : List Char) :
    natVal (List.replicate k '0' ++ cs) = natVal cs := by
  induction k with
  | zero => simp
  | succ j ih =>
    rw [List.replicate_succ, List.cons_append, natVal_cons_zero]
    exact ih

theorem natVal_foldl_shift : ∀ (b : List Char) (s : Nat),
    List.foldl (fun a c => 10 * a + charDigit c) s b = s * 10 ^ b.length + natVal b := by
  intro b
  induction b with
  | nil => intro s; simp [natVal]
  | cons c t ih =>
    intro s
    show List.foldl _ (10 * s + charDigit c) t = _
    rw [ih (10 * s + charDigit c)]
    have hnv : natVal (c :: t) = charDigit c * 10 ^ t.length + natVal t := by
      show List.foldl _ (10 * 0 + charDigit c) t = _
      rw [ih (10 * 0 + charDigit c)]
      ring
    rw [hnv, List.length_cons]
    ring

theorem natVal_append (a b : List Char) :
    natVal (a ++ b) = natVal a * 10 ^ b.length + natVal b := by
  show List.foldl _ 0 (a ++ b) = _
  rw [List.foldl_append]
  exact natVal_foldl_shift b (natVal a)

theorem natDigitsStr_digits (n : Nat) : (natDigitsStr n).all isDigitC = true := by
  by_cases h0 : n = 0
  · subst h0
    decide
  · unfold natDigitsStr
    rw [if_neg h0, natDigitsAux_eq n n le_rfl]
    simp only [List.all_eq_true, List.mem_reverse, List.mem_map]
    rintro c ⟨d, hd, rfl⟩
    exact isDigitC_digitChar d (Nat.digits_lt_base (by norm_num) hd)

theorem natDigitsStr_ne_nil (n : Nat) : natDigitsStr n ≠ [] := by
  by_cases h0 : n = 0
  · subst h0
    decide
  · unfold natDigitsStr
    rw [if_neg h0, natDigitsAux_eq n n le_rfl]
    simp only [ne_eq, List.reverse_eq_nil_iff, List.map_eq_nil]
    exact Nat.digits_ne_nil_iff_ne_zero.mpr h0

theorem natDigitsStr_head_ne_zero (n : Nat) (h0 : n ≠ 0) :
    ∃ c t, natDigitsStr n = c :: t ∧ c ≠ '0' := by
  have hne : Nat.digits 10 n ≠ [] := Nat.digits_ne_nil_iff_ne_zero.mpr h0
  obtain ⟨d, hd_eq⟩ : ∃ d, (Nat.digits 10 n).getLast hne = d := ⟨_, rfl⟩
  have hlast : d ≠ 0 := hd_eq ▸ Nat.getLast_digit_ne_zero 10 h0
  have hlt : d < 10 := hd_eq ▸ Nat.digits_lt_base (by norm_num) (List.getLast_mem hne)
  have hhead : (natDigitsStr n).head? = some (digitChar d) := by
    unfold natDigitsStr
    rw [if_neg h0, natDigitsAux_eq n n le_rfl, List.head?_reverse, List.getLast?_map,
      List.getLast?_eq_getLast _ hne, hd_eq]
    rfl
  cases hstr : natDigitsStr n with
  | nil => rw [hstr] at hhead; exact absurd hhead (by simp)
  | cons c t =>
    rw [hstr] at hhead
    simp only [List.head?_cons, Option.some.injEq] at hhead
    refine ⟨c, t, rfl, ?_⟩
    subst hhead
    interval_cases d
    · exact absurd rfl hlast
    all_goals decide

theorem takeWhile_all_append {α : Type} (p : α → Bool) (a b : List α)
    (h : a.all p = true) : (a ++ b).takeWhile p = a ++ b.takeWhile p := by
  induction a with
  | nil => simp
  | cons x t ih =>
    simp only [List.all_cons, Bool.and_eq_true] at h
    simp [List.cons_append, List.takeWhile_cons, h.1, ih h.2]

theorem dropWhile_all_append {α : Type} (p : α → Bool) (a b : List α)
    (h : a.all p = true) : (a ++ b).dropWhile p = b.dropWhile p := by
  induction a with
  | nil => simp
  | cons x t ih =>
    simp only [List.all_cons, Bool.and_eq_true] at h
    simp only [List.cons_append, List.dropWhile_cons, h.1, if_true]
    exact ih h.2

theorem takeWhile_nil_of_head {α : Type} (p : α → Bool) (b : List α) (c : α)
    (hc : b.head? = some c) (h : p c = false) : b.takeWhile p = [] := by
  cases b with
  | nil => simp at hc
  | cons x t =>
    simp only [List.head?_cons, Option.some.injEq] at hc
    subst hc
    simp [List.takeWhile_cons, h]

theorem dropWhile_id_of_head {α : Type} (p : α → Bool) (b : List α) (c : α)
    (hc : b.head? = some c) (h : p c = false) : b.dropWhile p = b := by
  cases b with
  | nil => simp at hc
  | cons x t =>
    simp only [List.head?_cons, Option.some.injEq] at hc
    subst hc
    simp [List.dropWhile_cons, h]

/-- The decimal printer, decomposed: a sign, a nonempty integer-digit run
with no spurious leading zero, and `k` fraction digits, whose combined
digit value matches `q` exactly. -/
theorem printNum_spec (q : ℚ) (h : ∃ j, q.den ∣ 10 ^ j) :
    ∃ k ip fp, printNum q = (if q.num < 0 then ['-'] else []) ++ ip
        ++ (if k = 0 then [] else '.' :: fp)
      ∧ ip.all isDigitC = true ∧ fp.all isDigitC = true ∧ fp.length = k ∧ ip ≠ []
      ∧ (ip = ['0'] ∨ ∃ c t, ip = c :: t ∧ isDigitC c = true ∧ c ≠ '0')
      ∧ (natVal ip * 10 ^ k + natVal fp) * q.den = q.num.natAbs * 10 ^ k := by
  obtain ⟨k, hk, hdvd⟩ := decExp_spec q.den q.den_nz h
  set L := natDigitsStr (q.num.natAbs * 10 ^ k / q.den) with hL
  set P := leftPad '0' (k + 1) L with hP
  have hLne : L ≠ [] := natDigitsStr_ne_nil _
  have hPlen : k + 1 ≤ P.length := by
    rw [hP, leftPad, List.length_append, List.length_replicate]
    omega
  have hPall : P.all isDigitC = true := by
    rw [hP, leftPad]
    apply List.all_eq_true.mpr
    intro c hc
    rcases List.mem_append.mp hc with h1 | h2
    · rw [List.eq_of_mem_replicate h1]
      decide
    · exact List.all_eq_true.mp (natDigitsStr_digits _) c h2
  have hPval : natVal P = q.num.natAbs * 10 ^ k / q.den := by
    rw [hP, leftPad, natVal_replicate_zero, hL, natVal_natDigitsStr]
  refine ⟨k, P.take (P.length - k), P.drop (P.length - k), ?_, ?_, ?_, ?_, ?_, ?_, ?_⟩
  · unfold printNum
    rw [hk]
  · exact List.all_eq_true.mpr fun c hc =>
      List.all_eq_true.mp hPall c ((List.take_sublist _ _).subset hc)
  · exact List.all_eq_true.mpr fun c hc =>
      List.all_eq_true.mp hPall c ((List.drop_sublist _ _).subset hc)
  · rw [List.length_drop]
    omega
  · intro hnil
    have := congrArg List.length hnil
    rw [List.length_take] at this
    simp at this
    omega
  · by_cases hlen : L.length ≤ k
    · left
      have hPlen' : P.length = k + 1 := by
        rw [hP, leftPad, List.length_append, List.length_replicate]
        omega
      have h1 : P.length - k = 1 := by omega
      rw [h1, hP, leftPad, show k + 1 - L.length = (k - L.length) + 1 from by omega,
        List.replicate_succ, List.cons_append]
      rfl
    · have hpad0 : k + 1 - L.length = 0 := by omega
      have hPL : P = L := by
        rw [hP, leftPad, hpad0]
        rfl
      by_cases hm0 : q.num.natAbs * 10 ^ k / q.den = 0
      · left
        have hL0 : L = ['0'] := by
          rw [hL, hm0]
          rfl
        have hlen1 : L.length = 1 := by rw [hL0]; rfl
        have hk0 : k = 0 := by omega
        rw [hPL, hL0, hk0]
        rfl
      · right
        obtain ⟨c, t, hct, hc0⟩ := natDigitsStr_head_ne_zero _ hm0
        have hLct : L = c :: t := hL ▸ hct
        rw [hPL, hLct]
        have hpos : 1 ≤ (c :: t).length - k := by
          have hlen2 := hlen
          rw [hLct] at hlen2
          omega
        refine ⟨c, ((c :: t).take ((c :: t).length - k)).tail, ?_, ?_, hc0⟩
        · rw [show (c :: t).length - k = ((c :: t).length - k - 1) + 1 from by omega,
            List.take_succ_cons]
          rfl
        · apply List.all_eq_true.mp hPall c
          rw [hPL, hLct]
          exact List.mem_cons_self c t
  · have hsplit : P.take (P.length - k) ++ P.drop (P.length - k) = P :=
      List.take_append_drop _ _
    have hval : natVal (P.take (P.length - k)) * 10 ^ (P.drop (P.length - k)).length
        + natVal (P.drop (P.length - k)) = q.num.natAbs * 10 ^ k / q.den := by
      rw [← natVal_append, hsplit, hPval]
    rw [List.length_drop, show P.length - (P.length - k) = k from by omega] at hval
    rw [hval]
    exact Nat.div_mul_cancel (Dvd.dvd.mul_left hdvd _)

theorem takeWhile_all {α : Type} (p : α → Bool) (l : List α) (h : l.all p = true) :
    l.takeWhile p = l := by
  have := takeWhile_all_append p l [] h
  simpa using this

theorem dropWhile_all {α : Type} (p : α → Bool) (l : List α) (h : l.all p = true) :
    l.dropWhile p = [] := by
  have := dropWhile_all_append p l [] h
  simpa using this

theorem isJsSpace_of_digit (c : Char) (h : isDigitC c = true) : isJsSpace c = false := by
  by_contra hcon
  rw [Bool.not_eq_false] at hcon
  unfold isJsSpace at hcon
  simp only [Bool.or_eq_true, decide_eq_true_eq] at hcon
  unfold isDigitC at h
  simp only [Bool.and_eq_true, decide_eq_true_eq] at h
  rcases hcon with ((((hc | hc) | hc) | hc) | hc) | hc <;> (subst hc; revert h; decide)

theorem rat_mul_den (q : ℚ) : q * (q.den : ℚ) = (q.num : ℚ) := by
  have hden : ((q.den : ℚ)) ≠ 0 := Nat.cast_ne_zero.mpr q.den_nz
  nth_rewrite 1 [← Rat.num_div_den q]
  exact div_mul_cancel₀ _ hden

/-- The value a decimal parse produces is `q` itself whenever the digit
value matches `q` cross-multiplied. -/
theorem mkRat_sign_eq (q : ℚ) (N m : Nat)
    (hN : N * q.den = q.num.natAbs * 10 ^ m) :
    mkRat ((if q.num < 0 then (-1 : ℤ) else 1) * N) (10 ^ m) = q := by
  have hden : ((q.den : ℚ)) ≠ 0 := Nat.cast_ne_zero.mpr q.den_nz
  have hpow : (((10 ^ m : ℕ) : ℚ)) ≠ 0 := by positivity
  have key : ((if q.num < 0 then (-1 : ℤ) else 1) * N) * (q.den : ℤ) = q.num * 10 ^ m := by
    have hNz : (N : ℤ) * (q.den : ℤ) = (q.num.natAbs : ℤ) * 10 ^ m := by exact_mod_cast hN
    by_cases hneg : q.num < 0
    · have habs : ((q.num.natAbs : ℤ)) = -q.num := by omega
      rw [if_pos hneg]
      calc ((-1 : ℤ) * N) * q.den = -((N : ℤ) * q.den) := by ring
        _ = -((q.num.natAbs : ℤ) * 10 ^ m) := by rw [hNz]
        _ = q.num * 10 ^ m := by rw [habs]; ring
    · have habs : ((q.num.natAbs : ℤ)) = q.num := by omega
      rw [if_neg hneg]
      calc ((1 : ℤ) * N) * q.den = (N : ℤ) * q.den := by ring
        _ = (q.num.natAbs : ℤ) * 10 ^ m := hNz
        _ = q.num * 10 ^ m := by rw [habs]
  rw [Rat.mkRat_eq_div, div_eq_iff hpow]
  apply mul_right_cancel₀ hden
  have hlhs : (((if q.num < 0 then (-1 : ℤ) else 1) * N : ℤ) : ℚ) * (q.den : ℚ)
      = ((q.num * 10 ^ m : ℤ) : ℚ) := by
    rw [← key]
    push_cast
    ring
  rw [hlhs, mul_comm q _, mul_assoc, rat_mul_den q]
  push_cast
  ring

/-- `parseFloat` on a sign, digit run, and optional fraction. -/
theorem parseFloatQ_shape (sgnNeg : Bool) (ip fp : List Char) (k : Nat)
    (hipd : ip.all isDigitC = true) (hfpd : fp.all isDigitC = true)
    (hipne : ip ≠ []) (hfplen : fp.length = k) :
    parseFloatQ ((if sgnNeg then ['-'] else []) ++ ip ++ (if k = 0 then [] else '.' :: fp))
      = some (mkRat ((if sgnNeg then (-1 : ℤ) else 1)
          * (natVal ip * 10 ^ fp.length + natVal fp)) (10 ^ fp.length)) := by
  obtain ⟨c0, t0, hip⟩ : ∃ c0 t0, ip = c0 :: t0 := by
    cases ip with
    | nil => exact absurd rfl hipne
    | cons a b => exact ⟨a, b, rfl⟩
  have hc0d : isDigitC c0 = true :=
    List.all_eq_true.mp hipd c0 (by rw [hip]; exact List.mem_cons_self _ _)
  have hc0sp : isJsSpace c0 = false := isJsSpace_of_digit c0 hc0d
  have hc0m : c0 ≠ '-' := by
    intro he
    rw [he] at hc0d
    exact absurd hc0d (by decide)
  have hc0p : c0 ≠ '+' := by
    intro he
    rw [he] at hc0d
    exact absurd hc0d (by decide)
  by_cases hk : k = 0
  · have hfp : fp = [] := by
      rw [hk] at hfplen
      exact List.length_eq_zero.mp hfplen
    subst hfp
    rw [if_pos hk]
    cases sgnNeg with
    | true =>
      have hin : (if true then ['-'] else []) ++ ip ++ ([] : List Char) = '-' :: ip := by simp
      rw [hin]
      have htl : trimLeft ('-' :: ip) = '-' :: ip :=
        dropWhile_id_of_head _ _ '-' rfl (by decide)
      have htw : ip.takeWhile isDigitC = ip := takeWhile_all _ _ hipd
      have hsgn : (decide True || decide (('-' : Char) = '+')) = true := by decide
      simp only [parseFloatQ, htl, List.head?_cons, signStrip]
      simp [hsgn, htw, hipne, show natVal ([] : List Char) = 0 from rfl]
    | false =>
      have hin : (if false then ['-'] else []) ++ ip ++ ([] : List Char) = ip := by simp
      rw [hin, hip]
      have htl : trimLeft (c0 :: t0) = c0 :: t0 :=
        dropWhile_id_of_head _ _ c0 rfl hc0sp
      have htw : (c0 :: t0).takeWhile isDigitC = c0 :: t0 := by
        rw [← hip]
        exact takeWhile_all _ _ hipd
      have hipne' : c0 :: t0 ≠ [] := by simp
      simp only [parseFloatQ, htl, List.head?_cons, signStrip]
      simp [hc0m, hc0p, htw, hipne', show natVal ([] : List Char) = 0 from rfl]
  · rw [if_neg hk]
    have htail : (ip ++ '.' :: fp).takeWhile isDigitC = ip := by
      rw [takeWhile_all_append _ _ _ hipd,
        takeWhile_nil_of_head isDigitC ('.' :: fp) '.' rfl (by decide), List.append_nil]
    have hdrop : (ip ++ '.' :: fp).drop ip.length = '.' :: fp := List.drop_left _ _
    have hfptw : fp.takeWhile isDigitC = fp := takeWhile_all _ _ hfpd
    cases sgnNeg with
    | true =>
      have hin : (if true then ['-'] else []) ++ ip ++ '.' :: fp = '-' :: (ip ++ '.' :: fp) := by
        simp
      rw [hin]
      have htl : trimLeft ('-' :: (ip ++ '.' :: fp)) = '-' :: (ip ++ '.' :: fp) :=
        dropWhile_id_of_head _ _ '-' rfl (by decide)
      have hsgn : (decide True || decide (('-' : Char) = '+')) = true := by decide
      simp only [parseFloatQ, htl, List.head?_cons, signStrip]
      simp [hsgn, htail, hdrop, hfptw, hipne]
    | false =>
      have hin : (if false then ['-'] else []) ++ ip ++ '.' :: fp = c0 :: (t0 ++ '.' :: fp) := by
        rw [hip]
        simp
      rw [hin]
      have htl : trimLeft (c0 :: (t0 ++ '.' :: fp)) = c0 :: (t0 ++ '.' :: fp) :=
        dropWhile_id_of_head _ _ c0 rfl hc0sp
      have htail' : List.takeWhile isDigitC (c0 :: (t0 ++ '.' :: fp)) = c0 :: t0 := by
        rw [← List.cons_append, ← hip]
        exact htail
      have hdrop' : List.drop (c0 :: t0).length (c0 :: (t0 ++ '.' :: fp)) = '.' :: fp := by
        rw [← List.cons_append, ← hip]
        exact hdrop
      simp only [parseFloatQ, htl, List.head?_cons]
      simp [signStrip, hc0m, hc0p, htail', hdrop', hfptw, hip]

/-- `parseFloat` inverts the decimal printer on denominators dividing a
power of ten. -/
theorem parseFloatQ_printNum (q : ℚ) (h : ∃ j, q.den ∣ 10 ^ j) :
    parseFloatQ (printNum q) = some q := by
  obtain ⟨k, ip, fp, hprint, hipd, hfpd, hfplen, hipne, hipsh, heq⟩ := printNum_spec q h
  have heq' : (natVal ip * 10 ^ fp.length + natVal fp) * q.den
      = q.num.natAbs * 10 ^ fp.length := by
    rw [hfplen]
    exact heq
  have hval := mkRat_sign_eq q (natVal ip * 10 ^ fp.length + natVal fp) fp.length heq'
  by_cases hneg : q.num < 0
  · have hs := parseFloatQ_shape true ip fp k hipd hfpd hipne hfplen
    norm_num at hs
    rw [hprint, if_pos hneg]
    simp only [List.cons_append, List.nil_append]
    rw [hs]
    rw [if_pos hneg] at hval
    rw [← hval]
    apply congrArg some
    congr 1
    push_cast
    ring
  · have hs := parseFloatQ_shape false ip fp k hipd hfpd hipne hfplen
    norm_num at hs
    rw [hprint, if_neg hneg]
    simp only [List.nil_append]
    rw [hs]
    rw [if_neg hneg] at hval
    rw [← hval]
    apply congrArg some
    congr 1
    push_cast
    ring

theorem numIntP_run (ip tail : List Char) (hipd : ip.all isDigitC = true)
    (hipsh : ip = ['0'] ∨ ∃ c t, ip = c :: t ∧ isDigitC c = true ∧ c ≠ '0')
    (htwt : tail.takeWhile isDigitC = []) (hdwt : tail.dropWhile isDigitC = tail) :
    numIntP (ip ++ tail) = some (ip, tail) := by
  rcases hipsh with h0 | ⟨c, t, hct, hcd, hcz⟩
  · rw [h0]
    simp [numIntP]
  · rw [hct, List.cons_append]
    show (if c = '0' then some (['0'], t ++ tail)
      else if isDigitC c then some ((c :: (t ++ tail)).takeWhile isDigitC,
        (c :: (t ++ tail)).dropWhile isDigitC)
      else none) = some (c :: t, tail)
    rw [if_neg hcz, if_pos hcd, ← List.cons_append, ← hct,
      takeWhile_all_append _ _ _ hipd, htwt, List.append_nil,
      dropWhile_all_append _ _ _ hipd, hdwt]

theorem numFracP_dot (fp tail : List Char) (hfpd : fp.all isDigitC = true)
    (hfpne : fp ≠ []) (htwt : tail.takeWhile isDigitC = [])
    (hdwt : tail.dropWhile isDigitC = tail) :
    numFracP ('.' :: (fp ++ tail)) = some (fp, tail) := by
  have htw : (fp ++ tail).takeWhile isDigitC = fp := by
    rw [takeWhile_all_append _ _ _ hfpd, htwt, List.append_nil]
  have hdw : (fp ++ tail).dropWhile isDigitC = tail :=
    (dropWhile_all_append _ _ _ hfpd).trans hdwt
  simp only [numFracP]
  simp [htw, hdw, hfpne]

theorem numFracP_skip (tail : List Char)
    (hhd : ∀ c r, tail = c :: r → c ≠ '.') : numFracP tail = some ([], tail) := by
  cases htl : tail with
  | nil => rfl
  | cons c r =>
    simp only [numFracP]
    rw [if_neg (hhd c r htl)]

theorem numExpP_skip (tail : List Char)
    (hhd : ∀ c r, tail = c :: r → c ≠ 'e' ∧ c ≠ 'E') : numExpP tail = some (0, tail) := by
  cases htl : tail with
  | nil => rfl
  | cons c r =>
    simp only [numExpP]
    rw [if_neg (by simp [(hhd c r htl).1, (hhd c r htl).2])]

/-- The strict JSON number parser on a printed sign, digit run and optional
fraction, followed by a non-extending rest. -/
theorem parseJNum_shape (sgnNeg : Bool) (ip fp rest : List Char) (k : Nat)
    (hipd : ip.all isDigitC = true) (hfpd : fp.all isDigitC = true)
    (hfplen : fp.length = k)
    (hipsh : ip = ['0'] ∨ ∃ c t, ip = c :: t ∧ isDigitC c = true ∧ c ≠ '0')
    (hrest : restDelim rest = true) :
    parseJNum ((if sgnNeg then ['-'] else []) ++ ip
        ++ (if k = 0 then [] else '.' :: fp) ++ rest)
      = some (mkRat ((if sgnNeg then (-1 : ℤ) else 1)
          * (natVal ip * 10 ^ fp.length + natVal fp)) (10 ^ fp.length), rest) := by
  have hrhead : ∀ c r, rest = c :: r →
      isDigitC c = false ∧ c ≠ '.' ∧ c ≠ 'e' ∧ c ≠ 'E' := by
    intro c r hr
    rw [hr] at hrest
    unfold restDelim at hrest
    simp only [Bool.not_eq_true', Bool.or_eq_false_iff, decide_eq_false_iff_not] at hrest
    exact ⟨hrest.1.1.1, hrest.1.1.2, hrest.1.2, hrest.2⟩
  have htw0 : rest.takeWhile isDigitC = [] := by
    cases hr : rest with
    | nil => simp
    | cons c r => exact takeWhile_nil_of_head _ _ c rfl (hrhead c r hr).1
  have hdw0 : rest.dropWhile isDigitC = rest := by
    cases hr : rest with
    | nil => simp
    | cons c r =>
      rw [← hr]
      exact dropWhile_id_of_head _ _ c (by rw [hr]; rfl) (hrhead c r hr).1
  have hexp : numExpP rest = some (0, rest) :=
    numExpP_skip rest (fun c r hr => ⟨(hrhead c r hr).2.2.1, (hrhead c r hr).2.2.2⟩)
  have hint : numIntP (ip ++ ((if k = 0 then [] else '.' :: fp) ++ rest))
      = some (ip, (if k = 0 then [] else '.' :: fp) ++ rest) := by
    apply numIntP_run ip _ hipd hipsh
    · by_cases hk : k = 0
      · rw [if_pos hk, List.nil_append]
        exact htw0
      · rw [if_neg hk, List.cons_append]
        exact takeWhile_nil_of_head _ _ '.' rfl (by decide)
    · by_cases hk : k = 0
      · rw [if_pos hk, List.nil_append]
        exact hdw0
      · rw [if_neg hk, List.cons_append]
        exact dropWhile_id_of_head _ _ '.' rfl (by decide)
  have hfrac : numFracP ((if k = 0 then [] else '.' :: fp) ++ rest)
      = some ((if k = 0 then [] else fp), rest) := by
    by_cases hk : k = 0
    · rw [if_pos hk, if_pos hk, List.nil_append]
      exact numFracP_skip rest (fun c r hr => (hrhead c r hr).2.1)
    · rw [if_neg hk, if_neg hk, List.cons_append]
      exact numFracP_dot fp rest hfpd
        (by intro hfp; rw [hfp] at hfplen; exact hk hfplen.symm) htw0 hdw0
  have hfp_eq : (if k = 0 then [] else fp) = fp := by
    by_cases hk : k = 0
    · rw [if_pos hk]
      rw [hk] at hfplen
      exact (List.length_eq_zero.mp hfplen).symm
    · rw [if_neg hk]
  rw [hfp_eq] at hfrac
  cases sgnNeg with
  | true =>
    have hin : (if true then ['-'] else []) ++ ip ++ (if k = 0 then [] else '.' :: fp) ++ rest
        = '-' :: (ip ++ ((if k = 0 then [] else '.' :: fp) ++ rest)) := by
      simp
    rw [hin]
    simp only [parseJNum, if_true]
    rw [hint]
    simp only [hfrac]
    rw [hexp]
    simp
  | false =>
    have hin : (if false then ['-'] else []) ++ ip ++ (if k = 0 then [] else '.' :: fp) ++ rest
        = ip ++ ((if k = 0 then [] else '.' :: fp) ++ rest) := by
      simp
    rw [hin]
    obtain ⟨c0, t0, hip, hc0d⟩ : ∃ c0 t0, ip = c0 :: t0 ∧ isDigitC c0 = true := by
      rcases hipsh with h0 | ⟨c, t, hct, hcd, _⟩
      · exact ⟨'0', [], h0, by decide⟩
      · exact ⟨c, t, hct, hcd⟩
    have hc0m : c0 ≠ '-' := by
      intro he
      rw [he] at hc0d
      exact absurd hc0d (by decide)
    have hcons : ip ++ ((if k = 0 then [] else '.' :: fp) ++ rest)
        = c0 :: (t0 ++ ((if k = 0 then [] else '.' :: fp) ++ rest)) := by
      rw [hip, List.cons_append]
    rw [hcons]
    simp only [parseJNum, hc0m, if_false]
    rw [← hcons, hint]
    simp only [hfrac]
    rw [hexp]
    simp

/-- The strict JSON number parser inverts the decimal printer, leaving any
non-extending rest unconsumed. -/
theorem parseJNum_printNum (q : ℚ) (h : ∃ j, q.den ∣ 10 ^ j) (rest : List Char)
    (hrest : restDelim rest = true) :
    parseJNum (printNum q ++ rest) = some (q, rest) := by
  obtain ⟨k, ip, fp, hprint, hipd, hfpd, hfplen, hipne, hipsh, heq⟩ := printNum_spec q h
  have heq' : (natVal ip * 10 ^ fp.length + natVal fp) * q.den
      = q.num.natAbs * 10 ^ fp.length := by
    rw [hfplen]
    exact heq
  have hval := mkRat_sign_eq q (natVal ip * 10 ^ fp.length + natVal fp) fp.length heq'
  by_cases hneg : q.num < 0
  · have hs := parseJNum_shape true ip fp rest k hipd hfpd hfplen hipsh hrest
    norm_num at hs
    rw [hprint, if_pos hneg]
    simp only [List.cons_append, List.nil_append, List.append_assoc] at hs ⊢
    rw [hs]
    rw [if_pos hneg] at hval
    rw [← hval]
    simp only [Option.some.injEq, Prod.mk.injEq, and_true]
    congr 1
    push_cast
    ring
  · have hs := parseJNum_shape false ip fp rest k hipd hfpd hfplen hipsh hrest
    norm_num at hs
    rw [hprint, if_neg hneg]
    simp only [List.cons_append, List.nil_append, List.append_assoc] at hs ⊢
    rw [hs]
    rw [if_neg hneg] at hval
    rw [← hval]
    simp only [Option.some.injEq, Prod.mk.injEq, and_true]
    congr 1
    push_cast
    ring

theorem getLast?_append_right {α : Type} (a b : List α) (hb : b ≠ []) :
    (a ++ b).getLast? = b.getLast? := by
  rw [← List.head?_reverse, List.reverse_append, ← List.head?_reverse]
  cases hbr : b.reverse with
  | nil => exact absurd (by simpa using hbr) hb
  | cons x t => simp [hbr]

theorem getLast?_mem_of_ne_nil {α : Type} (l : List α) (h : l ≠ []) :
    ∃ c, l.getLast? = some c ∧ c ∈ l :=
  ⟨l.getLast h, List.getLast?_eq_getLast l h, List.getLast_mem h⟩

/-- Every character the decimal printer emits is a sign, a dot or a digit. -/
theorem printNum_chars (q : ℚ) (h : ∃ j, q.den ∣ 10 ^ j) :
    ∀ c ∈ printNum q, c = '-' ∨ c = '.' ∨ isDigitC c = true := by
  obtain ⟨k, ip, fp, hprint, hipd, hfpd, _, _, _, _⟩ := printNum_spec q h
  intro c hc
  rw [hprint] at hc
  rcases List.mem_append.mp hc with h1 | h2
  · rcases List.mem_append.mp h1 with h3 | h4
    · left
      by_cases hneg : q.num < 0
      · rw [if_pos hneg] at h3
        simpa using h3
      · rw [if_neg hneg] at h3
        simp at h3
    · right; right
      exact List.all_eq_true.mp hipd c h4
  · by_cases hk : k = 0
    · rw [if_pos hk] at h2
      simp at h2
    · rw [if_neg hk] at h2
      rcases List.mem_cons.mp h2 with h3 | h4
      · right; left
        exact h3
      · right; right
        exact List.all_eq_true.mp hfpd c h4

/-- The decimal printer's first character: a minus sign or a digit. -/
theorem printNum_head (q : ℚ) (h : ∃ j, q.den ∣ 10 ^ j) :
    ∃ c t, printNum q = c :: t ∧ (c = '-' ∨ isDigitC c = true) := by
  obtain ⟨k, ip, fp, hprint, hipd, _, _, hipne, _, _⟩ := printNum_spec q h
  obtain ⟨c0, t0, hip⟩ : ∃ c0 t0, ip = c0 :: t0 := by
    cases ip with
    | nil => exact absurd rfl hipne
    | cons a b => exact ⟨a, b, rfl⟩
  have hc0d : isDigitC c0 = true :=
    List.all_eq_true.mp hipd c0 (by rw [hip]; exact List.mem_cons_self _ _)
  by_cases hneg : q.num < 0
  · refine ⟨'-', ip ++ (if k = 0 then [] else '.' :: fp), ?_, Or.inl rfl⟩
    rw [hprint, if_pos hneg]
    simp
  · refine ⟨c0, t0 ++ (if k = 0 then [] else '.' :: fp), ?_, Or.inr hc0d⟩
    rw [hprint, if_neg hneg, hip]
    simp

/-- The decimal printer's last character is a digit. -/
theorem printNum_last (q : ℚ) (h : ∃ j, q.den ∣ 10 ^ j) :
    ∃ c, (printNum q).getLast? = some c ∧ isDigitC c = true := by
  obtain ⟨k, ip, fp, hprint, hipd, hfpd, hfplen, hipne, _, _⟩ := printNum_spec q h
  by_cases hk : k = 0
  · obtain ⟨c, hlast, hmem⟩ := getLast?_mem_of_ne_nil ip hipne
    refine ⟨c, ?_, List.all_eq_true.mp hipd c hmem⟩
    rw [hprint, if_pos hk, List.append_nil, getLast?_append_right _ _ hipne]
    exact hlast
  · have hfpne : fp ≠ [] := by
      intro hfp
      rw [hfp] at hfplen
      exact hk hfplen.symm
    obtain ⟨c, hlast, hmem⟩ := getLast?_mem_of_ne_nil fp hfpne
    refine ⟨c, ?_, List.all_eq_true.mp hfpd c hmem⟩
    rw [hprint, if_neg hk, getLast?_append_right _ _ (by simp),
      show ('.' :: fp) = ['.'] ++ fp from rfl, getLast?_append_right _ _ hfpne]
    exact hlast

/-! ## String-escape round-trip -/

theorem hexDigitVal_hexDigitChar (d : Nat) (h : d < 16) :
    hexDigitVal (lowHexDigit d) = some d := by
  interval_cases d <;> decide

/-- The string-body scanner undoes `JSON.stringify`'s escaping, stopping at
the closing quote. -/
theorem scanJStr_esc : ∀ (cs acc rest : List Char) (fuel : Nat),
    (cs.map escapeCharJ).flatten.length + rest.length + 1 ≤ fuel →
    scanJStr fuel acc ((cs.map escapeCharJ).flatten ++ dq :: rest)
      = some (String.mk (acc.reverse ++ cs), rest) := by
  intro cs
  induction cs with
  | nil =>
    intro acc rest fuel hfuel
    cases fuel with
    | zero => omega
    | succ f =>
      simp only [List.map_nil, List.flatten_nil, List.nil_append]
      show some (String.mk acc.reverse, rest) = _
      simp
  | cons c cs' ih =>
    intro acc rest fuel hfuel
    simp only [List.map_cons, List.flatten_cons, List.length_append] at hfuel ⊢
    rw [List.append_assoc]
    by_cases h1 : c = dq
    · subst h1
      rw [show escapeCharJ dq = [bs, dq] from rfl]
      cases fuel with
      | zero => simp [show escapeCharJ dq = [bs, dq] from rfl] at hfuel
      | succ f =>
        rw [show ([bs, dq] : List Char) ++ ((cs'.map escapeCharJ).flatten ++ dq :: rest)
          = bs :: dq :: ((cs'.map escapeCharJ).flatten ++ dq :: rest) from rfl]
        rw [show ∀ a X, scanJStr (f + 1) a (bs :: dq :: X) = scanJStr f (dq :: a) X
          from fun _ _ => rfl]
        rw [ih (dq :: acc) rest f (by simp only [show escapeCharJ dq = [bs, dq] from rfl, List.length_cons, List.length_nil] at hfuel; omega)]
        simp
    · by_cases h2 : c = bs
      · subst h2
        rw [show escapeCharJ bs = [bs, bs] from rfl]
        cases fuel with
        | zero => simp [show escapeCharJ bs = [bs, bs] from rfl] at hfuel
        | succ f =>
          rw [show ([bs, bs] : List Char) ++ ((cs'.map escapeCharJ).flatten ++ dq :: rest)
            = bs :: bs :: ((cs'.map escapeCharJ).flatten ++ dq :: rest) from rfl]
          rw [show ∀ a X, scanJStr (f + 1) a (bs :: bs :: X) = scanJStr f (bs :: a) X
            from fun _ _ => rfl]
          rw [ih (bs :: acc) rest f (by simp only [show escapeCharJ bs = [bs, bs] from rfl, List.length_cons, List.length_nil] at hfuel; omega)]
          simp
      · by_cases h3 : c = '\n'
        · subst h3
          rw [show escapeCharJ '\n' = [bs, 'n'] from rfl]
          cases fuel with
          | zero => simp [show escapeCharJ '\n' = [bs, 'n'] from rfl] at hfuel
          | succ f =>
            rw [show ([bs, 'n'] : List Char) ++ ((cs'.map escapeCharJ).flatten ++ dq :: rest)
              = bs :: 'n' :: ((cs'.map escapeCharJ).flatten ++ dq :: rest) from rfl]
            rw [show ∀ a X, scanJStr (f + 1) a (bs :: 'n' :: X) = scanJStr f ('\n' :: a) X
              from fun _ _ => rfl]
            rw [ih ('\n' :: acc) rest f (by simp only [show escapeCharJ '\n' = [bs, 'n'] from rfl, List.length_cons, List.length_nil] at hfuel; omega)]
            simp
        · by_cases h4 : c = '\r'
          · subst h4
            rw [show escapeCharJ '\r' = [bs, 'r'] from rfl]
            cases fuel with
            | zero => simp [show escapeCharJ '\r' = [bs, 'r'] from rfl] at hfuel
            | succ f =>
              rw [show ([bs, 'r'] : List Char) ++ ((cs'.map escapeCharJ).flatten ++ dq :: rest)
                = bs :: 'r' :: ((cs'.map escapeCharJ).flatten ++ dq :: rest) from rfl]
              rw [show ∀ a X, scanJStr (f + 1) a (bs :: 'r' :: X) = scanJStr f ('\r' :: a) X
                from fun _ _ => rfl]
              rw [ih ('\r' :: acc) rest f (by simp only [show escapeCharJ '\r' = [bs, 'r'] from rfl, List.length_cons, List.length_nil] at hfuel; omega)]
              simp
          · by_cases h5 : c = '\t'
            · subst h5
              rw [show escapeCharJ '\t' = [bs, 't'] from rfl]
              cases fuel with
              | zero => simp [show escapeCharJ '\t' = [bs, 't'] from rfl] at hfuel
              | succ f =>
                rw [show ([bs, 't'] : List Char) ++ ((cs'.map escapeCharJ).flatten ++ dq :: rest)
                  = bs :: 't' :: ((cs'.map escapeCharJ).flatten ++ dq :: rest) from rfl]
                rw [show ∀ a X, scanJStr (f + 1) a (bs :: 't' :: X) = scanJStr f ('\t' :: a) X
                  from fun _ _ => rfl]
                rw [ih ('\t' :: acc) rest f (by simp only [show escapeCharJ '\t' = [bs, 't'] from rfl, List.length_cons, List.length_nil] at hfuel; omega)]
                simp
            · by_cases h6 : c = Char.ofNat 8
              · subst h6
                rw [show escapeCharJ (Char.ofNat 8) = [bs, 'b'] from rfl]
                cases fuel with
                | zero => simp [show escapeCharJ (Char.ofNat 8) = [bs, 'b'] from rfl] at hfuel
                | succ f =>
                  rw [show ([bs, 'b'] : List Char) ++ ((cs'.map escapeCharJ).flatten ++ dq :: rest)
                    = bs :: 'b' :: ((cs'.map escapeCharJ).flatten ++ dq :: rest) from rfl]
                  rw [show ∀ a X, scanJStr (f + 1) a (bs :: 'b' :: X)
                    = scanJStr f (Char.ofNat 8 :: a) X from fun _ _ => rfl]
                  rw [ih (Char.ofNat 8 :: acc) rest f (by simp only [show escapeCharJ (Char.ofNat 8) = [bs, 'b'] from rfl, List.length_cons, List.length_nil] at hfuel; omega)]
                  simp
              · by_cases h7 : c = Char.ofNat 12
                · subst h7
                  rw [show escapeCharJ (Char.ofNat 12) = [bs, 'f'] from rfl]
                  cases fuel with
                  | zero => simp [show escapeCharJ (Char.ofNat 12) = [bs, 'f'] from rfl] at hfuel
                  | succ f =>
                    rw [show ([bs, 'f'] : List Char) ++ ((cs'.map escapeCharJ).flatten ++ dq :: rest)
                      = bs :: 'f' :: ((cs'.map escapeCharJ).flatten ++ dq :: rest) from rfl]
                    rw [show ∀ a X, scanJStr (f + 1) a (bs :: 'f' :: X)
                      = scanJStr f (Char.ofNat 12 :: a) X from fun _ _ => rfl]
                    rw [ih (Char.ofNat 12 :: acc) rest f (by simp only [show escapeCharJ (Char.ofNat 12) = [bs, 'f'] from rfl, List.length_cons, List.length_nil] at hfuel; omega)]
                    simp
                · by_cases h8 : c.toNat < 32
                  · have hesc : escapeCharJ c = [bs, 'u', '0', '0',
                        lowHexDigit (c.toNat / 16), lowHexDigit (c.toNat % 16)] := by
                      unfold escapeCharJ
                      rw [if_neg h1, if_neg h2, if_neg h3, if_neg h4, if_neg h5, if_neg h6,
                        if_neg h7, if_pos h8]
                    rw [hesc] at hfuel ⊢
                    cases fuel with
                    | zero => simp at hfuel
                    | succ f =>
                      rw [show ([bs, 'u', '0', '0', lowHexDigit (c.toNat / 16),
                          lowHexDigit (c.toNat % 16)] : List Char)
                          ++ ((cs'.map escapeCharJ).flatten ++ dq :: rest)
                        = bs :: 'u' :: '0' :: '0' :: lowHexDigit (c.toNat / 16)
                          :: lowHexDigit (c.toNat % 16)
                          :: ((cs'.map escapeCharJ).flatten ++ dq :: rest) from rfl]
                      have hstep : ∀ a X, scanJStr (f + 1) a (bs :: 'u' :: '0' :: '0'
                          :: lowHexDigit (c.toNat / 16) :: lowHexDigit (c.toNat % 16) :: X)
                          = scanJStr f (c :: a) X := by
                        intro a X
                        have hhex : hex4Val '0' '0' (lowHexDigit (c.toNat / 16))
                            (lowHexDigit (c.toNat % 16)) = some c.toNat := by
                          unfold hex4Val
                          rw [show hexDigitVal '0' = some 0 from rfl,
                            hexDigitVal_hexDigitChar _ (by omega),
                            hexDigitVal_hexDigitChar _ (by omega)]
                          show some _ = some _
                          congr 1
                          omega
                        show (match hex4Val '0' '0' (lowHexDigit (c.toNat / 16))
                            (lowHexDigit (c.toNat % 16)) with
                          | none => none
                          | some n =>
                            if 55296 ≤ n && n ≤ 56319 then
                              match scanLowStep n X with
                              | none => none
                              | some (chs, r4) => scanJStr f (chs.reverse ++ a) r4
                            else scanJStr f (codeUnitChar n :: a) X) = scanJStr f (c :: a) X
                        rw [hhex]
                        show (if 55296 ≤ c.toNat && c.toNat ≤ 56319 then
                            match scanLowStep c.toNat X with
                            | none => none
                            | some (chs, r4) => scanJStr f (chs.reverse ++ a) r4
                          else scanJStr f (codeUnitChar c.toNat :: a) X) = scanJStr f (c :: a) X
                        rw [if_neg (by simp only [Bool.and_eq_true, decide_eq_true_eq]; omega)]
                        have hcu : codeUnitChar c.toNat = c := by
                          unfold codeUnitChar
                          rw [if_neg (by simp; omega)]
                          exact Char.ofNat_toNat c
                        rw [hcu]
                      rw [hstep]
                      rw [ih (c :: acc) rest f (by simp only [List.length_cons, List.length_nil] at hfuel; omega)]
                      simp
                  · have hesc : escapeCharJ c = [c] := by
                      unfold escapeCharJ
                      rw [if_neg h1, if_neg h2, if_neg h3, if_neg h4, if_neg h5, if_neg h6,
                        if_neg h7, if_neg h8]
                    rw [hesc] at hfuel ⊢
                    cases fuel with
                    | zero => simp at hfuel
                    | succ f =>
                      rw [show ([c] : List Char) ++ ((cs'.map escapeCharJ).flatten ++ dq :: rest)
                        = c :: ((cs'.map escapeCharJ).flatten ++ dq :: rest) from rfl]
                      have hstep : ∀ a X, scanJStr (f + 1) a (c :: X) = scanJStr f (c :: a) X := by
                        intro a X
                        show (if c = dq then some (String.mk a.reverse, X)
                            else if c = bs then
                              (match X with
                               | 'u' :: a2 :: b2 :: c1 :: d1 :: r2 =>
                                 match hex4Val a2 b2 c1 d1 with
                                 | none => none
                                 | some n =>
                                   if 55296 ≤ n && n ≤ 56319 then
                                     match scanLowStep n r2 with
                                     | none => none
                                     | some (chs, r4) => scanJStr f (chs.reverse ++ a) r4
                                   else scanJStr f (codeUnitChar n :: a) r2
                               | e :: r2 =>
                                 match unescapeJ e with
                                 | some ch => scanJStr f (ch :: a) r2
                                 | none => none
                               | [] => none)
                            else if c.toNat < 32 then none
                            else scanJStr f (c :: a) X) = scanJStr f (c :: a) X
                        rw [if_neg h1, if_neg h2, if_neg (by simpa using h8)]
                      rw [hstep]
                      rw [ih (c :: acc) rest f (by simp only [List.length_cons, List.length_nil] at hfuel; omega)]
                      simp

/-! ## JSON render/parse round-trip -/

theorem isJsonWs_of_digit (c : Char) (h : isDigitC c = true) : isJsonWs c = false := by
  by_contra hcon
  rw [Bool.not_eq_false] at hcon
  unfold isJsonWs at hcon
  simp only [Bool.or_eq_true, decide_eq_true_eq] at hcon
  unfold isDigitC at h
  simp only [Bool.and_eq_true, decide_eq_true_eq] at h
  rcases hcon with ((hc | hc) | hc) | hc <;> (subst hc; revert h; decide)

theorem skipWsJ_ws_append (w x : List Char) (hw : w.all isJsonWs = true) :
    skipWsJ (w ++ x) = skipWsJ x :=
  dropWhile_all_append _ _ _ hw

theorem skipWsJ_head (x : List Char) (c : Char) (hc : x.head? = some c)
    (h : isJsonWs c = false) : skipWsJ x = x :=
  dropWhile_id_of_head _ _ c hc h

theorem skipWsJ_cons (c : Char) (t : List Char) (h : isJsonWs c = false) :
    skipWsJ (c :: t) = c :: t :=
  dropWhile_id_of_head _ _ c rfl h

theorem restDelim_head (cs : List Char)
    (h : ∀ c, cs.head? = some c → isJsonWs c = true ∨ c = ']' ∨ c = cbr ∨ c = ',') :
    restDelim cs = true := by
  cases cs with
  | nil => rfl
  | cons c r =>
    rcases h c rfl with hw | hc | hc | hc
    · unfold isJsonWs at hw
      simp only [Bool.or_eq_true, decide_eq_true_eq] at hw
      rcases hw with ((hc | hc) | hc) | hc <;> (subst hc; rfl)
    · subst hc; rfl
    · subst hc; rfl
    · subst hc; rfl

theorem printNum_ne_nil (q : ℚ) : printNum q ≠ [] := by
  unfold printNum
  cases hk : decExp q.den with
  | none => simp
  | some k =>
    intro hcon
    have hlen := congrArg List.length hcon
    simp only [List.length_append, List.length_nil] at hlen
    have hP : k + 1 ≤ (leftPad '0' (k + 1) (natDigitsStr (q.num.natAbs * 10 ^ k / q.den))).length := by
      rw [leftPad, List.length_append, List.length_replicate]
      omega
    rw [List.length_take] at hlen
    omega

theorem renderElemsJ_decomp (gap : Nat → List Char) (cg : List Char) (d : Nat)
    (x : JVal) (xs : List JVal) :
    ∃ u, renderElemsJ gap cg d (x :: xs) = renderJ gap cg d x ++ u := by
  cases xs with
  | nil => exact ⟨[], by simp [renderElemsJ]⟩
  | cons y ys => exact ⟨_, rfl⟩

/-- Every rendered value starts with a non-whitespace character that is not
a closing bracket. -/
theorem renderJ_head (gap : Nat → List Char) (cg : List Char) (d : Nat) (v : JVal)
    (h : denOkJ v) :
    ∃ c t, renderJ gap cg d v = c :: t ∧ isJsonWs c = false ∧ c ≠ ']' ∧ c ≠ cbr := by
  cases v with
  | jnull => refine ⟨'n', _, rfl, ?_, ?_, ?_⟩ <;> decide
  | jbool b =>
    cases b
    · refine ⟨'f', _, rfl, ?_, ?_, ?_⟩ <;> decide
    · refine ⟨'t', _, rfl, ?_, ?_, ?_⟩ <;> decide
  | jnum q =>
    obtain ⟨c, t, hpr, hcd⟩ := printNum_head q h
    refine ⟨c, t, hpr, ?_, ?_, ?_⟩
    · rcases hcd with hc | hc
      · subst hc; decide
      · exact isJsonWs_of_digit c hc
    · rcases hcd with hc | hc
      · subst hc; decide
      · intro he; rw [he] at hc; exact absurd hc (by decide)
    · rcases hcd with hc | hc
      · subst hc; decide
      · intro he; rw [he] at hc; exact absurd hc (by decide)
  | jstr s => exact ⟨dq, _, rfl, by decide, by decide, by decide⟩
  | jarr xs =>
    cases xs with
    | nil => exact ⟨'[', _, rfl, by decide, by decide, by decide⟩
    | cons x xs' => exact ⟨'[', _, rfl, by decide, by decide, by decide⟩
  | jobj fs =>
    cases fs with
    | nil => exact ⟨obr, _, rfl, by decide, by decide, by decide⟩
    | cons f fs' => exact ⟨obr, _, rfl, by decide, by decide, by decide⟩

mutual

theorem renderJ_length : ∀ (gap : Nat → List Char) (cg : List Char) (d : Nat) (v : JVal),
    sizeJ v ≤ (renderJ gap cg d v).length
  | _, _, _, .jnull => by simp [renderJ, sizeJ]
  | _, _, _, .jbool true => by simp [renderJ, sizeJ]
  | _, _, _, .jbool false => by simp [renderJ, sizeJ]
  | gap, cg, d, .jnum q => by
    show sizeJ (.jnum q) ≤ (printNum q).length
    have h := printNum_ne_nil q
    have : 1 ≤ (printNum q).length := by
      cases hp : printNum q with
      | nil => exact absurd hp h
      | cons a b => simp
    simpa [sizeJ] using this
  | gap, cg, d, .jstr s => by
    show sizeJ (.jstr s) ≤ (renderStrJ s).length
    simp [renderStrJ, sizeJ]
  | gap, cg, d, .jarr [] => by simp [renderJ, sizeJ, sizeLJ]
  | gap, cg, d, .jarr (x :: xs) => by
    have hel := renderElemsJ_length gap cg (d + 1) (x :: xs)
    show sizeLJ (x :: xs) + 1 ≤ ('[' :: (gap (d + 1) ++ renderElemsJ gap cg (d + 1) (x :: xs)
      ++ gap d ++ [']'])).length
    simp only [List.length_cons, List.length_append]
    omega
  | gap, cg, d, .jobj [] => by simp [renderJ, sizeJ, sizeFJ]
  | gap, cg, d, .jobj (f :: fs) => by
    have hel := renderFieldsJ_length gap cg (d + 1) (f :: fs)
    show sizeFJ (f :: fs) + 1 ≤ (obr :: (gap (d + 1) ++ renderFieldsJ gap cg (d + 1) (f :: fs)
      ++ gap d ++ [cbr])).length
    simp only [List.length_cons, List.length_append]
    omega

theorem renderElemsJ_length : ∀ (gap : Nat → List Char) (cg : List Char) (d : Nat)
    (xs : List JVal), sizeLJ xs ≤ (renderElemsJ gap cg d xs).length + 1
  | gap, cg, d, [] => by simp [sizeLJ]
  | gap, cg, d, [x] => by
    have hx := renderJ_length gap cg d x
    show sizeJ x + sizeLJ [] + 1 ≤ (renderJ gap cg d x).length + 1
    simp only [sizeLJ]
    omega
  | gap, cg, d, x :: y :: ys => by
    have hx := renderJ_length gap cg d x
    have hrest := renderElemsJ_length gap cg d (y :: ys)
    show sizeJ x + sizeLJ (y :: ys) + 1
      ≤ (renderJ gap cg d x ++ ',' :: (gap d ++ renderElemsJ gap cg d (y :: ys))).length + 1
    simp only [List.length_append, List.length_cons]
    omega

theorem renderFieldsJ_length : ∀ (gap : Nat → List Char) (cg : List Char) (d : Nat)
    (fs : List (String × JVal)), sizeFJ fs ≤ (renderFieldsJ gap cg d fs).length + 1
  | gap, cg, d, [] => by simp [sizeFJ]
  | gap, cg, d, [(k, v)] => by
    have hv := renderJ_length gap cg d v
    show sizeJ v + sizeFJ [] + 1
      ≤ (renderStrJ k ++ ':' :: (cg ++ renderJ gap cg d v)).length + 1
    simp only [sizeFJ, List.length_append, List.length_cons]
    omega
  | gap, cg, d, (k, v) :: g :: gs => by
    have hv := renderJ_length gap cg d v
    have hrest := renderFieldsJ_length gap cg d (g :: gs)
    show sizeJ v + sizeFJ (g :: gs) + 1
      ≤ (renderStrJ k ++ ':' :: (cg ++ renderJ gap cg d v)
        ++ ',' :: (gap d ++ renderFieldsJ gap cg d (g :: gs))).length + 1
    simp only [List.length_append, List.length_cons]
    omega

end

mutual

/-- The JSON parser inverts the renderer (any whitespace layout, any
leading whitespace, any non-extending rest). -/
theorem parseValJ_render : ∀ (v : JVal) (gap : Nat → List Char) (cg : List Char)
    (d fuel : Nat) (w rest : List Char),
    (∀ e, (gap e).all isJsonWs = true) → cg.all isJsonWs = true →
    w.all isJsonWs = true → sizeJ v < fuel → restDelim rest = true → denOkJ v →
    parseValJ fuel (w ++ renderJ gap cg d v ++ rest) = some (v, rest)
  | .jnull, gap, cg, d, fuel, w, rest => by
    intro hgap hcg hw hfuel hrest hden
    cases fuel with
    | zero => exact absurd hfuel (by simp [sizeJ])
    | succ f =>
      have hin : w ++ renderJ gap cg d .jnull ++ rest = w ++ ('n' :: ('u' :: 'l' :: 'l' :: rest)) := by
        rw [List.append_assoc]
        rfl
      rw [hin]
      simp only [parseValJ]
      rw [skipWsJ_ws_append w _ hw, skipWsJ_cons 'n' _ (by decide)]
      rfl
  | .jbool true, gap, cg, d, fuel, w, rest => by
    intro hgap hcg hw hfuel hrest hden
    cases fuel with
    | zero => exact absurd hfuel (by simp [sizeJ])
    | succ f =>
      have hin : w ++ renderJ gap cg d (.jbool true) ++ rest
          = w ++ ('t' :: ('r' :: 'u' :: 'e' :: rest)) := by
        rw [List.append_assoc]
        rfl
      rw [hin]
      simp only [parseValJ]
      rw [skipWsJ_ws_append w _ hw, skipWsJ_cons 't' _ (by decide)]
      rfl
  | .jbool false, gap, cg, d, fuel, w, rest => by
    intro hgap hcg hw hfuel hrest hden
    cases fuel with
    | zero => exact absurd hfuel (by simp [sizeJ])
    | succ f =>
      have hin : w ++ renderJ gap cg d (.jbool false) ++ rest
          = w ++ ('f' :: ('a' :: 'l' :: 's' :: 'e' :: rest)) := by
        rw [List.append_assoc]
        rfl
      rw [hin]
      simp only [parseValJ]
      rw [skipWsJ_ws_append w _ hw, skipWsJ_cons 'f' _ (by decide)]
      rfl
  | .jnum q, gap, cg, d, fuel, w, rest => by
    intro hgap hcg hw hfuel hrest hden
    have hden' : denOkQ q := hden
    obtain ⟨c, t, hpr, hcd⟩ := printNum_head q hden'
    cases fuel with
    | zero => exact absurd hfuel (by simp [sizeJ])
    | succ f =>
      have hnws : isJsonWs c = false := by
        rcases hcd with hc | hc
        · subst hc
          decide
        · exact isJsonWs_of_digit c hc
      have hmisc : c ≠ dq ∧ c ≠ '[' ∧ c ≠ obr ∧ c ≠ 'n' ∧ c ≠ 't' ∧ c ≠ 'f'
          ∧ (decide (c = '-') || isDigitC c) = true := by
        rcases hcd with hc | hc
        · subst hc
          exact ⟨by decide, by decide, by decide, by decide, by decide, by decide, by decide⟩
        · refine ⟨?_, ?_, ?_, ?_, ?_, ?_, by simp [hc]⟩ <;>
            (intro he; rw [he] at hc; exact absurd hc (by decide))
      have hpj : parseJNum (c :: (t ++ rest)) = some (q, rest) := by
        rw [← List.cons_append, ← hpr]
        exact parseJNum_printNum q hden' rest hrest
      simp only [parseValJ]
      rw [List.append_assoc, skipWsJ_ws_append w _ hw,
        show renderJ gap cg d (.jnum q) = printNum q from rfl, hpr, List.cons_append,
        skipWsJ_cons c _ hnws]
      simp [hmisc.1, hmisc.2.1, hmisc.2.2.1, hmisc.2.2.2.1, hmisc.2.2.2.2.1,
        hmisc.2.2.2.2.2.1, hmisc.2.2.2.2.2.2, hpj]
  | .jstr s, gap, cg, d, fuel, w, rest => by
    intro hgap hcg hw hfuel hrest hden
    cases fuel with
    | zero => exact absurd hfuel (by simp [sizeJ])
    | succ f =>
      have hscan : scanJStr ((escStr s ++ dq :: rest).length + 1) [] (escStr s ++ dq :: rest)
          = some (String.mk s.data, rest) := by
        have h := scanJStr_esc s.data [] rest ((escStr s ++ dq :: rest).length + 1)
          (by simp only [escStr, List.length_append, List.length_cons]; omega)
        simpa [escStr] using h
      simp only [parseValJ]
      rw [List.append_assoc, skipWsJ_ws_append w _ hw,
        show renderJ gap cg d (.jstr s) = renderStrJ s from rfl,
        show renderStrJ s ++ rest = dq :: (escStr s ++ dq :: rest) from by
          simp [renderStrJ, List.append_assoc],
        skipWsJ_cons dq _ (by decide)]
      show (match scanJStr ((escStr s ++ dq :: rest).length + 1) [] (escStr s ++ dq :: rest) with
        | some (s2, r) => some (JVal.jstr s2, r)
        | none => none) = some (.jstr s, rest)
      rw [hscan]
  | .jarr [], gap, cg, d, fuel, w, rest => by
    intro hgap hcg hw hfuel hrest hden
    cases fuel with
    | zero => exact absurd hfuel (by simp [sizeJ])
    | succ f =>
      have hin : w ++ renderJ gap cg d (.jarr []) ++ rest = w ++ ('[' :: (']' :: rest)) := by
        rw [List.append_assoc]
        rfl
      rw [hin]
      simp only [parseValJ]
      rw [skipWsJ_ws_append w _ hw, skipWsJ_cons '[' _ (by decide)]
      rfl
  | .jarr (x :: xs), gap, cg, d, fuel, w, rest => by
    intro hgap hcg hw hfuel hrest hden
    cases fuel with
    | zero => exact absurd hfuel (by simp [sizeJ])
    | succ f =>
      obtain ⟨u, hu⟩ := renderElemsJ_decomp gap cg (d + 1) x xs
      obtain ⟨c0, t0, hct, hnws, hc0br, _⟩ := renderJ_head gap cg (d + 1) x hden.1
      have hskip2 : skipWsJ (gap (d + 1) ++ (renderElemsJ gap cg (d + 1) (x :: xs)
            ++ (gap d ++ ']' :: rest)))
          = renderElemsJ gap cg (d + 1) (x :: xs) ++ (gap d ++ ']' :: rest) := by
        rw [skipWsJ_ws_append _ _ (hgap (d + 1))]
        rw [hu, hct, List.cons_append, List.cons_append]
        rw [skipWsJ_cons c0 _ hnws]
      have helems := parseElemsJ_render x xs gap cg (d + 1) d f [] rest hgap hcg (by simp)
        (by simp only [sizeJ] at hfuel; omega) hrest ⟨hden.1, hden.2⟩
      simp only [List.nil_append] at helems
      have hcons : renderElemsJ gap cg (d + 1) (x :: xs) ++ (gap d ++ ']' :: rest)
          = c0 :: (t0 ++ u ++ (gap d ++ ']' :: rest)) := by
        rw [hu, hct]
        simp [List.append_assoc]
      have helems2 : parseElemsJ f (c0 :: (t0 ++ u ++ (gap d ++ ']' :: rest)))
          = some (x :: xs, rest) := by
        rw [← hcons]
        exact helems
      simp only [parseValJ]
      rw [List.append_assoc, skipWsJ_ws_append w _ hw,
        show renderJ gap cg d (.jarr (x :: xs)) ++ rest
          = '[' :: (gap (d + 1) ++ (renderElemsJ gap cg (d + 1) (x :: xs)
            ++ (gap d ++ ']' :: rest))) from by
          show ('[' :: (gap (d + 1) ++ renderElemsJ gap cg (d + 1) (x :: xs)
            ++ gap d ++ [']'])) ++ rest = _
          simp [List.append_assoc],
        skipWsJ_cons '[' _ (by decide)]
      have hskip3 : skipWsJ (gap (d + 1) ++ c0 :: (t0 ++ (u ++ (gap d ++ ']' :: rest))))
          = c0 :: (t0 ++ (u ++ (gap d ++ ']' :: rest))) := by
        rw [skipWsJ_ws_append _ _ (hgap (d + 1))]
        exact skipWsJ_cons c0 _ hnws
      have helems3 : parseElemsJ f (c0 :: (t0 ++ (u ++ (gap d ++ ']' :: rest))))
          = some (x :: xs, rest) := by
        have he : c0 :: (t0 ++ (u ++ (gap d ++ ']' :: rest)))
            = renderElemsJ gap cg (d + 1) (x :: xs) ++ (gap d ++ ']' :: rest) := by
          rw [hu, hct]
          simp [List.append_assoc]
        rw [he]
        exact helems
      simp [hcons, hskip3, helems3, show ¬('[' = dq) from by decide, hc0br, Ne.symm hc0br]
  | .jobj [], gap, cg, d, fuel, w, rest => by
    intro hgap hcg hw hfuel hrest hden
    cases fuel with
    | zero => exact absurd hfuel (by simp [sizeJ])
    | succ f =>
      have hin : w ++ renderJ gap cg d (.jobj []) ++ rest = w ++ (obr :: (cbr :: rest)) := by
        rw [List.append_assoc]
        rfl
      rw [hin]
      simp only [parseValJ]
      rw [skipWsJ_ws_append w _ hw, skipWsJ_cons obr _ (by decide)]
      rfl
  | .jobj (fld :: fs), gap, cg, d, fuel, w, rest => by
    intro hgap hcg hw hfuel hrest hden
    cases fuel with
    | zero => exact absurd hfuel (by simp [sizeJ])
    | succ f =>
      have hflds := parseFieldsJ_render fld fs gap cg (d + 1) d f [] rest hgap hcg (by simp)
        (by simp only [sizeJ] at hfuel; omega) hrest ⟨hden.1, hden.2⟩
      simp only [List.nil_append] at hflds
      have hfhead : ∃ t1, renderFieldsJ gap cg (d + 1) (fld :: fs) = dq :: t1 := by
        obtain ⟨k, v⟩ := fld
        cases fs with
        | nil => exact ⟨_, rfl⟩
        | cons g gs => exact ⟨_, rfl⟩
      obtain ⟨t1, ht1⟩ := hfhead
      have hskip2 : skipWsJ (gap (d + 1) ++ (renderFieldsJ gap cg (d + 1) (fld :: fs)
            ++ (gap d ++ cbr :: rest)))
          = renderFieldsJ gap cg (d + 1) (fld :: fs) ++ (gap d ++ cbr :: rest) := by
        rw [skipWsJ_ws_append _ _ (hgap (d + 1))]
        rw [ht1, List.cons_append]
        rw [skipWsJ_cons dq _ (by decide)]
      have hconsO : renderFieldsJ gap cg (d + 1) (fld :: fs) ++ (gap d ++ cbr :: rest)
          = dq :: (t1 ++ (gap d ++ cbr :: rest)) := by
        rw [ht1, List.cons_append]
      have hflds2 : parseFieldsJ f (dq :: (t1 ++ (gap d ++ cbr :: rest)))
          = some (fld :: fs, rest) := by
        rw [← hconsO]
        exact hflds
      have hcoll : collectFields (fld :: fs) = fld :: fs :=
        collectFields_nodup_id _ (denOkFJ_keys_nodup _ hden)
      simp only [parseValJ]
      rw [List.append_assoc, skipWsJ_ws_append w _ hw,
        show renderJ gap cg d (.jobj (fld :: fs)) ++ rest
          = obr :: (gap (d + 1) ++ (renderFieldsJ gap cg (d + 1) (fld :: fs)
            ++ (gap d ++ cbr :: rest))) from by
          show (obr :: (gap (d + 1) ++ renderFieldsJ gap cg (d + 1) (fld :: fs)
            ++ gap d ++ [cbr])) ++ rest = _
          simp [List.append_assoc],
        skipWsJ_cons obr _ (by decide)]
      have hskip3 : skipWsJ (gap (d + 1) ++ dq :: (t1 ++ (gap d ++ cbr :: rest)))
          = dq :: (t1 ++ (gap d ++ cbr :: rest)) := by
        rw [skipWsJ_ws_append _ _ (hgap (d + 1))]
        exact skipWsJ_cons dq _ (by decide)
      simp [hconsO, hskip3, hflds2, hcoll, show ¬(obr = dq) from by decide,
        show ¬(obr = '[') from by decide,
        show ¬(dq = cbr) from by decide, show ¬(cbr = dq) from by decide]
termination_by v gap cg d fuel w rest => sizeJ v
decreasing_by all_goals (simp [sizeJ, sizeLJ, sizeFJ]; try omega)

theorem parseElemsJ_render : ∀ (x : JVal) (xs : List JVal) (gap : Nat → List Char)
    (cg : List Char) (d dc fuel : Nat) (w rest : List Char),
    (∀ e, (gap e).all isJsonWs = true) → cg.all isJsonWs = true →
    w.all isJsonWs = true → sizeLJ (x :: xs) < fuel → restDelim rest = true →
    denOkLJ (x :: xs) →
    parseElemsJ fuel (w ++ (renderElemsJ gap cg d (x :: xs) ++ (gap dc ++ ']' :: rest)))
      = some (x :: xs, rest)
  | x, [], gap, cg, d, dc, fuel, w, rest => by
    intro hgap hcg hw hfuel hrest hden
    cases fuel with
    | zero => exact absurd hfuel (by simp [sizeLJ])
    | succ f =>
      have hval := parseValJ_render x gap cg d f w (gap dc ++ ']' :: rest) hgap hcg hw
        (by simp only [sizeLJ] at hfuel; omega)
        (restDelim_head _ (by
          intro c hc
          cases hg : gap dc with
          | nil =>
            rw [hg] at hc
            simp at hc
            subst hc
            right; left; rfl
          | cons g gs =>
            rw [hg] at hc
            simp at hc
            subst hc
            left
            have := hgap dc
            rw [hg] at this
            simp only [List.all_cons, Bool.and_eq_true] at this
            exact this.1)) hden.1
      simp only [parseElemsJ]
      rw [show renderElemsJ gap cg d [x] = renderJ gap cg d x from rfl]
      rw [show w ++ (renderJ gap cg d x ++ (gap dc ++ ']' :: rest))
        = w ++ renderJ gap cg d x ++ (gap dc ++ ']' :: rest) from by rw [List.append_assoc]]
      rw [hval]
      have hskip : skipWsJ (gap dc ++ ']' :: rest) = ']' :: rest := by
        rw [skipWsJ_ws_append _ _ (hgap dc)]
        exact skipWsJ_cons ']' _ (by decide)
      simp [hskip]
  | x, y :: ys, gap, cg, d, dc, fuel, w, rest => by
    intro hgap hcg hw hfuel hrest hden
    cases fuel with
    | zero => exact absurd hfuel (by simp [sizeLJ])
    | succ f =>
      have hval := parseValJ_render x gap cg d f w
        (',' :: (gap d ++ (renderElemsJ gap cg d (y :: ys) ++ (gap dc ++ ']' :: rest))))
        hgap hcg hw (by simp only [sizeLJ] at hfuel; omega)
        (restDelim_head _ (by
          intro c hc
          simp at hc
          subst hc
          right; right; right; rfl)) hden.1
      have hrec := parseElemsJ_render y ys gap cg d dc f (gap d) rest hgap hcg (hgap d)
        (by simp only [sizeLJ] at hfuel ⊢; omega) hrest hden.2
      simp only [parseElemsJ]
      rw [show renderElemsJ gap cg d (x :: y :: ys)
        = renderJ gap cg d x ++ ',' :: (gap d ++ renderElemsJ gap cg d (y :: ys)) from rfl]
      rw [show w ++ (renderJ gap cg d x ++ ',' :: (gap d ++ renderElemsJ gap cg d (y :: ys))
            ++ (gap dc ++ ']' :: rest))
        = w ++ renderJ gap cg d x
            ++ (',' :: (gap d ++ (renderElemsJ gap cg d (y :: ys) ++ (gap dc ++ ']' :: rest))))
        from by simp [List.append_assoc]]
      rw [hval]
      have hskip : skipWsJ (',' :: (gap d ++ (renderElemsJ gap cg d (y :: ys)
          ++ (gap dc ++ ']' :: rest))))
          = ',' :: (gap d ++ (renderElemsJ gap cg d (y :: ys) ++ (gap dc ++ ']' :: rest))) :=
        skipWsJ_cons ',' _ (by decide)
      simp only [hskip]
      rw [show gap d ++ (renderElemsJ gap cg d (y :: ys) ++ (gap dc ++ ']' :: rest))
        = gap d ++ (renderElemsJ gap cg d (y :: ys) ++ (gap dc ++ ']' :: rest)) from rfl]
      simp [hrec]
termination_by x xs gap cg d dc fuel w rest => sizeLJ (x :: xs)
decreasing_by all_goals (simp [sizeJ, sizeLJ, sizeFJ]; try omega)

theorem parseFieldsJ_render : ∀ (fld : String × JVal) (fs : List (String × JVal))
    (gap : Nat → List Char) (cg : List Char) (d dc fuel : Nat) (w rest : List Char),
    (∀ e, (gap e).all isJsonWs = true) → cg.all isJsonWs = true →
    w.all isJsonWs = true → sizeFJ (fld :: fs) < fuel → restDelim rest = true →
    denOkFJ (fld :: fs) →
    parseFieldsJ fuel (w ++ (renderFieldsJ gap cg d (fld :: fs) ++ (gap dc ++ cbr :: rest)))
      = some (fld :: fs, rest)
  | (k, v), [], gap, cg, d, dc, fuel, w, rest => by
    intro hgap hcg hw hfuel hrest hden
    cases fuel with
    | zero => exact absurd hfuel (by simp [sizeFJ])
    | succ f =>
      have hscan : scanJStr ((escStr k ++ dq :: (':' :: (cg ++ renderJ gap cg d v
            ++ (gap dc ++ cbr :: rest)))).length + 1) []
            (escStr k ++ dq :: (':' :: (cg ++ renderJ gap cg d v ++ (gap dc ++ cbr :: rest))))
          = some (String.mk k.data, ':' :: (cg ++ renderJ gap cg d v
            ++ (gap dc ++ cbr :: rest))) := by
        have h := scanJStr_esc k.data []
          (':' :: (cg ++ renderJ gap cg d v ++ (gap dc ++ cbr :: rest)))
          ((escStr k ++ dq :: (':' :: (cg ++ renderJ gap cg d v
            ++ (gap dc ++ cbr :: rest)))).length + 1)
          (by simp only [escStr, List.length_append, List.length_cons]; omega)
        simpa [escStr] using h
      have hval := parseValJ_render v gap cg d f cg (gap dc ++ cbr :: rest) hgap hcg hcg
        (by simp only [sizeFJ] at hfuel; omega)
        (restDelim_head _ (by
          intro c hc
          cases hg : gap dc with
          | nil =>
            rw [hg] at hc
            simp at hc
            subst hc
            right; right; left; rfl
          | cons g gs =>
            rw [hg] at hc
            simp at hc
            subst hc
            left
            have := hgap dc
            rw [hg] at this
            simp only [List.all_cons, Bool.and_eq_true] at this
            exact this.1)) hden.1
      have hskipc : skipWsJ (gap dc ++ cbr :: rest) = cbr :: rest := by
        rw [skipWsJ_ws_append _ _ (hgap dc)]
        exact skipWsJ_cons cbr _ (by decide)
      simp only [parseFieldsJ]
      rw [show w ++ (renderFieldsJ gap cg d [(k, v)] ++ (gap dc ++ cbr :: rest))
        = w ++ (dq :: (escStr k ++ dq :: (':' :: (cg ++ renderJ gap cg d v
            ++ (gap dc ++ cbr :: rest))))) from by
          show w ++ ((dq :: (escStr k ++ [dq])) ++ ':' :: (cg ++ renderJ gap cg d v)
            ++ (gap dc ++ cbr :: rest)) = _
          simp [List.append_assoc]]
      rw [skipWsJ_ws_append w _ hw, skipWsJ_cons dq _ (by decide)]
      simp only [hscan]
      rw [show skipWsJ (':' :: (cg ++ renderJ gap cg d v ++ (gap dc ++ cbr :: rest)))
        = ':' :: (cg ++ renderJ gap cg d v ++ (gap dc ++ cbr :: rest)) from
        skipWsJ_cons ':' _ (by decide)]
      rw [show cg ++ renderJ gap cg d v ++ (gap dc ++ cbr :: rest)
        = cg ++ renderJ gap cg d v ++ (gap dc ++ cbr :: rest) from rfl]
      simp only [hval]
      simp [hskipc, show ¬(cbr = ',') from by decide]
  | (k, v), g :: gs, gap, cg, d, dc, fuel, w, rest => by
    intro hgap hcg hw hfuel hrest hden
    cases fuel with
    | zero => exact absurd hfuel (by simp [sizeFJ])
    | succ f =>
      have hscan : scanJStr ((escStr k ++ dq :: (':' :: (cg ++ renderJ gap cg d v
            ++ (',' :: (gap d ++ (renderFieldsJ gap cg d (g :: gs)
              ++ (gap dc ++ cbr :: rest))))))).length + 1) []
            (escStr k ++ dq :: (':' :: (cg ++ renderJ gap cg d v
            ++ (',' :: (gap d ++ (renderFieldsJ gap cg d (g :: gs)
              ++ (gap dc ++ cbr :: rest)))))))
          = some (String.mk k.data, ':' :: (cg ++ renderJ gap cg d v
            ++ (',' :: (gap d ++ (renderFieldsJ gap cg d (g :: gs)
              ++ (gap dc ++ cbr :: rest)))))) := by
        have h := scanJStr_esc k.data []
          (':' :: (cg ++ renderJ gap cg d v ++ (',' :: (gap d
            ++ (renderFieldsJ gap cg d (g :: gs) ++ (gap dc ++ cbr :: rest))))))
          ((escStr k ++ dq :: (':' :: (cg ++ renderJ gap cg d v
            ++ (',' :: (gap d ++ (renderFieldsJ gap cg d (g :: gs)
              ++ (gap dc ++ cbr :: rest))))))).length + 1)
          (by simp only [escStr, List.length_append, List.length_cons]; omega)
        simpa [escStr] using h
      have hval := parseValJ_render v gap cg d f cg
        (',' :: (gap d ++ (renderFieldsJ gap cg d (g :: gs) ++ (gap dc ++ cbr :: rest))))
        hgap hcg hcg (by simp only [sizeFJ] at hfuel; omega)
        (restDelim_head _ (by
          intro c hc
          simp at hc
          subst hc
          right; right; right; rfl)) hden.1
      have hrec := parseFieldsJ_render g gs gap cg d dc f (gap d) rest hgap hcg (hgap d)
        (by simp only [sizeFJ] at hfuel ⊢; omega) hrest hden.2.2
      simp only [parseFieldsJ]
      rw [show w ++ (renderFieldsJ gap cg d ((k, v) :: g :: gs) ++ (gap dc ++ cbr :: rest))
        = w ++ (dq :: (escStr k ++ dq :: (':' :: (cg ++ renderJ gap cg d v
            ++ (',' :: (gap d ++ (renderFieldsJ gap cg d (g :: gs)
              ++ (gap dc ++ cbr :: rest)))))))) from by
          show w ++ ((dq :: (escStr k ++ [dq])) ++ ':' :: (cg ++ renderJ gap cg d v)
            ++ ',' :: (gap d ++ renderFieldsJ gap cg d (g :: gs))
            ++ (gap dc ++ cbr :: rest)) = _
          simp [List.append_assoc]]
      rw [skipWsJ_ws_append w _ hw, skipWsJ_cons dq _ (by decide)]
      simp only [hscan]
      rw [show skipWsJ (':' :: (cg ++ renderJ gap cg d v ++ (',' :: (gap d
          ++ (renderFieldsJ gap cg d (g :: gs) ++ (gap dc ++ cbr :: rest))))))
        = ':' :: (cg ++ renderJ gap cg d v ++ (',' :: (gap d
          ++ (renderFieldsJ gap cg d (g :: gs) ++ (gap dc ++ cbr :: rest))))) from
        skipWsJ_cons ':' _ (by decide)]
      simp only [hval]
      rw [show skipWsJ (',' :: (gap d ++ (renderFieldsJ gap cg d (g :: gs)
          ++ (gap dc ++ cbr :: rest))))
        = ',' :: (gap d ++ (renderFieldsJ gap cg d (g :: gs) ++ (gap dc ++ cbr :: rest))) from
        skipWsJ_cons ',' _ (by decide)]
      simp [hrec]
termination_by fld fs gap cg d dc fuel w rest => sizeFJ (fld :: fs)
decreasing_by all_goals (simp [sizeJ, sizeLJ, sizeFJ]; try omega)

end

theorem gapNone_ws : ∀ e, (gapNone e).all isJsonWs = true := by
  intro e
  rfl

theorem gapPretty_ws : ∀ e, (gapPretty e).all isJsonWs = true := by
  intro e
  unfold gapPretty
  simp only [List.all_cons, Bool.and_eq_true]
  refine ⟨by decide, ?_⟩
  rw [List.all_eq_true]
  intro c hc
  rw [List.eq_of_mem_replicate hc]
  decide

/-- `JSON.parse` inverts the renderer on a whole string. -/
theorem jsonParseFull_render (gap : Nat → List Char) (cg : List Char) (d : Nat) (v : JVal)
    (hgap : ∀ e, (gap e).all isJsonWs = true) (hcg : cg.all isJsonWs = true)
    (hden : denOkJ v) : jsonParseFull (renderJ gap cg d v) = some v := by
  have hlen := renderJ_length gap cg d v
  have h := parseValJ_render v gap cg d ((renderJ gap cg d v).length + 1) [] [] hgap hcg
    (by simp) (by omega) rfl hden
  simp only [List.nil_append, List.append_nil] at h
  unfold jsonParseFull
  rw [h]
  rfl

theorem jsonParseFull_renderPretty (v : JVal) (hden : denOkJ v) :
    jsonParseFull (renderPretty v) = some v :=
  jsonParseFull_render gapPretty [' '] 0 v gapPretty_ws (by decide) hden

theorem jsonParseFull_renderCompact (v : JVal) (hden : denOkJ v) :
    jsonParseFull (renderCompact v) = some v :=
  jsonParseFull_render gapNone [] 0 v gapNone_ws (by decide) hden

theorem mkRat_den_dvd (n : ℤ) (m : ℕ) : (mkRat n m).den ∣ m := by
  have h := Rat.den_dvd n (m : ℤ)
  rw [← Rat.mkRat_eq_divInt n m] at h
  exact_mod_cast h

theorem denOkQ_mkRat_pows (n : ℤ) (a b : Nat) : denOkQ (mkRat n (10 ^ a * 10 ^ b)) := by
  refine ⟨a + b, ?_⟩
  calc (mkRat n (10 ^ a * 10 ^ b)).den ∣ 10 ^ a * 10 ^ b := mkRat_den_dvd n _
    _ = 10 ^ (a + b) := (pow_add 10 a b).symm

/-- Numbers produced by the strict JSON number parser have power-of-ten
denominators. -/
theorem parseJNum_denOk (cs : List Char) (q : ℚ) (r : List Char)
    (h : parseJNum cs = some (q, r)) : denOkQ q := by
  simp only [parseJNum] at h
  split at h
  · exact absurd h (by simp)
  · split at h
    · exact absurd h (by simp)
    · split at h
      · exact absurd h (by simp)
      · simp only [Option.some.injEq, Prod.mk.injEq] at h
        obtain ⟨hq, -⟩ := h
        subst hq
        exact denOkQ_mkRat_pows _ _ _

/-- Whatever the JSON parser returns satisfies the denominator invariant. -/
theorem parse_denOk : ∀ fuel : Nat,
    (∀ cs v r, parseValJ fuel cs = some (v, r) → denOkJ v)
    ∧ (∀ cs es r, parseElemsJ fuel cs = some (es, r) → denOkLJ es)
    ∧ (∀ cs fs r, parseFieldsJ fuel cs = some (fs, r) → ∀ kv ∈ fs, denOkJ kv.2) := by
  intro fuel
  induction fuel with
  | zero =>
    refine ⟨?_, ?_, ?_⟩ <;>
      (intro cs v r h; exact absurd h (by simp [parseValJ, parseElemsJ, parseFieldsJ]))
  | succ f ih =>
    obtain ⟨ihv, ihe, ihf⟩ := ih
    refine ⟨?_, ?_, ?_⟩
    · intro cs v r h
      simp only [parseValJ] at h
      split at h
      · exact absurd h (by simp)
      · split at h
        · split at h
          · simp only [Option.some.injEq, Prod.mk.injEq] at h
            obtain ⟨hv, -⟩ := h
            subst hv
            exact trivial
          · exact absurd h (by simp)
        · split at h
          · split at h
            · simp only [Option.some.injEq, Prod.mk.injEq] at h
              obtain ⟨hv, -⟩ := h
              subst hv
              exact trivial
            · split at h
              · simp only [Option.some.injEq, Prod.mk.injEq] at h
                obtain ⟨hv, -⟩ := h
                subst hv
                exact ihe _ _ _ (by assumption)
              · exact absurd h (by simp)
          · split at h
            · split at h
              · simp only [Option.some.injEq, Prod.mk.injEq] at h
                obtain ⟨hv, -⟩ := h
                subst hv
                exact trivial
              · split at h
                · simp only [Option.some.injEq, Prod.mk.injEq] at h
                  obtain ⟨hv, -⟩ := h
                  subst hv
                  exact collectFields_denOk _ (ihf _ _ _ (by assumption))
                · exact absurd h (by simp)
            · split at h
              · split at h
                · simp only [Option.some.injEq, Prod.mk.injEq] at h
                  obtain ⟨hv, -⟩ := h
                  subst hv
                  exact trivial
                · exact absurd h (by simp)
              · split at h
                · split at h
                  · simp only [Option.some.injEq, Prod.mk.injEq] at h
                    obtain ⟨hv, -⟩ := h
                    subst hv
                    exact trivial
                  · exact absurd h (by simp)
                · split at h
                  · split at h
                    · simp only [Option.some.injEq, Prod.mk.injEq] at h
                      obtain ⟨hv, -⟩ := h
                      subst hv
                      exact trivial
                    · exact absurd h (by simp)
                  · split at h
                    · split at h
                      · simp only [Option.some.injEq, Prod.mk.injEq] at h
                        obtain ⟨hv, -⟩ := h
                        subst hv
                        exact parseJNum_denOk _ _ _ (by assumption)
                      · exact absurd h (by simp)
                    · exact absurd h (by simp)
    · intro cs es r h
      simp only [parseElemsJ] at h
      split at h
      · exact absurd h (by simp)
      · split at h
        · split at h
          · simp only [Option.some.injEq, Prod.mk.injEq] at h
            obtain ⟨hes, -⟩ := h
            subst hes
            exact ⟨ihv _ _ _ (by assumption), ihe _ _ _ (by assumption)⟩
          · exact absurd h (by simp)
        · simp only [Option.some.injEq, Prod.mk.injEq] at h
          obtain ⟨hes, -⟩ := h
          subst hes
          exact ⟨ihv _ _ _ (by assumption), trivial⟩
        · exact absurd h (by simp)
    · intro cs fs r h
      simp only [parseFieldsJ] at h
      split at h
      · split at h
        · split at h
          · exact absurd h (by simp)
          · split at h
            · split at h
              · exact absurd h (by simp)
              · split at h
                · split at h
                  · simp only [Option.some.injEq, Prod.mk.injEq] at h
                    obtain ⟨hfs, -⟩ := h
                    subst hfs
                    intro kv hkv
                    rcases List.mem_cons.mp hkv with he | hm
                    · rw [he]
                      exact ihv _ _ _ (by assumption)
                    · exact ihf _ _ _ (by assumption) kv hm
                  · exact absurd h (by simp)
                · split at h
                  · simp only [Option.some.injEq, Prod.mk.injEq] at h
                    obtain ⟨hfs, -⟩ := h
                    subst hfs
                    intro kv hkv
                    rw [List.mem_singleton] at hkv
                    rw [hkv]
                    exact ihv _ _ _ (by assumption)
                  · exact absurd h (by simp)
                · exact absurd h (by simp)
            · exact absurd h (by simp)
        · exact absurd h (by simp)
      · exact absurd h (by simp)

/-- Rendered values start with a non-space character (`trim` sense). -/
theorem renderJ_headSp (gap : Nat → List Char) (cg : List Char) (d : Nat) (v : JVal)
    (h : denOkJ v) :
    ∃ c t, renderJ gap cg d v = c :: t ∧ isJsSpace c = false := by
  cases v with
  | jnull => exact ⟨'n', _, rfl, by decide⟩
  | jbool b =>
    cases b
    · exact ⟨'f', _, rfl, by decide⟩
    · exact ⟨'t', _, rfl, by decide⟩
  | jnum q =>
    obtain ⟨c, t, hpr, hcd⟩ := printNum_head q h
    refine ⟨c, t, hpr, ?_⟩
    rcases hcd with hc | hc
    · subst hc; decide
    · exact isJsSpace_of_digit c hc
  | jstr s => exact ⟨dq, _, rfl, by decide⟩
  | jarr xs =>
    cases xs with
    | nil => exact ⟨'[', _, rfl, by decide⟩
    | cons x xs' => exact ⟨'[', _, rfl, by decide⟩
  | jobj fs =>
    cases fs with
    | nil => exact ⟨obr, _, rfl, by decide⟩
    | cons f fs' => exact ⟨obr, _, rfl, by decide⟩

/-- Rendered values end with a non-space character. -/
theorem renderJ_lastSp (gap : Nat → List Char) (cg : List Char) (d : Nat) (v : JVal)
    (h : denOkJ v) :
    ∃ c, (renderJ gap cg d v).getLast? = some c ∧ isJsSpace c = false := by
  cases v with
  | jnull => exact ⟨'l', rfl, by decide⟩
  | jbool b => cases b with
    | true => exact ⟨'e', rfl, by decide⟩
    | false => exact ⟨'e', rfl, by decide⟩
  | jnum q =>
    obtain ⟨c, hl, hcd⟩ := printNum_last q h
    exact ⟨c, hl, isJsSpace_of_digit c hcd⟩
  | jstr s =>
    refine ⟨dq, ?_, by decide⟩
    show (dq :: (escStr s ++ [dq])).getLast? = some dq
    rw [show dq :: (escStr s ++ [dq]) = (dq :: escStr s) ++ [dq] from by simp,
      getLast?_append_right _ _ (by simp)]
    rfl
  | jarr xs =>
    cases xs with
    | nil => exact ⟨']', rfl, by decide⟩
    | cons x xs' =>
      refine ⟨']', ?_, by decide⟩
      show ('[' :: (gap (d + 1) ++ renderElemsJ gap cg (d + 1) (x :: xs') ++ gap d
        ++ [']'])).getLast? = some ']'
      rw [show '[' :: (gap (d + 1) ++ renderElemsJ gap cg (d + 1) (x :: xs') ++ gap d ++ [']'])
          = ('[' :: (gap (d + 1) ++ renderElemsJ gap cg (d + 1) (x :: xs') ++ gap d)) ++ [']']
          from by simp,
        getLast?_append_right _ _ (by simp)]
      rfl
  | jobj fs =>
    cases fs with
    | nil => exact ⟨cbr, rfl, by decide⟩
    | cons f fs' =>
      refine ⟨cbr, ?_, by decide⟩
      show (obr :: (gap (d + 1) ++ renderFieldsJ gap cg (d + 1) (f :: fs') ++ gap d
        ++ [cbr])).getLast? = some cbr
      rw [show obr :: (gap (d + 1) ++ renderFieldsJ gap cg (d + 1) (f :: fs') ++ gap d ++ [cbr])
          = (obr :: (gap (d + 1) ++ renderFieldsJ gap cg (d + 1) (f :: fs') ++ gap d)) ++ [cbr]
          from by simp,
        getLast?_append_right _ _ (by simp)]
      rfl

theorem trimLeft_id_of_head (l : List Char) (c : Char) (hc : l.head? = some c)
    (h : isJsSpace c = false) : trimLeft l = l :=
  dropWhile_id_of_head _ _ c hc h

theorem trimRight_id_of_last (l : List Char) (c : Char) (hc : l.getLast? = some c)
    (h : isJsSpace c = false) : trimRight l = l := by
  unfold trimRight
  rw [trimLeft_id_of_head l.reverse c (by rw [List.head?_reverse]; exact hc) h,
    List.reverse_reverse]

/-- Rendered values are already trimmed. -/
theorem trimC_renderJ (gap : Nat → List Char) (cg : List Char) (d : Nat) (v : JVal)
    (h : denOkJ v) : trimC (renderJ gap cg d v) = renderJ gap cg d v := by
  obtain ⟨c, t, hct, hcsp⟩ := renderJ_headSp gap cg d v h
  obtain ⟨c2, hl, hcsp2⟩ := renderJ_lastSp gap cg d v h
  unfold trimC
  rw [trimLeft_id_of_head _ c (by rw [hct]; rfl) hcsp,
    trimRight_id_of_last _ c2 hl hcsp2]

/-- The grammar validator is the identity on canonically rendered JSON. -/
theorem grammarCheck_renderPretty (v : JVal) (hden : denOkJ v) :
    GrammarCheck (renderPretty v) = renderPretty v := by
  unfold GrammarCheck
  rw [show trimC (renderPretty v) = renderPretty v from trimC_renderJ _ _ _ v hden]
  obtain ⟨c, t, hct, -⟩ := renderJ_headSp gapPretty [' '] 0 v hden
  rw [if_neg (by rw [show renderPretty v = c :: t from hct]; simp)]
  rw [jsonParseFull_renderPretty v hden]

/-- A successful grammar validation is the canonical rendering of a parsed
value satisfying the denominator invariant. -/
theorem grammarCheck_spec (cs : List Char) (h : GrammarCheck cs ≠ []) :
    ∃ v, denOkJ v ∧ GrammarCheck cs = renderPretty v := by
  unfold GrammarCheck at h ⊢
  by_cases ht : trimC cs = []
  · rw [if_pos ht] at h
    exact absurd rfl h
  · rw [if_neg ht] at h ⊢
    cases hp : jsonParseFull cs with
    | none =>
      rw [hp] at h
      exact absurd rfl h
    | some v =>
      refine ⟨v, ?_, rfl⟩
      unfold jsonParseFull at hp
      cases hpv : parseValJ (cs.length + 1) cs with
      | none =>
        rw [hpv] at hp
        exact absurd hp (by simp)
      | some pr =>
        rw [hpv] at hp
        obtain ⟨v2, r⟩ := pr
        have hp2 : (if skipWsJ r = [] then some v2 else none) = some v := hp
        by_cases hws : skipWsJ r = []
        · rw [if_pos hws] at hp2
          simp only [Option.some.injEq] at hp2
          subst hp2
          exact (parse_denOk (cs.length + 1)).1 cs v2 r hpv
        · rw [if_neg hws] at hp2
          exact absurd hp2 (by simp)

/-! ## Option-value decode/serialize round-trip -/

theorem serializeOptionValue_some (k : String) (v : JVal) :
    serializeOptionValue k (some v) = k.data ++ '=' :: optValRepr v := by
  cases v <;> rfl

theorem digit_eq_cases (c : Char) (h : isDigitC c = true) :
    c = '0' ∨ c = '1' ∨ c = '2' ∨ c = '3' ∨ c = '4'
    ∨ c = '5' ∨ c = '6' ∨ c = '7' ∨ c = '8' ∨ c = '9' := by
  unfold isDigitC at h
  simp only [Bool.and_eq_true, decide_eq_true_eq] at h
  obtain ⟨h1, h2⟩ := h
  obtain ⟨n, hn⟩ : ∃ n, c.toNat = n := ⟨_, rfl⟩
  rw [hn] at h1 h2
  have hc : c = Char.ofNat n := by rw [← hn]; exact (Char.ofNat_toNat c).symm
  subst hc
  interval_cases n <;> simp_all <;> decide

theorem toLower_keeps (c : Char) (h : c = '-' ∨ c = '.' ∨ isDigitC c = true) :
    c.toLower = c := by
  rcases h with hc | hc | hc
  · subst hc; decide
  · subst hc; decide
  · rcases digit_eq_cases c hc with h | h | h | h | h | h | h | h | h | h <;>
      (subst h; decide)

theorem map_toLower_fixed (l : List Char) (h : ∀ c ∈ l, c.toLower = c) :
    l.map Char.toLower = l := by
  induction l with
  | nil => rfl
  | cons c t ih =>
    rw [List.map_cons, h c (List.mem_cons_self c t),
      ih (fun x hx => h x (List.mem_cons_of_mem c hx))]

theorem stripQuotes_id_of_head (cs : List Char) (c : Char) (hc : cs.head? = some c)
    (h1 : c ≠ dq) (h2 : c ≠ sq) : stripQuotes cs = cs := by
  unfold stripQuotes
  rw [if_neg]
  simp only [hc, Bool.or_eq_true, Bool.and_eq_true, decide_eq_true_eq]
  push_neg
  constructor
  · intro hd
    exact absurd (Option.some.inj hd) h1
  · intro hd
    exact absurd (Option.some.inj hd) h2

theorem replaceFirstC_id (a b : Char) (l : List Char) (h : a ∉ l) :
    replaceFirstC a b l = l := by
  induction l with
  | nil => rfl
  | cons c t ih =>
    unfold replaceFirstC
    rw [if_neg, ih (fun hm => h (List.mem_cons_of_mem c hm))]
    intro hc
    exact h (hc ▸ List.mem_cons_self c t)

theorem denOkLJ_of_strs (xs : List JVal) (h : ∀ x ∈ xs, ∃ s, x = JVal.jstr s) :
    denOkLJ xs := by
  induction xs with
  | nil => exact trivial
  | cons x t ih =>
    refine ⟨?_, ih (fun y hy => h y (List.mem_cons_of_mem x hy))⟩
    obtain ⟨s, hs⟩ := h x (List.mem_cons_self x t)
    subst hs
    exact trivial

theorem numChar_ne (c : Char) (h : c = '-' ∨ c = '.' ∨ isDigitC c = true)
    (d : Char) (hd : ¬(d = '-' ∨ d = '.' ∨ isDigitC d = true)) : c ≠ d := by
  intro he
  subst he
  exact hd h

theorem head_mem_of_head? {α : Type} (l : List α) (c : α) (h : l.head? = some c) :
    c ∈ l := by
  cases l with
  | nil => exact Option.noConfusion h
  | cons x xs =>
    rw [List.head?_cons, Option.some.injEq] at h
    rw [← h]
    exact List.mem_cons_self x xs

theorem signStrip_subset (cs : List Char) : ∀ c ∈ signStrip cs, c ∈ cs := by
  cases cs with
  | nil => intro c h; exact h
  | cons x xs =>
    intro c h
    rw [show signStrip (x :: xs)
      = if x = '-' || x = '+' then xs else x :: xs from rfl] at h
    by_cases hx : (x = '-' || x = '+') = true
    · rw [if_pos hx] at h
      exact List.mem_cons_of_mem x h
    · rw [if_neg hx] at h
      exact h

theorem infLead_false_of_head (cs : List Char)
    (h : ∀ c, (signStrip (trimLeft cs)).head? = some c → c ≠ 'I') :
    infLead cs = false := by
  unfold infLead
  cases hl : signStrip (trimLeft cs) with
  | nil => decide
  | cons x xs =>
    have hx : x ≠ 'I' := h x (by rw [hl]; rfl)
    rw [show ("Infinity".data : List Char) = 'I' :: "nfinity".data from rfl]
    simp only [List.isPrefixOf, Bool.and_eq_false_iff]
    left
    simp only [beq_eq_false_iff_ne, ne_eq]
    intro he
    exact hx he.symm

/-- Decoding the serializer's text for a validated option value recovers the
value, provided a numeric value is not `0` or `1` (those serialize to the
boolean tokens `0`/`1` and decode as booleans). -/
theorem parseOptionValue_repr (v : JVal) (hs : structOk v)
    (h01 : ∀ q, v = JVal.jnum q → q ≠ 0 ∧ q ≠ 1) :
    parseOptionValue (optValRepr v) = some (.fin v) := by
  cases v with
  | jnull => exact absurd hs id
  | jstr s => exact absurd hs id
  | jobj fs => exact absurd hs id
  | jbool b => cases b <;> decide
  | jarr xs =>
    have hden : denOkJ (.jarr xs) := denOkLJ_of_strs xs hs
    have hj : jsonParseFull (renderCompact (.jarr xs)) = some (.jarr xs) :=
      jsonParseFull_renderCompact _ hden
    have hhead : (renderCompact (.jarr xs)).head? = some '[' := by
      cases xs <;> rfl
    have hne : renderCompact (.jarr xs) ≠ [] := by
      intro h
      rw [h] at hhead
      exact Option.noConfusion hhead
    show parseOptionValue (renderCompact (.jarr xs)) = some (.fin (.jarr xs))
    unfold parseOptionValue
    rw [if_neg hne]
    simp only [hj, hhead, if_pos]
  | jnum q =>
    have hden : ∃ j, q.den ∣ 10 ^ j := hs
    obtain ⟨hq0, hq1⟩ := h01 q rfl
    have hchars := printNum_chars q hden
    obtain ⟨c, t, hct, hc⟩ := printNum_head q hden
    have hc3 : c = '-' ∨ c = '.' ∨ isDigitC c = true := by
      rcases hc with h | h
      · exact Or.inl h
      · exact Or.inr (Or.inr h)
    have hne : printNum q ≠ [] := printNum_ne_nil q
    have hsq : stripQuotes (printNum q) = printNum q :=
      stripQuotes_id_of_head _ c (by rw [hct]; rfl)
        (numChar_ne c hc3 dq (by decide)) (numChar_ne c hc3 sq (by decide))
    have harr : ¬((printNum q).head? = some '[') := by
      rw [hct]
      intro h
      exact numChar_ne c hc3 '[' (by decide) (Option.some.inj h)
    have hlower : (printNum q).map Char.toLower = printNum q :=
      map_toLower_fixed _ (fun c hc => toLower_keeps c (hchars c hc))
    have htok : ∀ (s : List Char) (d : Char), d ∈ s →
        ¬(d = '-' ∨ d = '.' ∨ isDigitC d = true) → printNum q ≠ s := by
      intro s d hd hnd heq
      exact hnd (hchars d (heq ▸ hd))
    have htrue : printNum q ≠ "true".data := htok _ 't' (by decide) (by decide)
    have hy : printNum q ≠ "y".data := htok _ 'y' (by decide) (by decide)
    have hfalse : printNum q ≠ "false".data := htok _ 'f' (by decide) (by decide)
    have hn : printNum q ≠ "n".data := htok _ 'n' (by decide) (by decide)
    have hone : printNum q ≠ "1".data := by
      intro heq
      have h2 : some q = some (1 : ℚ) := by
        rw [← parseFloatQ_printNum q hden, heq]
        decide
      exact hq1 (Option.some.inj h2)
    have hzero : printNum q ≠ "0".data := by
      intro heq
      have h2 : some q = some (0 : ℚ) := by
        rw [← parseFloatQ_printNum q hden, heq]
        decide
      exact hq0 (Option.some.inj h2)
    have hcomma : replaceFirstC ',' '.' (printNum q) = printNum q :=
      replaceFirstC_id _ _ _
        (fun hm => numChar_ne ',' (hchars ',' hm) ',' (by decide) rfl)
    have hInf : infLead (printNum q) = false := by
      apply infLead_false_of_head
      intro c2 hc2
      have hm : c2 ∈ printNum q := by
        apply (List.dropWhile_sublist _).subset
        exact signStrip_subset _ c2 (head_mem_of_head? _ c2 hc2)
      exact numChar_ne c2 (hchars c2 hm) 'I' (by decide)
    show parseOptionValue (printNum q) = some (.fin (.jnum q))
    unfold parseOptionValue
    rw [if_neg hne]
    simp only [hsq, hlower, if_neg harr]
    rw [if_neg (by
      simp only [Bool.or_eq_true, decide_eq_true_eq]
      push_neg
      exact ⟨⟨htrue, hone⟩, hy⟩)]
    rw [if_neg (by
      simp only [Bool.or_eq_true, decide_eq_true_eq]
      push_neg
      exact ⟨⟨hfalse, hzero⟩, hn⟩)]
    rw [hcomma, if_neg (by rw [hInf]; exact Bool.false_ne_true),
      parseFloatQ_printNum q hden]

/-- C4 witness: a block with a `system` section and a padded `user` section
produces a record whose user text is the trimmed, nonempty content. -/
theorem c4_witness :
    trimC (TPromt.user ⟨some "sys", "hi", none, none, none⟩).data
      = (TPromt.user ⟨some "sys", "hi", none, none, none⟩).data
    ∧ TPromt.user ⟨some "sys", "hi", none, none, none⟩ ≠ "" :=
  c4_user_required "$$begin\n$$system\nsys\n$$user\n hi \n$$end" Use.core
    ⟨some "sys", "hi", none, none, none⟩ (by decide)

/-! ## Line-splitting infrastructure for the round-trip -/

theorem joinNl_splitNl (cs : List Char) : joinNl (splitNl cs) = cs := by
  induction cs with
  | nil => rfl
  | cons c rest ih =>
    by_cases hc : c = '\n'
    · subst hc
      rw [show splitNl ('\n' :: rest) = [] :: splitNl rest from by simp [splitNl]]
      cases hs : splitNl rest with
      | nil => exact absurd hs (splitNl_ne_nil rest)
      | cons l ls =>
        rw [show joinNl ([] :: l :: ls) = [] ++ '\n' :: joinNl (l :: ls) from rfl, ← hs, ih]
        rfl
    · rw [splitNl_cons_of_ne c rest hc]
      cases hs : splitNl rest with
      | nil => exact absurd hs (splitNl_ne_nil rest)
      | cons l ls =>
        rw [hs] at ih
        simp only [List.headI, List.tail]
        cases ls with
        | nil =>
          have hl : l = rest := by simpa [joinNl] using ih
          simp [joinNl, hl]
        | cons l2 ls2 =>
          show (c :: l) ++ '\n' :: joinNl (l2 :: ls2) = c :: rest
          rw [← ih]
          rfl

theorem headI_mem_self {α : Type} [Inhabited α] (l : List α) (h : l ≠ []) :
    l.headI ∈ l := by
  cases l with
  | nil => exact absurd rfl h
  | cons x t => simp [List.headI]

theorem splitNl_mem_no_nl (cs : List Char) : ∀ l ∈ splitNl cs, '\n' ∉ l := by
  induction cs with
  | nil =>
    intro l hl
    rw [show splitNl [] = [[]] from rfl] at hl
    simp only [List.mem_singleton] at hl
    subst hl
    simp
  | cons c rest ih =>
    by_cases hc : c = '\n'
    · subst hc
      rw [show splitNl ('\n' :: rest) = [] :: splitNl rest from by simp [splitNl]]
      intro l hl
      rcases List.mem_cons.mp hl with h | h
      · subst h; simp
      · exact ih l h
    · rw [splitNl_cons_of_ne c rest hc]
      intro l hl
      rcases List.mem_cons.mp hl with h | h
      · subst h
        intro hm
        rcases List.mem_cons.mp hm with h2 | h2
        · exact hc h2.symm
        · exact ih (splitNl rest).headI (headI_mem_self _ (splitNl_ne_nil rest)) h2
      · exact ih l (List.mem_of_mem_tail h)

theorem splitNl_append (a b : List Char) :
    splitNl (a ++ b) = glueLast (splitNl a) (splitNl b) := by
  induction a with
  | nil =>
    show splitNl b = glueLast [[]] (splitNl b)
    cases hs : splitNl b with
    | nil => exact absurd hs (splitNl_ne_nil b)
    | cons y yt => rfl
  | cons c rest ih =>
    by_cases hc : c = '\n'
    · subst hc
      rw [show ('\n' :: rest) ++ b = '\n' :: (rest ++ b) from rfl,
        show splitNl ('\n' :: (rest ++ b)) = [] :: splitNl (rest ++ b) from by simp [splitNl],
        show splitNl ('\n' :: rest) = [] :: splitNl rest from by simp [splitNl], ih]
      cases hs : splitNl rest with
      | nil => exact absurd hs (splitNl_ne_nil rest)
      | cons l ls => rfl
    · rw [show (c :: rest) ++ b = c :: (rest ++ b) from rfl,
        splitNl_cons_of_ne c (rest ++ b) hc, splitNl_cons_of_ne c rest hc, ih]
      cases hs : splitNl rest with
      | nil => exact absurd hs (splitNl_ne_nil rest)
      | cons l ls =>
        cases ls with
        | nil =>
          cases hsb : splitNl b with
          | nil => exact absurd hsb (splitNl_ne_nil b)
          | cons y yt => simp [glueLast, List.headI]
        | cons l2 ls2 => simp [glueLast, List.headI]

theorem glueLast_mem (xs ys : List (List Char)) (l : List Char)
    (h : l ∈ glueLast xs ys) :
    l ∈ xs ∨ l ∈ ys ∨ ∃ x y, x ∈ xs ∧ y ∈ ys ∧ l = x ++ y := by
  induction xs with
  | nil => exact Or.inr (Or.inl h)
  | cons x xt ih =>
    cases xt with
    | nil =>
      cases ys with
      | nil =>
        rw [show glueLast [x] [] = [x] from rfl] at h
        exact Or.inl h
      | cons y yt =>
        rw [show glueLast [x] (y :: yt) = (x ++ y) :: yt from rfl] at h
        rcases List.mem_cons.mp h with h2 | h2
        · exact Or.inr (Or.inr ⟨x, y, List.mem_singleton_self x, List.mem_cons_self y yt, h2⟩)
        · exact Or.inr (Or.inl (List.mem_cons_of_mem y h2))
    | cons x2 xt2 =>
      rw [show glueLast (x :: x2 :: xt2) ys = x :: glueLast (x2 :: xt2) ys from rfl] at h
      rcases List.mem_cons.mp h with h2 | h2
      · exact Or.inl (h2 ▸ List.mem_cons_self x (x2 :: xt2))
      · rcases ih h2 with h3 | h3 | ⟨a, bb, ha, hb, he⟩
        · exact Or.inl (List.mem_cons_of_mem x h3)
        · exact Or.inr (Or.inl h3)
        · exact Or.inr (Or.inr ⟨a, bb, List.mem_cons_of_mem x ha, hb, he⟩)

theorem glueLast_cover (c : Char) (hc : isJsSpace c = true) :
    ∀ xs : List (List Char), xs ≠ [] →
      ∀ l ∈ xs, ∃ l2 ∈ glueLast xs [[c]], trimC l = trimC l2 := by
  intro xs
  induction xs with
  | nil => intro h; exact absurd rfl h
  | cons x xt ih =>
    intro _ l hl
    cases xt with
    | nil =>
      rw [List.mem_singleton] at hl
      subst hl
      refine ⟨l ++ [c], by rw [show glueLast [l] [[c]] = [l ++ [c]] from rfl]; simp, ?_⟩
      rw [trimC_append_spaces l [c] (by simp [hc])]
    | cons x2 xt2 =>
      rw [show glueLast (x :: x2 :: xt2) [[c]] = x :: glueLast (x2 :: xt2) [[c]] from rfl]
      rcases List.mem_cons.mp hl with h | h
      · exact ⟨x, List.mem_cons_self _ _, by rw [h]⟩
      · obtain ⟨l2, hl2, he⟩ := ih (by simp) l h
        exact ⟨l2, List.mem_cons_of_mem x hl2, he⟩

theorem trimLeft_cons_keep (c : Char) (t : List Char) (h : isJsSpace c = false) :
    trimLeft (c :: t) = c :: t := by
  simp [trimLeft, List.dropWhile_cons, h]

theorem trimRight_append_space (ys : List Char) (c : Char) (h : isJsSpace c = true) :
    trimRight (ys ++ [c]) = trimRight ys := by
  unfold trimRight
  rw [List.reverse_append]
  simp [trimLeft, List.dropWhile_cons, h]

theorem splitNl_trimLeft_mem (cs : List Char) :
    ∀ l ∈ splitNl (trimLeft cs), ∃ l0 ∈ splitNl cs, trimC l = trimC l0 := by
  induction cs with
  | nil => intro l hl; exact ⟨l, hl, rfl⟩
  | cons c rest ih =>
    by_cases hsp : isJsSpace c = true
    · rw [trimLeft_cons_space c rest hsp]
      intro l hl
      obtain ⟨l0, hl0, he⟩ := ih l hl
      by_cases hc : c = '\n'
      · subst hc
        exact ⟨l0, by
          rw [show splitNl ('\n' :: rest) = [] :: splitNl rest from by simp [splitNl]]
          exact List.mem_cons_of_mem _ hl0, he⟩
      · rw [splitNl_cons_of_ne c rest hc]
        cases hs : splitNl rest with
        | nil => exact absurd hs (splitNl_ne_nil rest)
        | cons h0 t0 =>
          rw [hs] at hl0
          rcases List.mem_cons.mp hl0 with h | h
          · refine ⟨c :: h0, ?_, ?_⟩
            · simp [List.headI]
            · rw [he, h, ← trimC_spaces_append [c] h0 (by simp [hsp])]
              rfl
          · refine ⟨l0, ?_, he⟩
            simp only [List.headI, List.tail]
            exact List.mem_cons_of_mem _ h
    · rw [trimLeft_cons_keep c rest (Bool.not_eq_true _ ▸ hsp)]
      intro l hl
      exact ⟨l, hl, rfl⟩

theorem splitNl_trimRight_mem (cs : List Char) :
    ∀ l ∈ splitNl (trimRight cs), ∃ l0 ∈ splitNl cs, trimC l = trimC l0 := by
  induction cs using List.reverseRecOn with
  | nil => intro l hl; exact ⟨l, hl, rfl⟩
  | append_singleton ys c ih =>
    by_cases hsp : isJsSpace c = true
    · rw [trimRight_append_space ys c hsp]
      intro l hl
      obtain ⟨l0, hl0, he⟩ := ih l hl
      by_cases hc : c = '\n'
      · subst hc
        refine ⟨l0, ?_, he⟩
        rw [show ys ++ ['\n'] = ys ++ '\n' :: ([] : List Char) from rfl, splitNl_append_nl]
        exact List.mem_append_left _ hl0
      · rw [splitNl_append ys [c], splitNl_no_nl [c] (by simp [Ne.symm hc])]
        obtain ⟨l2, hl2, he2⟩ := glueLast_cover c hsp (splitNl ys) (splitNl_ne_nil ys) l0 hl0
        exact ⟨l2, hl2, he.trans he2⟩
    · rw [trimRight_id_of_last (ys ++ [c]) c (by simp) (Bool.not_eq_true _ ▸ hsp)]
      intro l hl
      exact ⟨l, hl, rfl⟩

theorem splitNl_trimC_mem (cs : List Char) :
    ∀ l ∈ splitNl (trimC cs), ∃ l0 ∈ splitNl cs, trimC l = trimC l0 := by
  intro l hl
  obtain ⟨l1, hl1, he1⟩ := splitNl_trimRight_mem (trimLeft cs) l hl
  obtain ⟨l0, hl0, he0⟩ := splitNl_trimLeft_mem cs l1 hl1
  exact ⟨l0, hl0, he1.trans he0⟩

theorem splitNl_joinNl_flat (es : List (List Char)) (hne : es ≠ []) :
    splitNl (joinNl es) = es.flatMap splitNl := by
  induction es with
  | nil => exact absurd rfl hne
  | cons e rest ih =>
    cases rest with
    | nil => simp [joinNl]
    | cons e2 rest2 =>
      show splitNl (e ++ '\n' :: joinNl (e2 :: rest2)) = _
      rw [splitNl_append_nl, ih (by simp)]
      rfl

/-! ## Marker-freeness of section lines -/

theorem trimLeft_head_not_space (a : List Char) (c : Char) (t : List Char)
    (h : trimLeft a = c :: t) : isJsSpace c = false := by
  induction a with
  | nil => exact absurd h (by simp [trimLeft])
  | cons x xs ih =>
    by_cases hx : isJsSpace x = true
    · rw [trimLeft_cons_space x xs hx] at h
      exact ih h
    · have hx' : isJsSpace x = false := Bool.not_eq_true _ ▸ hx
      rw [trimLeft_cons_keep x xs hx'] at h
      injection h with h1 _
      rw [← h1]
      exact hx'

theorem trimRight_cons_of_head (c : Char) (t : List Char) (h : isJsSpace c = false) :
    trimRight (c :: t) = c :: trimRight t := by
  show (trimLeft (c :: t).reverse).reverse = c :: (trimLeft t.reverse).reverse
  rw [show (c :: t).reverse = t.reverse ++ [c] from by simp]
  unfold trimLeft
  rw [List.dropWhile_append]
  by_cases ht : (t.reverse.dropWhile isJsSpace).isEmpty = true
  · rw [if_pos ht]
    rw [List.isEmpty_iff] at ht
    rw [ht]
    simp [List.dropWhile_cons, h]
  · rw [if_neg ht]
    simp

theorem trimC_cons_of_head (c : Char) (t : List Char) (h : isJsSpace c = false) :
    trimC (c :: t) = c :: trimRight t := by
  unfold trimC
  rw [trimLeft_cons_keep c t h, trimRight_cons_of_head c t h]

theorem trimC_head_of (c : Char) (t : List Char) (h : isJsSpace c = false) :
    (trimC (c :: t)).head? = some c := by
  rw [trimC_cons_of_head c t h]
  rfl

theorem mfT_of_head_ne (t : List Char) (hh : ∀ c, t.head? = some c → c ≠ '$') :
    mfT t = true := by
  cases t with
  | nil => decide
  | cons c ct =>
    have hc : c ≠ '$' := hh c rfl
    have hne : ∀ s : List Char, s.head? = some '$' → ¬(c :: ct = s) := by
      intro s hs he
      rw [← he] at hs
      exact hc (Option.some.inj hs)
    have hnc : ¬('$' = c) := fun he => hc (Eq.symm he)
    have hlw : leadsWith "$$segment=".data (c :: ct) = false := by
      rw [show ("$$segment=".data : List Char) = '$' :: "$segment=".data from by decide]
      unfold leadsWith
      simp [hnc]
    unfold mfT
    rw [hlw]
    simp [hne "$$begin".data (by decide), hne "$$end".data (by decide),
      hne "$$system".data (by decide), hne "$$user".data (by decide),
      hne "$$options".data (by decide), hne "$$grammar".data (by decide)]

theorem mfT_of_goodL (l : List Char) (h : goodL l) : mfT (trimC l) = true :=
  mfT_of_head_ne (trimC l) h

theorem goodL_of_head (cs : List Char) (c0 : Char) (t : List Char)
    (hcs : cs = c0 :: t) (hsp : isJsSpace c0 = false) (hne : c0 ≠ '$') : goodL cs := by
  intro c hc
  rw [hcs, trimC_head_of c0 t hsp] at hc
  exact (Option.some.inj hc) ▸ hne

theorem goodL_spaces (cs : List Char) (h : cs.all isJsSpace = true) : goodL cs := by
  intro c hc
  rw [show trimC cs = [] from by
    unfold trimC
    rw [trimLeft_all_spaces cs h]
    rfl] at hc
  exact Option.noConfusion hc

theorem goodL_append (a b : List Char) (ha : goodL a) (hb : goodL b) :
    goodL (a ++ b) := by
  intro c hc
  cases hta : trimLeft a with
  | nil =>
    have hall : ∀ x ∈ a, isJsSpace x = true := List.dropWhile_eq_nil_iff.mp hta
    rw [trimC_spaces_append a b (List.all_eq_true.mpr hall)] at hc
    exact hb c hc
  | cons c0 t0 =>
    have hsp0 : isJsSpace c0 = false := trimLeft_head_not_space a c0 t0 hta
    have h1 : trimLeft (a ++ b) = c0 :: (t0 ++ b) := by
      rw [trimLeft_append_of_ne_nil a b (by rw [hta]; simp), hta]
      rfl
    have h2 : (trimC (a ++ b)).head? = some c0 := by
      unfold trimC
      rw [h1, trimRight_cons_of_head c0 _ hsp0]
      rfl
    have h3 : (trimC a).head? = some c0 := by
      unfold trimC
      rw [hta, trimRight_cons_of_head c0 t0 hsp0]
      rfl
    rw [h2] at hc
    exact (Option.some.inj hc) ▸ ha c0 h3

theorem splitNl_append_good (a b : List Char)
    (ha : ∀ l ∈ splitNl a, goodL l) (hb : ∀ l ∈ splitNl b, goodL l) :
    ∀ l ∈ splitNl (a ++ b), goodL l := by
  intro l hl
  rw [splitNl_append] at hl
  rcases glueLast_mem _ _ _ hl with h | h | ⟨x, y, hx, hy, he⟩
  · exact ha l h
  · exact hb l h
  · exact he ▸ goodL_append x y (ha x hx) (hb y hy)

theorem splitNl_good_of_no_nl (cs : List Char) (hnl : '\n' ∉ cs) (hg : goodL cs) :
    ∀ l ∈ splitNl cs, goodL l := by
  intro l hl
  rw [splitNl_no_nl cs hnl, List.mem_singleton] at hl
  exact hl ▸ hg

theorem lines_good_closed (cs : List Char) (c0 : Char) (t : List Char)
    (hcs : cs = c0 :: t) (hnl : '\n' ∉ cs) (hsp : isJsSpace c0 = false)
    (hne : c0 ≠ '$') : ∀ l ∈ splitNl cs, goodL l :=
  splitNl_good_of_no_nl cs hnl (goodL_of_head cs c0 t hcs hsp hne)

theorem hexDigitChar_ne_nl : ∀ d < 16, lowHexDigit d ≠ '\n' := by decide

theorem escapeCharJ_no_nl (c : Char) : '\n' ∉ escapeCharJ c := by
  unfold escapeCharJ
  split
  · decide
  · split
    · decide
    · split
      · decide
      · split
        · decide
        · split
          · decide
          · split
            · decide
            · split
              · decide
              · split
                · rename_i hlt
                  intro hm
                  simp only [List.mem_cons, List.not_mem_nil, or_false] at hm
                  rcases hm with h | h | h | h | h | h
                  · exact absurd h (by decide)
                  · exact absurd h (by decide)
                  · exact absurd h (by decide)
                  · exact absurd h (by decide)
                  · exact hexDigitChar_ne_nl _ (by omega) h.symm
                  · exact hexDigitChar_ne_nl _ (by omega) h.symm
                · rename_i h1 h2 h3 h4 h5 h6 h7 h8
                  intro hm
                  rw [List.mem_singleton] at hm
                  exact h3 hm.symm

theorem escStr_no_nl (s : String) : '\n' ∉ escStr s := by
  intro hm
  unfold escStr at hm
  rw [List.mem_flatten] at hm
  obtain ⟨l, hl, hml⟩ := hm
  rw [List.mem_map] at hl
  obtain ⟨c, _, he⟩ := hl
  exact escapeCharJ_no_nl c (he ▸ hml)

theorem renderStrJ_no_nl (s : String) : '\n' ∉ renderStrJ s := by
  intro hm
  unfold renderStrJ at hm
  rcases List.mem_cons.mp hm with h | h
  · exact absurd h (by decide)
  · rcases List.mem_append.mp h with h2 | h2
    · exact escStr_no_nl s h2
    · rw [List.mem_singleton] at h2
      exact absurd h2 (by decide)

theorem printNum_no_nl (q : ℚ) (h : denOkQ q) : '\n' ∉ printNum q := by
  intro hm
  rcases printNum_chars q h '\n' hm with h1 | h1 | h1
  · exact absurd h1 (by decide)
  · exact absurd h1 (by decide)
  · exact absurd h1 (by decide)

theorem printNum_lines_good (q : ℚ) (h : denOkQ q) :
    ∀ l ∈ splitNl (printNum q), goodL l := by
  obtain ⟨c, t, hct, hc⟩ := printNum_head q h
  refine lines_good_closed _ c t hct (printNum_no_nl q h) ?_ ?_
  · rcases hc with h1 | h1
    · subst h1; decide
    · exact isJsSpace_of_digit c h1
  · rcases hc with h1 | h1
    · subst h1; decide
    · intro he
      rw [he] at h1
      exact absurd h1 (by decide)

theorem renderStrJ_lines_good (s : String) : ∀ l ∈ splitNl (renderStrJ s), goodL l :=
  lines_good_closed _ dq (escStr s ++ [dq]) rfl (renderStrJ_no_nl s)
    (by decide) (by decide)

mutual

/-- Every line of a rendered JSON value buffers at the record parser: its
trimmed form never starts with `$` (for layouts whose gaps have that
property linewise). -/
theorem renderJ_lines_good : ∀ (gap : Nat → List Char) (cg : List Char) (d : Nat)
    (v : JVal), (∀ e, ∀ l ∈ splitNl (gap e), goodL l) → (∀ l ∈ splitNl cg, goodL l) →
    denOkJ v → ∀ l ∈ splitNl (renderJ gap cg d v), goodL l
  | gap, cg, d, .jnull => by
    intro hgap hcg hden
    show ∀ l ∈ splitNl ['n', 'u', 'l', 'l'], goodL l
    exact lines_good_closed _ 'n' ['u', 'l', 'l'] rfl (by decide) (by decide) (by decide)
  | gap, cg, d, .jbool true => by
    intro hgap hcg hden
    show ∀ l ∈ splitNl ['t', 'r', 'u', 'e'], goodL l
    exact lines_good_closed _ 't' ['r', 'u', 'e'] rfl (by decide) (by decide) (by decide)
  | gap, cg, d, .jbool false => by
    intro hgap hcg hden
    show ∀ l ∈ splitNl ['f', 'a', 'l', 's', 'e'], goodL l
    exact lines_good_closed _ 'f' ['a', 'l', 's', 'e'] rfl (by decide) (by decide)
      (by decide)
  | gap, cg, d, .jnum q => by
    intro hgap hcg hden
    show ∀ l ∈ splitNl (printNum q), goodL l
    exact printNum_lines_good q hden
  | gap, cg, d, .jstr s => by
    intro hgap hcg hden
    show ∀ l ∈ splitNl (renderStrJ s), goodL l
    exact renderStrJ_lines_good s
  | gap, cg, d, .jarr [] => by
    intro hgap hcg hden
    show ∀ l ∈ splitNl ['[', ']'], goodL l
    exact lines_good_closed _ '[' [']'] rfl (by decide) (by decide) (by decide)
  | gap, cg, d, .jarr (x :: xs) => by
    intro hgap hcg hden
    have hel := renderElemsJ_lines_good gap cg (d + 1) x xs hgap hcg
      (show denOkLJ (x :: xs) from hden)
    rw [show renderJ gap cg d (.jarr (x :: xs))
      = (((['['] ++ gap (d + 1)) ++ renderElemsJ gap cg (d + 1) (x :: xs)) ++ gap d)
        ++ [']'] from by simp [renderJ]]
    exact splitNl_append_good _ _
      (splitNl_append_good _ _
        (splitNl_append_good _ _
          (splitNl_append_good _ _
            (lines_good_closed _ '[' [] rfl (by decide) (by decide) (by decide))
            (hgap (d + 1)))
          hel)
        (hgap d))
      (lines_good_closed _ ']' [] rfl (by decide) (by decide) (by decide))
  | gap, cg, d, .jobj [] => by
    intro hgap hcg hden
    show ∀ l ∈ splitNl [obr, cbr], goodL l
    exact lines_good_closed _ obr [cbr] rfl (by decide) (by decide) (by decide)
  | gap, cg, d, .jobj (f :: fs) => by
    intro hgap hcg hden
    have hel := renderFieldsJ_lines_good gap cg (d + 1) f fs hgap hcg
      (show denOkFJ (f :: fs) from hden)
    rw [show renderJ gap cg d (.jobj (f :: fs))
      = ((([obr] ++ gap (d + 1)) ++ renderFieldsJ gap cg (d + 1) (f :: fs)) ++ gap d)
        ++ [cbr] from by simp [renderJ]]
    exact splitNl_append_good _ _
      (splitNl_append_good _ _
        (splitNl_append_good _ _
          (splitNl_append_good _ _
            (lines_good_closed _ obr [] rfl (by decide) (by decide) (by decide))
            (hgap (d + 1)))
          hel)
        (hgap d))
      (lines_good_closed _ cbr [] rfl (by decide) (by decide) (by decide))
termination_by gap cg d v => sizeJ v
decreasing_by all_goals (simp [sizeJ, sizeLJ, sizeFJ]; try omega)

/-- `renderJ_lines_good` for nonempty element lists. -/
theorem renderElemsJ_lines_good : ∀ (gap : Nat → List Char) (cg : List Char) (d : Nat)
    (x : JVal) (xs : List JVal),
    (∀ e, ∀ l ∈ splitNl (gap e), goodL l) → (∀ l ∈ splitNl cg, goodL l) →
    denOkLJ (x :: xs) → ∀ l ∈ splitNl (renderElemsJ gap cg d (x :: xs)), goodL l
  | gap, cg, d, x, [] => by
    intro hgap hcg hden
    show ∀ l ∈ splitNl (renderJ gap cg d x), goodL l
    exact renderJ_lines_good gap cg d x hgap hcg
      (show denOkJ x ∧ denOkLJ [] from hden).1
  | gap, cg, d, x, y :: ys => by
    intro hgap hcg hden
    obtain ⟨h1, h2⟩ := (show denOkJ x ∧ denOkLJ (y :: ys) from hden)
    have hrec := renderElemsJ_lines_good gap cg d y ys hgap hcg h2
    have hx := renderJ_lines_good gap cg d x hgap hcg h1
    rw [show renderElemsJ gap cg d (x :: y :: ys)
      = ((renderJ gap cg d x ++ [',']) ++ gap d) ++ renderElemsJ gap cg d (y :: ys)
      from by simp [renderElemsJ]]
    exact splitNl_append_good _ _
      (splitNl_append_good _ _
        (splitNl_append_good _ _ hx
          (lines_good_closed _ ',' [] rfl (by decide) (by decide) (by decide)))
        (hgap d))
      hrec
termination_by gap cg d x xs => sizeLJ (x :: xs)
decreasing_by all_goals (simp [sizeJ, sizeLJ, sizeFJ]; try omega)

/-- `renderJ_lines_good` for nonempty field lists. -/
theorem renderFieldsJ_lines_good : ∀ (gap : Nat → List Char) (cg : List Char) (d : Nat)
    (f : String × JVal) (fs : List (String × JVal)),
    (∀ e, ∀ l ∈ splitNl (gap e), goodL l) → (∀ l ∈ splitNl cg, goodL l) →
    denOkFJ (f :: fs) → ∀ l ∈ splitNl (renderFieldsJ gap cg d (f :: fs)), goodL l
  | gap, cg, d, (k, v), [] => by
    intro hgap hcg hden
    have hv := renderJ_lines_good gap cg d v hgap hcg (denOkFJ_head (k, v) [] hden)
    rw [show renderFieldsJ gap cg d [(k, v)]
      = ((renderStrJ k ++ [':']) ++ cg) ++ renderJ gap cg d v
      from by simp [renderFieldsJ]]
    exact splitNl_append_good _ _
      (splitNl_append_good _ _
        (splitNl_append_good _ _ (renderStrJ_lines_good k)
          (lines_good_closed _ ':' [] rfl (by decide) (by decide) (by decide)))
        hcg)
      hv
  | gap, cg, d, (k, v), g :: gs => by
    intro hgap hcg hden
    have h1 := denOkFJ_head (k, v) (g :: gs) hden
    have h2 := denOkFJ_tail (k, v) (g :: gs) hden
    have hv := renderJ_lines_good gap cg d v hgap hcg h1
    have hrec := renderFieldsJ_lines_good gap cg d g gs hgap hcg h2
    rw [show renderFieldsJ gap cg d ((k, v) :: g :: gs)
      = ((((renderStrJ k ++ [':']) ++ cg) ++ renderJ gap cg d v) ++ [','])
        ++ (gap d ++ renderFieldsJ gap cg d (g :: gs))
      from by simp [renderFieldsJ]]
    exact splitNl_append_good _ _
      (splitNl_append_good _ _
        (splitNl_append_good _ _
          (splitNl_append_good _ _
            (splitNl_append_good _ _ (renderStrJ_lines_good k)
              (lines_good_closed _ ':' [] rfl (by decide) (by decide) (by decide)))
            hcg)
          hv)
        (lines_good_closed _ ',' [] rfl (by decide) (by decide) (by decide)))
      (splitNl_append_good _ _ (hgap d) hrec)
termination_by gap cg d f fs => sizeFJ (f :: fs)
decreasing_by all_goals (simp [sizeJ, sizeLJ, sizeFJ]; try omega)

end

/-! ## Options codec round-trip: per-line and fold lemmas -/

theorem gapPretty_lines_good (e : Nat) : ∀ l ∈ splitNl (gapPretty e), goodL l := by
  intro l hl
  rw [show gapPretty e = '\n' :: List.replicate (2 * e) ' ' from rfl,
    show splitNl ('\n' :: List.replicate (2 * e) ' ')
      = [] :: splitNl (List.replicate (2 * e) ' ') from by simp [splitNl],
    splitNl_no_nl _ (fun hm => by
      have h2 := List.eq_of_mem_replicate hm
      exact absurd h2 (by decide))] at hl
  rcases List.mem_cons.mp hl with h | h
  · exact h ▸ goodL_spaces [] rfl
  · rw [List.mem_singleton] at h
    refine h ▸ goodL_spaces _ ?_
    rw [List.all_eq_true]
    intro x hx
    rw [List.eq_of_mem_replicate hx]
    decide

theorem spaceSep_lines_good : ∀ l ∈ splitNl [' '], goodL l := by
  intro l hl
  rw [splitNl_no_nl [' '] (by decide), List.mem_singleton] at hl
  exact hl ▸ goodL_spaces [' '] (by decide)

theorem renderPretty_lines_good (v : JVal) (hden : denOkJ v) :
    ∀ l ∈ splitNl (renderPretty v), goodL l :=
  renderJ_lines_good gapPretty [' '] 0 v gapPretty_lines_good spaceSep_lines_good hden

theorem stringMk_data (k : String) : String.mk k.data = k := by
  cases k
  rfl

theorem assocGet_mem {α : Type} (k : String) (l : List (String × α)) (v : α)
    (h : assocGet k l = some v) : (k, v) ∈ l := by
  induction l with
  | nil => exact Option.noConfusion h
  | cons kv rest ih =>
    rw [assocGet_cons] at h
    by_cases hk : kv.1 = k
    · rw [if_pos hk] at h
      have h2 : kv = (k, v) := Prod.ext hk (Option.some.inj h)
      rw [← h2]
      exact List.mem_cons_self kv rest
    · rw [if_neg hk] at h
      exact List.mem_cons_of_mem kv (ih h)

theorem optValRepr_shape (v : JVal) (hs : structOk v) :
    ∃ c t, optValRepr v = c :: t ∧ isJsSpace c = false := by
  cases v with
  | jnull => exact absurd hs id
  | jstr s => exact absurd hs id
  | jobj fs => exact absurd hs id
  | jbool b =>
    cases b with
    | false => exact ⟨'f', ['a', 'l', 's', 'e'], rfl, by decide⟩
    | true => exact ⟨'t', ['r', 'u', 'e'], rfl, by decide⟩
  | jnum q =>
    obtain ⟨c, t, hct, hc⟩ := printNum_head q hs
    refine ⟨c, t, hct, ?_⟩
    rcases hc with h | h
    · subst h; decide
    · exact isJsSpace_of_digit c h
  | jarr xs =>
    cases xs with
    | nil => exact ⟨'[', [']'], rfl, by decide⟩
    | cons x xt =>
      exact ⟨'[', gapNone 1 ++ renderElemsJ gapNone [] 1 (x :: xt) ++ gapNone 0 ++ [']'],
        rfl, by decide⟩

theorem optValRepr_last (v : JVal) (hs : structOk v) :
    ∃ c, (optValRepr v).getLast? = some c ∧ isJsSpace c = false := by
  cases v with
  | jnull => exact absurd hs id
  | jstr s => exact absurd hs id
  | jobj fs => exact absurd hs id
  | jbool b =>
    cases b with
    | false => exact ⟨'e', by decide, by decide⟩
    | true => exact ⟨'e', by decide, by decide⟩
  | jnum q =>
    obtain ⟨c, hlast, hdig⟩ := printNum_last q hs
    exact ⟨c, hlast, isJsSpace_of_digit c hdig⟩
  | jarr xs =>
    refine ⟨']', ?_, by decide⟩
    cases xs with
    | nil => decide
    | cons x xt =>
      rw [show optValRepr (.jarr (x :: xt))
        = ('[' :: renderElemsJ gapNone [] 1 (x :: xt)) ++ [']']
        from by simp [optValRepr, renderCompact, renderJ, gapNone]]
      exact List.getLast?_concat _

theorem jarrStrs_no_nl (xs : List JVal) (h : ∀ x ∈ xs, ∃ s, x = JVal.jstr s) :
    ∀ d, '\n' ∉ renderElemsJ gapNone [] d xs := by
  induction xs with
  | nil =>
    intro d hm
    rw [show renderElemsJ gapNone [] d ([] : List JVal) = [] from rfl] at hm
    exact List.not_mem_nil _ hm
  | cons x rest ih =>
    intro d
    obtain ⟨s, hx⟩ := h x (List.mem_cons_self x rest)
    cases rest with
    | nil =>
      show '\n' ∉ renderJ gapNone [] d x
      rw [hx]
      exact renderStrJ_no_nl s
    | cons y ys =>
      intro hm
      rw [show renderElemsJ gapNone [] d (x :: y :: ys)
        = renderJ gapNone [] d x ++ ',' :: renderElemsJ gapNone [] d (y :: ys)
        from by simp [renderElemsJ, gapNone]] at hm
      rcases List.mem_append.mp hm with h2 | h2
      · rw [hx] at h2
        exact renderStrJ_no_nl s h2
      · rcases List.mem_cons.mp h2 with h3 | h3
        · exact absurd h3 (by decide)
        · exact ih (fun z hz => h z (List.mem_cons_of_mem x hz)) d h3

theorem optValRepr_no_nl (v : JVal) (hs : structOk v) : '\n' ∉ optValRepr v := by
  cases v with
  | jnull => exact absurd hs id
  | jstr s => exact absurd hs id
  | jobj fs => exact absurd hs id
  | jbool b => cases b <;> decide
  | jnum q => exact printNum_no_nl q hs
  | jarr xs =>
    cases xs with
    | nil => decide
    | cons x xt =>
      intro hm
      rw [show optValRepr (.jarr (x :: xt))
        = '[' :: (renderElemsJ gapNone [] 1 (x :: xt) ++ [']'])
        from by simp [optValRepr, renderCompact, renderJ, gapNone]] at hm
      rcases List.mem_cons.mp hm with h2 | h2
      · exact absurd h2 (by decide)
      · rcases List.mem_append.mp h2 with h3 | h3
        · exact jarrStrs_no_nl (x :: xt) hs 1 h3
        · rw [List.mem_singleton] at h3
          exact absurd h3 (by decide)

theorem findIdx_append_eq (a b : List Char) (ha : '=' ∉ a) :
    (a ++ '=' :: b).findIdx? (fun c => c = '=') = some a.length := by
  induction a with
  | nil => simp [List.findIdx?_cons]
  | cons x xs ih =>
    have hx : ¬(x = '=') := fun he => ha (he ▸ List.mem_cons_self x xs)
    rw [show (x :: xs) ++ '=' :: b = x :: (xs ++ '=' :: b) from rfl, List.findIdx?_cons]
    simp [hx, ih (fun hm => ha (List.mem_cons_of_mem x hm))]

theorem parseFloatQ_denOk (cs : List Char) (q : ℚ) (h : parseFloatQ cs = some q) :
    denOkQ q := by
  simp only [parseFloatQ] at h
  split at h
  · exact absurd h (by simp)
  · rw [Option.some.injEq] at h
    rw [← h]
    exact denOkQ_mkRat_pows _ _ _

theorem structOk_of_check (sch : FieldSchema) (v : JVal) (hc : checkJ sch v = true)
    (hd : denOkJ v) : structOk v := by
  cases sch with
  | number lo hi =>
    cases v <;> simp only [checkJ] at hc <;>
      first | exact hd | exact absurd hc (by decide)
  | integer lo hi =>
    cases v <;> simp only [checkJ] at hc <;>
      first | exact hd | exact absurd hc (by decide)
  | boolean =>
    cases v <;> simp only [checkJ] at hc <;>
      first | exact trivial | exact absurd hc (by decide)
  | strArray =>
    cases v <;> simp only [checkJ] at hc <;> try exact absurd hc (by decide)
    rw [List.all_eq_true] at hc
    intro x hx
    have h2 := hc x hx
    cases x <;> simp at h2
    exact ⟨_, rfl⟩

theorem jsonParseFull_denOk (cs : List Char) (v : JVal)
    (h : jsonParseFull cs = some v) : denOkJ v := by
  unfold jsonParseFull at h
  split at h
  · split at h
    · rw [Option.some.injEq] at h
      rw [← h]
      exact (parse_denOk (cs.length + 1)).1 cs _ _ (by assumption)
    · exact Option.noConfusion h
  · exact Option.noConfusion h

theorem parseOptionValue_tail_denOk (cs : List Char) (v : DecVal)
    (h : (if ((stripQuotes cs).map Char.toLower = "true".data
            || (stripQuotes cs).map Char.toLower = "1".data
            || (stripQuotes cs).map Char.toLower = "y".data) = true
          then some (DecVal.fin (JVal.jbool true))
          else if ((stripQuotes cs).map Char.toLower = "false".data
            || (stripQuotes cs).map Char.toLower = "0".data
            || (stripQuotes cs).map Char.toLower = "n".data) = true
          then some (DecVal.fin (JVal.jbool false))
          else if infLead (replaceFirstC ',' '.' (stripQuotes cs)) = true
          then some (DecVal.infty (negLead (replaceFirstC ',' '.' (stripQuotes cs))))
          else match parseFloatQ (replaceFirstC ',' '.' (stripQuotes cs)) with
            | some q => some (DecVal.fin (JVal.jnum q))
            | none => none) = some v) : denOkDec v := by
  split at h
  · rw [Option.some.injEq] at h
    rw [← h]
    exact trivial
  · split at h
    · rw [Option.some.injEq] at h
      rw [← h]
      exact trivial
    · split at h
      · rw [Option.some.injEq] at h
        rw [← h]
        exact trivial
      · split at h
        · rw [Option.some.injEq] at h
          rw [← h]
          exact parseFloatQ_denOk _ _ (by assumption)
        · exact Option.noConfusion h

theorem parseOptionValue_denOk (cs : List Char) (v : DecVal)
    (h : parseOptionValue cs = some v) : denOkDec v := by
  by_cases h1 : cs = []
  · rw [show parseOptionValue cs = none from by rw [h1]; rfl] at h
    exact Option.noConfusion h
  · by_cases harr : cs.head? = some '['
    · cases hj : jsonParseFull cs with
      | some w =>
        cases w with
        | jarr xs =>
          have e : parseOptionValue cs = some (.fin (.jarr xs)) := by
            simp [parseOptionValue, h1, hj, harr]
          rw [e, Option.some.injEq] at h
          rw [← h]
          exact jsonParseFull_denOk cs _ hj
        | jnull =>
          apply parseOptionValue_tail_denOk cs v
          rw [← h]
          simp [parseOptionValue, h1, hj, harr]
        | jbool b =>
          apply parseOptionValue_tail_denOk cs v
          rw [← h]
          simp [parseOptionValue, h1, hj, harr]
        | jnum q =>
          apply parseOptionValue_tail_denOk cs v
          rw [← h]
          simp [parseOptionValue, h1, hj, harr]
        | jstr s =>
          apply parseOptionValue_tail_denOk cs v
          rw [← h]
          simp [parseOptionValue, h1, hj, harr]
        | jobj fs =>
          apply parseOptionValue_tail_denOk cs v
          rw [← h]
          simp [parseOptionValue, h1, hj, harr]
      | none =>
        apply parseOptionValue_tail_denOk cs v
        rw [← h]
        simp [parseOptionValue, h1, hj, harr]
    · apply parseOptionValue_tail_denOk cs v
      rw [← h]
      simp [parseOptionValue, h1, harr]

theorem parseOptionsToObject_vals (content : List Char) :
    ∀ kv ∈ parseOptionsToObject content, ∃ cs, parseOptionValue cs = some kv.2 := by
  unfold parseOptionsToObject
  have main : ∀ (lines : List (List Char)) (acc : List (String × DecVal)),
      (∀ kv ∈ acc, ∃ cs, parseOptionValue cs = some kv.2) →
      ∀ kv ∈ lines.foldl (fun options line =>
          let trimmed := trimC line
          if trimmed = [] then options
          else
            match trimmed.findIdx? (fun c => c = '=') with
            | none => options
            | some 0 => options
            | some i =>
              let key := trimC (trimmed.take i)
              let valueStr := trimC (trimmed.drop (i + 1))
              match parseOptionValue valueStr with
              | some v => insertOrUpdate options (String.mk key) v
              | none => options) acc,
        ∃ cs, parseOptionValue cs = some kv.2 := by
    intro lines
    induction lines with
    | nil => intro acc hacc kv hkv; exact hacc kv hkv
    | cons l rest ih =>
      intro acc hacc
      rw [List.foldl_cons]
      apply ih
      intro kv hkv
      change kv ∈ (if trimC l = [] then acc
        else match (trimC l).findIdx? (fun c => c = '=') with
          | none => acc
          | some 0 => acc
          | some i =>
            match parseOptionValue (trimC ((trimC l).drop (i + 1))) with
            | some v => insertOrUpdate acc (String.mk (trimC ((trimC l).take i))) v
            | none => acc) at hkv
      split at hkv
      · exact hacc kv hkv
      · split at hkv
        · exact hacc kv hkv
        · exact hacc kv hkv
        · split at hkv
          · rcases insertOrUpdate_mem _ _ _ kv hkv with hold | hnew
            · exact hacc kv hold
            · rw [hnew]
              exact ⟨_, by assumption⟩
          · exact hacc kv hkv
  intro kv hkv
  exact main (splitNl content) [] (fun kv2 h2 => absurd h2 (List.not_mem_nil kv2)) kv hkv

theorem keyOk_parts (k : String) (hk : keyOk k = true) :
    ∃ c t, k.data = c :: t ∧ isJsSpace c = false ∧ c ≠ '$'
      ∧ '=' ∉ k.data ∧ '\n' ∉ k.data ∧ trimC k.data = k.data := by
  unfold keyOk at hk
  split at hk
  · exact absurd hk (by decide)
  · rename_i c t heq
    simp only [Bool.and_eq_true, Bool.not_eq_true', decide_eq_false_iff_not,
      decide_eq_true_eq, List.any_eq_false, Bool.or_eq_false_iff] at hk
    obtain ⟨⟨⟨hsp, hdol⟩, hany⟩, htr⟩ := hk
    refine ⟨c, t, heq, hsp, hdol, ?_, ?_, htr⟩
    · intro hm
      have h2 := hany '=' hm
      simp at h2
    · intro hm
      have h2 := hany '\n' hm
      simp at h2

theorem optLine_no_nl (k : String) (v : JVal) (hk : keyOk k = true) (hs : structOk v) :
    '\n' ∉ k.data ++ '=' :: optValRepr v := by
  obtain ⟨c, t, heq, hsp, hdol, heqn, hnl, htr⟩ := keyOk_parts k hk
  intro hm
  rcases List.mem_append.mp hm with h | h
  · exact hnl h
  · rcases List.mem_cons.mp h with h2 | h2
    · exact absurd h2 (by decide)
    · exact optValRepr_no_nl v hs h2

theorem optLine_trimC (k : String) (v : JVal) (hk : keyOk k = true) (hs : structOk v) :
    trimC (k.data ++ '=' :: optValRepr v) = k.data ++ '=' :: optValRepr v := by
  obtain ⟨c, t, heq, hsp, hdol, heqn, hnl, htr⟩ := keyOk_parts k hk
  obtain ⟨c2, hlast, hsp2⟩ := optValRepr_last v hs
  have hvne : optValRepr v ≠ [] := by
    obtain ⟨c3, t3, h3, _⟩ := optValRepr_shape v hs
    rw [h3]
    simp
  have hh : (k.data ++ '=' :: optValRepr v).head? = some c := by
    rw [heq]
    rfl
  have hl : (k.data ++ '=' :: optValRepr v).getLast? = some c2 := by
    rw [show k.data ++ '=' :: optValRepr v = (k.data ++ ['=']) ++ optValRepr v
      from by simp, getLast?_append_right _ _ hvne]
    exact hlast
  unfold trimC
  rw [trimLeft_id_of_head _ c hh hsp, trimRight_id_of_last _ c2 hl hsp2]

theorem codecStep_optLine (acc : List (String × DecVal)) (k : String) (v : JVal)
    (hk : keyOk k = true) (hs : structOk v)
    (h01a : v ≠ .jnum 0) (h01b : v ≠ .jnum 1)
    (hfresh : ∀ kv ∈ acc, kv.1 ≠ k) :
    (if trimC (k.data ++ '=' :: optValRepr v) = [] then acc
     else match (trimC (k.data ++ '=' :: optValRepr v)).findIdx? (fun c => c = '=') with
       | none => acc
       | some 0 => acc
       | some i =>
         match parseOptionValue
             (trimC ((trimC (k.data ++ '=' :: optValRepr v)).drop (i + 1))) with
         | some w =>
           insertOrUpdate acc
             (String.mk (trimC ((trimC (k.data ++ '=' :: optValRepr v)).take i))) w
         | none => acc) = acc ++ [(k, DecVal.fin v)] := by
  obtain ⟨c, t, heq, hsp, hdol, heqn, hnl, htr⟩ := keyOk_parts k hk
  have htrim := optLine_trimC k v hk hs
  rw [htrim]
  rw [if_neg (by rw [heq]; simp)]
  rw [findIdx_append_eq _ _ heqn]
  rw [show k.data.length = t.length + 1 from by rw [heq]; rfl]
  show (match parseOptionValue
      (trimC ((k.data ++ '=' :: optValRepr v).drop (t.length + 1 + 1))) with
    | some w =>
      insertOrUpdate acc
        (String.mk (trimC ((k.data ++ '=' :: optValRepr v).take (t.length + 1)))) w
    | none => acc) = acc ++ [(k, DecVal.fin v)]
  have htake : (k.data ++ '=' :: optValRepr v).take (t.length + 1) = k.data := by
    rw [show t.length + 1 = k.data.length from by rw [heq]; rfl]
    exact List.take_left _ _
  have hdrop : (k.data ++ '=' :: optValRepr v).drop (t.length + 1 + 1) = optValRepr v := by
    rw [show k.data ++ '=' :: optValRepr v = (k.data ++ ['=']) ++ optValRepr v from by simp,
      show t.length + 1 + 1 = (k.data ++ ['=']).length from by rw [heq]; simp]
    exact List.drop_left _ _
  rw [htake, hdrop, htr, stringMk_data]
  have hvtrim : trimC (optValRepr v) = optValRepr v := by
    obtain ⟨c3, t3, h3, hsp3⟩ := optValRepr_shape v hs
    obtain ⟨c4, hl4, hsp4⟩ := optValRepr_last v hs
    unfold trimC
    rw [trimLeft_id_of_head _ c3 (by rw [h3]; rfl) hsp3,
      trimRight_id_of_last _ c4 hl4 hsp4]
  rw [hvtrim, parseOptionValue_repr v hs (fun q hq =>
    ⟨fun h0 => h01a (hq.trans (by rw [h0])),
     fun h1 => h01b (hq.trans (by rw [h1]))⟩)]
  show insertOrUpdate acc k (DecVal.fin v) = acc ++ [(k, DecVal.fin v)]
  exact insertOrUpdate_fresh acc k (DecVal.fin v) hfresh

theorem codec_lines_fold : ∀ (os : TPromtOptions) (acc : List (String × DecVal)),
    (∀ kv ∈ os, keyOk kv.1 = true) →
    (∀ kv ∈ os, ∃ v, kv.2 = some v ∧ structOk v ∧ v ≠ .jnum 0 ∧ v ≠ .jnum 1) →
    ((os.map Prod.fst).Nodup) →
    (∀ kv ∈ os, ∀ kv2 ∈ acc, kv2.1 ≠ kv.1) →
    (os.map (fun kv => serializeOptionValue kv.1 kv.2)).foldl (fun options line =>
        let trimmed := trimC line
        if trimmed = [] then options
        else
          match trimmed.findIdx? (fun c => c = '=') with
          | none => options
          | some 0 => options
          | some i =>
            let key := trimC (trimmed.take i)
            let valueStr := trimC (trimmed.drop (i + 1))
            match parseOptionValue valueStr with
            | some v => insertOrUpdate options (String.mk key) v
            | none => options) acc
      = acc ++ stripSome os := by
  intro os
  induction os with
  | nil =>
    intro acc _ _ _ _
    simp [stripSome]
  | cons kw rest ih =>
    intro acc hkeys hvals hnodup hfresh
    obtain ⟨v, hw, hsv, h01a, h01b⟩ := hvals kw (List.mem_cons_self kw rest)
    rw [List.map_cons, List.foldl_cons]
    have hstep : (let trimmed := trimC (serializeOptionValue kw.1 kw.2)
        if trimmed = [] then acc
        else
          match trimmed.findIdx? (fun c => c = '=') with
          | none => acc
          | some 0 => acc
          | some i =>
            let key := trimC (trimmed.take i)
            let valueStr := trimC (trimmed.drop (i + 1))
            match parseOptionValue valueStr with
            | some v => insertOrUpdate acc (String.mk key) v
            | none => acc)
        = acc ++ [(kw.1, DecVal.fin v)] := by
      rw [hw, serializeOptionValue_some]
      exact codecStep_optLine acc kw.1 v (hkeys kw (List.mem_cons_self kw rest)) hsv
        h01a h01b (fun kv2 h2 => hfresh kw (List.mem_cons_self kw rest) kv2 h2)
    rw [hstep]
    have hkm : kw.1 ∉ rest.map Prod.fst := by
      rw [List.map_cons] at hnodup
      exact (List.nodup_cons.mp hnodup).1
    rw [ih (acc ++ [(kw.1, DecVal.fin v)])
      (fun kv h2 => hkeys kv (List.mem_cons_of_mem kw h2))
      (fun kv h2 => hvals kv (List.mem_cons_of_mem kw h2))
      (by rw [List.map_cons] at hnodup; exact (List.nodup_cons.mp hnodup).2)
      (fun kv h2 kv2 h3 => by
        rcases List.mem_append.mp h3 with h4 | h4
        · exact hfresh kv (List.mem_cons_of_mem kw h2) kv2 h4
        · rw [List.mem_singleton] at h4
          rw [h4]
          intro he
          exact hkm (he ▸ List.mem_map_of_mem Prod.fst h2))]
    rw [show stripSome (kw :: rest) = (kw.1, DecVal.fin v) :: stripSome rest from by
      unfold stripSome
      rw [List.flatMap_cons, hw]
      rfl]
    simp

theorem joinNl_cons_head (l : List Char) (ls : List (List Char)) (hne : l ≠ []) :
    (joinNl (l :: ls)).head? = l.head? := by
  cases ls with
  | nil => rfl
  | cons l2 ls2 =>
    show (l ++ '\n' :: joinNl (l2 :: ls2)).head? = l.head?
    cases l with
    | nil => exact absurd rfl hne
    | cons c t => rfl

theorem joinNl_last (ls : List (List Char)) (hne : ls ≠ [])
    (h : ∀ l ∈ ls, ∃ c, l.getLast? = some c ∧ isJsSpace c = false) :
    ∃ c, (joinNl ls).getLast? = some c ∧ isJsSpace c = false := by
  induction ls with
  | nil => exact absurd rfl hne
  | cons l rest ih =>
    cases rest with
    | nil => exact h l (List.mem_cons_self l [])
    | cons l2 rest2 =>
      obtain ⟨c, hc, hsp⟩ := ih (by simp) (fun x hx => h x (List.mem_cons_of_mem l hx))
      refine ⟨c, ?_, hsp⟩
      show (l ++ '\n' :: joinNl (l2 :: rest2)).getLast? = some c
      rw [getLast?_append_right l _ (by simp)]
      have hne2 : joinNl (l2 :: rest2) ≠ [] := by
        intro he
        rw [he] at hc
        exact Option.noConfusion hc
      rw [show ('\n' :: joinNl (l2 :: rest2)) = ['\n'] ++ joinNl (l2 :: rest2) from rfl,
        getLast?_append_right _ _ hne2]
      exact hc

/-- The options codec, run on the serializer's text for a validated option
record with nonempty, good entries, recovers exactly the raw entries. -/
theorem codec_block (os : TPromtOptions)
    (hkeys : ∀ kv ∈ os, keyOk kv.1 = true)
    (hvals : ∀ kv ∈ os, ∃ v, kv.2 = some v ∧ structOk v ∧ v ≠ .jnum 0 ∧ v ≠ .jnum 1)
    (hnodup : (os.map Prod.fst).Nodup) (hne : os ≠ []) :
    parseOptionsToObject
        (trimC (joinNl (os.map (fun kv => serializeOptionValue kv.1 kv.2))))
      = stripSome os := by
  have hlines_ne : os.map (fun kv => serializeOptionValue kv.1 kv.2) ≠ [] := by
    intro he
    rw [List.map_eq_nil_iff] at he
    exact hne he
  have hnl : ∀ l ∈ os.map (fun kv => serializeOptionValue kv.1 kv.2), '\n' ∉ l := by
    intro l hl
    rw [List.mem_map] at hl
    obtain ⟨kv, hkv, he⟩ := hl
    obtain ⟨v, hw, hsv, _, _⟩ := hvals kv hkv
    rw [← he, hw, serializeOptionValue_some]
    exact optLine_no_nl kv.1 v (hkeys kv hkv) hsv
  have htrim : trimC (joinNl (os.map (fun kv => serializeOptionValue kv.1 kv.2)))
      = joinNl (os.map (fun kv => serializeOptionValue kv.1 kv.2)) := by
    obtain ⟨kw, rest, hos⟩ : ∃ kw rest, os = kw :: rest := by
      cases os with
      | nil => exact absurd rfl hne
      | cons a b => exact ⟨a, b, rfl⟩
    have hmem : kw ∈ os := by
      rw [hos]
      exact List.mem_cons_self kw rest
    obtain ⟨v, hw, hsv, _, _⟩ := hvals kw hmem
    obtain ⟨c, t, heq, hsp, _, _, _, _⟩ := keyOk_parts kw.1 (hkeys kw hmem)
    have hh : (joinNl (os.map (fun kv => serializeOptionValue kv.1 kv.2))).head?
        = some c := by
      rw [hos, List.map_cons, joinNl_cons_head _ _ (by
        rw [hw, serializeOptionValue_some, heq]; simp)]
      rw [hw, serializeOptionValue_some, heq]
      rfl
    obtain ⟨c2, hc2, hsp2⟩ := joinNl_last
      (os.map (fun kv => serializeOptionValue kv.1 kv.2)) hlines_ne
      (by
        intro l hl
        rw [List.mem_map] at hl
        obtain ⟨kv2, hkv2, he2⟩ := hl
        obtain ⟨v2, hw2, hsv2, _, _⟩ := hvals kv2 hkv2
        obtain ⟨c3, hl3, hsp3⟩ := optValRepr_last v2 hsv2
        have hvne : optValRepr v2 ≠ [] := by
          intro he3
          rw [he3] at hl3
          exact Option.noConfusion hl3
        refine ⟨c3, ?_, hsp3⟩
        rw [← he2, hw2, serializeOptionValue_some,
          show kv2.1.data ++ '=' :: optValRepr v2
            = (kv2.1.data ++ ['=']) ++ optValRepr v2 from by simp,
          getLast?_append_right _ _ hvne]
        exact hl3)
    cases hjoin : joinNl (os.map (fun kv => serializeOptionValue kv.1 kv.2)) with
    | nil =>
      rw [hjoin] at hh
      exact Option.noConfusion hh
    | cons c0 t0 =>
      rw [hjoin] at hh hc2
      have hc0 : c0 = c := by
        rw [List.head?_cons, Option.some.injEq] at hh
        exact hh
      unfold trimC
      rw [trimLeft_id_of_head (c0 :: t0) c0 rfl (by rw [hc0]; exact hsp),
        trimRight_id_of_last _ c2 hc2 hsp2]
  rw [htrim]
  unfold parseOptionsToObject
  rw [splitNl_joinNl _ hlines_ne hnl]
  have hfold := codec_lines_fold os [] hkeys hvals hnodup
    (fun kv _ kv2 h2 => absurd h2 (List.not_mem_nil kv2))
  rw [hfold]
  rfl

/-! ## Idempotence of the option validator through the codec -/

theorem flatMap_congr_mem {α β : Type} (l : List α) (f g : α → List β)
    (h : ∀ x ∈ l, f x = g x) : l.flatMap f = l.flatMap g := by
  induction l with
  | nil => rfl
  | cons x t ih =>
    rw [List.flatMap_cons, List.flatMap_cons, h x (List.mem_cons_self x t),
      ih (fun y hy => h y (List.mem_cons_of_mem x hy))]

theorem flatMap_flatMap_assoc {α β γ : Type} (l : List α) (f : α → List β)
    (g : β → List γ) :
    (l.flatMap f).flatMap g = l.flatMap (fun x => (f x).flatMap g) := by
  induction l with
  | nil => rfl
  | cons x t ih =>
    rw [List.flatMap_cons, List.flatMap_cons, List.flatMap_append, ih]

theorem assocGet_flatMap_keyed {β : Type} (k : String)
    (f : String × JVal → List (String × β)) :
    ∀ (l : List (String × JVal)),
    (∀ kd ∈ l, ∀ kv ∈ f kd, kv.1 = kd.1) →
    ((l.map Prod.fst).Nodup) →
    ∀ kd ∈ l, kd.1 = k →
      assocGet k (l.flatMap f) = assocGet k (f kd) := by
  intro l
  induction l with
  | nil =>
    intro _ _ kd h
    exact absurd h (List.not_mem_nil kd)
  | cons kd0 rest ih =>
    intro hf hnd kd hkd hk
    rw [List.flatMap_cons, assocGet_append]
    rcases List.mem_cons.mp hkd with he | hmem
    · subst he
      cases hget : assocGet k (f kd) with
      | some v => rfl
      | none =>
        show assocGet k (rest.flatMap f) = none
        apply assocGet_eq_none_of_keys
        intro kv hkv
        rw [List.mem_flatMap] at hkv
        obtain ⟨kd2, hkd2, hkv2⟩ := hkv
        rw [hf kd2 (List.mem_cons_of_mem kd hkd2) kv hkv2]
        intro he2
        rw [List.map_cons, List.nodup_cons] at hnd
        exact hnd.1 ((hk.trans he2.symm).symm ▸ List.mem_map_of_mem Prod.fst hkd2)
    · have hget0 : assocGet k (f kd0) = none := by
        apply assocGet_eq_none_of_keys
        intro kv hkv
        rw [hf kd0 (List.mem_cons_self kd0 rest) kv hkv]
        intro he2
        rw [List.map_cons, List.nodup_cons] at hnd
        exact hnd.1 ((hk.trans he2.symm) ▸ List.mem_map_of_mem Prod.fst hmem)
      rw [hget0]
      show assocGet k (rest.flatMap f) = assocGet k (f kd)
      exact ih (fun kd2 h2 kv hkv => hf kd2 (List.mem_cons_of_mem kd0 h2) kv hkv)
        (by rw [List.map_cons, List.nodup_cons] at hnd; exact hnd.2) kd hmem hk

theorem entryFor_keys (use : Use) (raw : List (String × DecVal)) (useAll : Bool)
    (kd : String × JVal) : ∀ kv ∈ entryFor use raw useAll kd, kv.1 = kd.1 := by
  intro kv h
  unfold entryFor at h
  split at h
  · split at h
    · rw [List.mem_singleton] at h
      rw [h]
    · exact absurd h (List.not_mem_nil kv)
  · split at h
    · split at h
      · rw [List.mem_singleton] at h
        rw [h]
      · split at h
        · rw [List.mem_singleton] at h
          rw [h]
        · exact absurd h (List.not_mem_nil kv)
    · split at h
      · rw [List.mem_singleton] at h
        rw [h]
      · exact absurd h (List.not_mem_nil kv)
  · split at h
    · rw [List.mem_singleton] at h
      rw [h]
    · exact absurd h (List.not_mem_nil kv)

theorem seedEntry_keys (raw : List (String × DecVal)) :
    ∀ kv ∈ seedEntry raw, kv.1 = "seed" := by
  intro kv h
  unfold seedEntry at h
  split at h
  · exact absurd h (List.not_mem_nil kv)
  · split at h
    · split at h
      · rw [List.mem_singleton] at h
        rw [h]
      · exact absurd h (List.not_mem_nil kv)
    · exact absurd h (List.not_mem_nil kv)
  · exact absurd h (List.not_mem_nil kv)

theorem stripSome_append (a b : TPromtOptions) :
    stripSome (a ++ b) = stripSome a ++ stripSome b := by
  unfold stripSome
  exact List.flatMap_append a b _

theorem stripSome_keys (os : TPromtOptions) :
    ∀ kv ∈ stripSome os, ∃ kv0 ∈ os, kv.1 = kv0.1
      ∧ ∃ v, kv.2 = .fin v ∧ kv0.2 = some v := by
  intro kv h
  unfold stripSome at h
  rw [List.mem_flatMap] at h
  obtain ⟨kv0, h0, hm⟩ := h
  cases hw : kv0.2 with
  | none =>
    rw [hw] at hm
    exact absurd hm (List.not_mem_nil kv)
  | some v =>
    rw [hw] at hm
    rw [List.mem_singleton] at hm
    rw [hm]
    exact ⟨kv0, h0, rfl, v, rfl, hw⟩

theorem pop_mem_shape (use : Use) (raw : List (String × DecVal))
    (kv : String × Option JVal) (hm : kv ∈ PromtOptionsParse use raw false) :
    ∃ sch v, propSchema kv.1 = some sch ∧ kv.2 = some v ∧ checkJ sch v = true
      ∧ assocGet kv.1 raw = some (.fin v) := by
  rw [promtOptionsParse_eq] at hm
  rcases List.mem_append.mp hm with h | h
  · rw [List.mem_flatMap] at h
    obtain ⟨kd, hkd, hkv⟩ := h
    unfold entryFor at hkv
    split at hkv
    · split at hkv
      · exact absurd (by assumption : (false : Bool) = true) (by decide)
      · exact absurd hkv (List.not_mem_nil kv)
    · split at hkv
      · split at hkv
        · rw [List.mem_singleton] at hkv
          subst hkv
          exact ⟨_, _, (by assumption), rfl, (by assumption), (by assumption)⟩
        · split at hkv
          · exact absurd (by assumption : (false : Bool) = true) (by decide)
          · exact absurd hkv (List.not_mem_nil kv)
      · split at hkv
        · exact absurd (by assumption : (false : Bool) = true) (by decide)
        · exact absurd hkv (List.not_mem_nil kv)
    · split at hkv
      · exact absurd (by assumption : (false : Bool) = true) (by decide)
      · exact absurd hkv (List.not_mem_nil kv)
  · unfold seedEntry at h
    split at h
    · exact absurd h (List.not_mem_nil kv)
    · split at h
      · split at h
        · rw [List.mem_singleton] at h
          subst h
          exact ⟨_, _, (by assumption), rfl, (by assumption), (by assumption)⟩
        · exact absurd h (List.not_mem_nil kv)
      · exact absurd h (List.not_mem_nil kv)
    · exact absurd h (List.not_mem_nil kv)

theorem entryFor_small (use : Use) (raw : List (String × DecVal)) (useAll : Bool)
    (kd : String × JVal) :
    entryFor use raw useAll kd = []
      ∨ ∃ w, entryFor use raw useAll kd = [(kd.1, w)] := by
  unfold entryFor
  split
  · split
    · exact Or.inr ⟨_, rfl⟩
    · exact Or.inl rfl
  · split
    · split
      · exact Or.inr ⟨_, rfl⟩
      · split
        · exact Or.inr ⟨_, rfl⟩
        · exact Or.inl rfl
    · split
      · exact Or.inr ⟨_, rfl⟩
      · exact Or.inl rfl
  · split
    · exact Or.inr ⟨_, rfl⟩
    · exact Or.inl rfl

theorem seedEntry_small (raw : List (String × DecVal)) :
    seedEntry raw = [] ∨ ∃ w, seedEntry raw = [("seed", w)] := by
  unfold seedEntry
  split
  · exact Or.inl rfl
  · split
    · split
      · exact Or.inr ⟨_, rfl⟩
      · exact Or.inl rfl
    · exact Or.inl rfl
  · exact Or.inl rfl

theorem pop_keys_sublist (use : Use) (raw : List (String × DecVal)) (useAll : Bool) :
    ((PromtOptionsParse use raw useAll).map Prod.fst).Sublist
      (((defaultsOf use).map Prod.fst) ++ ["seed"]) := by
  rw [promtOptionsParse_eq, List.map_append]
  apply List.Sublist.append
  · have main : ∀ (l : List (String × JVal)),
        ((l.flatMap (entryFor use raw useAll)).map Prod.fst).Sublist
          (l.map Prod.fst) := by
      intro l
      induction l with
      | nil => simp
      | cons kd rest ih =>
        rw [List.flatMap_cons, List.map_append, List.map_cons]
        rcases entryFor_small use raw useAll kd with he | ⟨w, he⟩
        · rw [he]
          exact List.Sublist.cons kd.1 ih
        · rw [he]
          exact List.Sublist.cons₂ kd.1 ih
    exact main _
  · rcases seedEntry_small raw with he | ⟨w, he⟩
    · rw [he]
      simp
    · rw [he]
      simp

theorem pop_keys_nodup (use : Use) (raw : List (String × DecVal)) (useAll : Bool) :
    ((PromtOptionsParse use raw useAll).map Prod.fst).Nodup := by
  apply List.Nodup.sublist (pop_keys_sublist use raw useAll)
  obtain ⟨hnd, hsd⟩ := defaults_keys_nodup use
  refine List.Nodup.append hnd (List.nodup_singleton _) ?_
  intro x hx hxs
  rw [List.mem_singleton] at hxs
  rw [List.mem_map] at hx
  obtain ⟨kd, hkd, he⟩ := hx
  exact hsd kd hkd (he.symm ▸ hxs ▸ rfl)

theorem pop_keys_keyOk (use : Use) (raw : List (String × DecVal)) (useAll : Bool) :
    ∀ kv ∈ PromtOptionsParse use raw useAll, keyOk kv.1 = true := by
  intro kv hm
  rw [promtOptionsParse_eq] at hm
  rcases List.mem_append.mp hm with h | h
  · rw [List.mem_flatMap] at h
    obtain ⟨kd, hkd, hkv⟩ := h
    rw [entryFor_keys use raw useAll kd kv hkv]
    have hall : ∀ kd2 ∈ defaultsOf use, keyOk kd2.1 = true := by
      cases use <;> decide
    exact hall kd hkd
  · rw [seedEntry_keys raw kv h]
    decide

theorem pop_vals_structOk (use : Use) (raw : List (String × DecVal))
    (hdok : ∀ kv2 ∈ raw, denOkDec kv2.2) :
    ∀ kv ∈ PromtOptionsParse use raw false, ∃ v, kv.2 = some v ∧ structOk v := by
  intro kv hm
  obtain ⟨sch, v, hps, hw, hc, hget⟩ := pop_mem_shape use raw kv hm
  exact ⟨v, hw, structOk_of_check sch v hc
    (hdok (kv.1, .fin v) (assocGet_mem _ _ _ hget))⟩

/-- Feeding the validator's own (stripped) output back through the validator
reproduces it: every kept entry passed its check, so it passes again. -/
theorem promtOptionsParse_idem (use : Use) (raw : List (String × DecVal)) :
    PromtOptionsParse use (stripSome (PromtOptionsParse use raw false)) false
      = PromtOptionsParse use raw false := by
  obtain ⟨hnodupD, hseedD⟩ := defaults_keys_nodup use
  have hsa : stripSome ((defaultsOf use).flatMap (entryFor use raw false))
      = (defaultsOf use).flatMap
          (fun kd => stripSome (entryFor use raw false kd)) := by
    unfold stripSome
    exact flatMap_flatMap_assoc _ _ _
  have hkeysStrip : ∀ kd2 ∈ defaultsOf use,
      ∀ kv ∈ stripSome (entryFor use raw false kd2), kv.1 = kd2.1 := by
    intro kd2 _ kv hkv
    obtain ⟨kv0, h0, he1, _⟩ := stripSome_keys _ kv hkv
    rw [he1, entryFor_keys use raw false kd2 kv0 h0]
  have hseedNone : ∀ kd ∈ defaultsOf use,
      assocGet kd.1 (stripSome (seedEntry raw)) = none := by
    intro kd hkd
    apply assocGet_eq_none_of_keys
    intro kv hkv
    obtain ⟨kv0, h0, he1, _⟩ := stripSome_keys _ kv hkv
    rw [he1, seedEntry_keys raw kv0 h0]
    intro he
    exact hseedD kd hkd he.symm
  have hget : ∀ kd ∈ defaultsOf use,
      assocGet kd.1 (stripSome (PromtOptionsParse use raw false))
        = assocGet kd.1 (stripSome (entryFor use raw false kd)) := by
    intro kd hkd
    have hmain : assocGet kd.1 ((defaultsOf use).flatMap
          (fun kd2 => stripSome (entryFor use raw false kd2)))
        = assocGet kd.1 (stripSome (entryFor use raw false kd)) :=
      assocGet_flatMap_keyed kd.1 _ (defaultsOf use) hkeysStrip hnodupD kd hkd rfl
    rw [promtOptionsParse_eq, stripSome_append, assocGet_append, hsa, hmain]
    cases hg2 : assocGet kd.1 (stripSome (entryFor use raw false kd)) with
    | some v => rfl
    | none => exact hseedNone kd hkd
  have hpoint : ∀ kd ∈ defaultsOf use,
      entryFor use (stripSome (PromtOptionsParse use raw false)) false kd
        = entryFor use raw false kd := by
    intro kd hkd
    have hg := hget kd hkd
    cases hr : assocGet kd.1 raw with
    | none =>
      have h1 : entryFor use raw false kd = [] := by
        simp [entryFor, hr]
      have h2 : assocGet kd.1 (stripSome (PromtOptionsParse use raw false)) = none := by
        rw [hg, h1]
        rfl
      simp [entryFor, h2, hr]
    | some dv =>
      cases dv with
      | infty b =>
        have h1 : entryFor use raw false kd = [] := by
          simp [entryFor, hr]
        have h2 : assocGet kd.1 (stripSome (PromtOptionsParse use raw false)) = none := by
          rw [hg, h1]
          rfl
        simp [entryFor, h2, hr]
      | fin v =>
        cases hps : propSchema kd.1 with
        | none =>
          have h1 : entryFor use raw false kd = [] := by
            simp [entryFor, hr, hps]
          have h2 : assocGet kd.1 (stripSome (PromtOptionsParse use raw false)) = none := by
            rw [hg, h1]
            rfl
          simp [entryFor, h2, hr, hps]
        | some sch =>
          by_cases hc : checkJ sch v = true
          · have h1 : entryFor use raw false kd = [(kd.1, some v)] := by
              simp [entryFor, hr, hps, hc]
            have h2 : assocGet kd.1 (stripSome (PromtOptionsParse use raw false))
                = some (DecVal.fin v) := by
              rw [hg, h1]
              show assocGet kd.1 [(kd.1, DecVal.fin v)] = some (DecVal.fin v)
              rw [assocGet_cons, if_pos rfl]
            simp [entryFor, h2, hr, hps, hc]
          · have h1 : entryFor use raw false kd = [] := by
              simp [entryFor, hr, hps, hc]
            have h2 : assocGet kd.1 (stripSome (PromtOptionsParse use raw false))
                = none := by
              rw [hg, h1]
              rfl
            simp [entryFor, h2, hr, hps, hc]
  have hseedA : assocGet "seed"
      (stripSome ((defaultsOf use).flatMap (entryFor use raw false))) = none := by
    apply assocGet_eq_none_of_keys
    intro kv hkv
    obtain ⟨kv0, h0, he1, _⟩ := stripSome_keys _ kv hkv
    rw [List.mem_flatMap] at h0
    obtain ⟨kd, hkd, hkv0⟩ := h0
    rw [he1, entryFor_keys use raw false kd kv0 hkv0]
    exact hseedD kd hkd
  have hseedGet : assocGet "seed" (stripSome (PromtOptionsParse use raw false))
      = assocGet "seed" (stripSome (seedEntry raw)) := by
    rw [promtOptionsParse_eq, stripSome_append, assocGet_append, hseedA]
  have hps : propSchema "seed" = some (.integer 0 none) := rfl
  have hseedEq : seedEntry (stripSome (PromtOptionsParse use raw false))
      = seedEntry raw := by
    cases hr : assocGet "seed" raw with
    | none =>
      have h1 : seedEntry raw = [] := by
        simp [seedEntry, hr]
      have h2 : assocGet "seed" (stripSome (PromtOptionsParse use raw false))
          = none := by
        rw [hseedGet, h1]
        rfl
      simp [seedEntry, h2, hr]
    | some dv =>
      cases dv with
      | infty b =>
        have h1 : seedEntry raw = [] := by
          simp [seedEntry, hr]
        have h2 : assocGet "seed" (stripSome (PromtOptionsParse use raw false))
            = none := by
          rw [hseedGet, h1]
          rfl
        simp [seedEntry, h2, hr]
      | fin v =>
        by_cases hc : checkJ (.integer 0 none) v = true
        · have h1 : seedEntry raw = [("seed", some v)] := by
            simp [seedEntry, hr, hps, hc]
          have h2 : assocGet "seed" (stripSome (PromtOptionsParse use raw false))
              = some (DecVal.fin v) := by
            rw [hseedGet, h1]
            show assocGet "seed" [("seed", DecVal.fin v)] = some (DecVal.fin v)
            rw [assocGet_cons, if_pos rfl]
          simp [seedEntry, h2, hr, hps, hc]
        · have h1 : seedEntry raw = [] := by
            simp [seedEntry, hr, hps, hc]
          have h2 : assocGet "seed" (stripSome (PromtOptionsParse use raw false))
              = none := by
            rw [hseedGet, h1]
            rfl
          simp [seedEntry, h2, hr, hps, hc]
  rw [promtOptionsParse_eq use (stripSome (PromtOptionsParse use raw false)) false,
    flatMap_congr_mem _ _ _ hpoint, hseedEq, ← promtOptionsParse_eq use raw false]

/-- Serialize-then-decode-then-validate reproduces a canonical, nonempty,
`0`/`1`-free option record exactly. -/
theorem options_reproduce (use : Use) (os : TPromtOptions)
    (hcanon : optsCanon use os) (hne : os ≠ [])
    (h01 : ∀ kv ∈ os, ¬(kv.2 = some (.jnum 0)) ∧ ¬(kv.2 = some (.jnum 1))) :
    PromtOptionsParse use
      (parseOptionsToObject
        (trimC (joinNl (os.map (fun kv => serializeOptionValue kv.1 kv.2)))))
      false = os := by
  obtain ⟨raw, hdok, hos⟩ := hcanon
  have hkeys : ∀ kv ∈ os, keyOk kv.1 = true := by
    intro kv h
    exact pop_keys_keyOk use raw false kv (hos ▸ h)
  have hvals : ∀ kv ∈ os, ∃ v, kv.2 = some v ∧ structOk v
      ∧ v ≠ .jnum 0 ∧ v ≠ .jnum 1 := by
    intro kv h
    obtain ⟨v, hw, hsv⟩ := pop_vals_structOk use raw hdok kv (hos ▸ h)
    refine ⟨v, hw, hsv, ?_, ?_⟩
    · intro he
      exact (h01 kv h).1 (by rw [hw, he])
    · intro he
      exact (h01 kv h).2 (by rw [hw, he])
  have hnodup : (os.map Prod.fst).Nodup := by
    rw [hos]
    exact pop_keys_nodup use raw false
  rw [codec_block os hkeys hvals hnodup hne, hos, promtOptionsParse_idem]

/-! ## The parser's canonical-shape invariant -/

theorem trimC_mem (c : Char) (l : List Char) (h : c ∈ trimC l) : c ∈ l := by
  unfold trimC trimRight trimLeft at h
  rw [List.mem_reverse] at h
  have h3 := (List.dropWhile_sublist _).subset h
  rw [List.mem_reverse] at h3
  exact (List.dropWhile_sublist _).subset h3

theorem finishSection_canon (use : Use) (p : PPromt) (sec : Sect)
    (lines : List (List Char)) (segName : Option String)
    (hp : ppCanon use p)
    (hlines : ∀ l ∈ lines, mfT (trimC l) = true ∧ '\n' ∉ l)
    (hlne : lines ≠ [])
    (hseg : ∀ nm, segName = some nm → trimC nm.data = nm.data ∧ '\n' ∉ nm.data) :
    ppCanon use (finishSection p sec lines use segName) := by
  obtain ⟨hpsys, hpuser, hpopts, hpsegs, hpgram⟩ := hp
  have htext : textCanon (String.mk (trimC (joinNl lines))) := by
    refine ⟨trimC_trimC _, ?_⟩
    intro l hl
    obtain ⟨l0, hl0, he⟩ := splitNl_trimC_mem (joinNl lines) l hl
    rw [splitNl_joinNl lines hlne (fun x hx => (hlines x hx).2)] at hl0
    rw [he]
    exact (hlines l0 hl0).1
  cases sec with
  | system =>
    show ppCanon use { p with system := some (String.mk (trimC (joinNl lines))) }
    refine ⟨?_, hpuser, hpopts, hpsegs, hpgram⟩
    intro s hs
    rw [← Option.some.inj hs]
    exact htext
  | user =>
    show ppCanon use { p with user := some (String.mk (trimC (joinNl lines))) }
    refine ⟨hpsys, ?_, hpopts, hpsegs, hpgram⟩
    intro u hu
    rw [← Option.some.inj hu]
    exact htext
  | options =>
    show ppCanon use { p with options := some (PromtOptionsParse use
      (parseOptionsToObject (trimC (joinNl lines))) false) }
    refine ⟨hpsys, hpuser, ?_, hpsegs, hpgram⟩
    intro os hos
    rw [← Option.some.inj hos]
    refine ⟨parseOptionsToObject (trimC (joinNl lines)), ?_, rfl⟩
    intro kv hkv
    obtain ⟨cs, hcs⟩ := parseOptionsToObject_vals _ kv hkv
    exact parseOptionValue_denOk cs kv.2 hcs
  | segment =>
    cases segName with
    | none =>
      show ppCanon use p
      exact ⟨hpsys, hpuser, hpopts, hpsegs, hpgram⟩
    | some nm =>
      obtain ⟨hnm1, hnm2⟩ := hseg nm rfl
      show ppCanon use (if nm ≠ "" then
        { p with segment := some (insertOrUpdate (p.segment.getD []) nm
            (String.mk (trimC (joinNl lines)))) } else p)
      by_cases hne2 : nm ≠ ""
      · rw [if_pos hne2]
        refine ⟨hpsys, hpuser, hpopts, ?_, hpgram⟩
        intro segs hsegs2
        rw [← Option.some.inj hsegs2]
        refine ⟨insertOrUpdate_ne_nil _ _ _, ?_, ?_⟩
        · apply insertOrUpdate_keys_nodup
          cases hpseg : p.segment with
          | none => exact List.nodup_nil
          | some segs0 => exact (hpsegs segs0 hpseg).2.1
        · intro kv hkv
          rcases insertOrUpdate_mem _ _ _ kv hkv with hold | hnew
          · cases hpseg : p.segment with
            | none =>
              rw [hpseg] at hold
              exact absurd hold (List.not_mem_nil kv)
            | some segs0 =>
              rw [hpseg] at hold
              exact (hpsegs segs0 hpseg).2.2 kv hold
          · rw [hnew]
            exact ⟨hne2, hnm1, hnm2, htext⟩
      · rw [if_neg hne2]
        exact ⟨hpsys, hpuser, hpopts, hpsegs, hpgram⟩
  | grammar =>
    show ppCanon use (if GrammarCheck (trimC (joinNl lines)) ≠ [] then
      { p with grammar := some (String.mk (GrammarCheck (trimC (joinNl lines)))) }
      else p)
    by_cases hg : GrammarCheck (trimC (joinNl lines)) ≠ []
    · rw [if_pos hg]
      refine ⟨hpsys, hpuser, hpopts, hpsegs, ?_⟩
      intro g hgs
      rw [← Option.some.inj hgs]
      exact grammarCheck_spec _ hg
    · rw [if_neg hg]
      exact ⟨hpsys, hpuser, hpopts, hpsegs, hpgram⟩

theorem flushPending_canon (use : Use) (st : PState) (p : PPromt)
    (hp : ppCanon use p)
    (hbuf : ∀ l ∈ st.buf, mfT (trimC l) = true ∧ '\n' ∉ l)
    (hsg : ∀ nm, st.segName = some nm → trimC nm.data = nm.data ∧ '\n' ∉ nm.data) :
    ppCanon use (flushPending use st p) := by
  unfold flushPending
  cases st.sec with
  | none => exact hp
  | some sec =>
    show ppCanon use (if st.buf ≠ [] then finishSection p sec st.buf use st.segName else p)
    by_cases hb : st.buf ≠ []
    · rw [if_pos hb]
      exact finishSection_canon use p sec st.buf st.segName hp hbuf hb hsg
    · rw [if_neg hb]
      exact hp

theorem flushCur_canon (use : Use) (st : PState)
    (hcur : ∀ pp, st.cur = some pp → ppCanon use pp)
    (hbuf : ∀ l ∈ st.buf, mfT (trimC l) = true ∧ '\n' ∉ l)
    (hsg : ∀ nm, st.segName = some nm → trimC nm.data = nm.data ∧ '\n' ∉ nm.data) :
    ppCanon use (flushCur use st) := by
  unfold flushCur
  cases hc : st.cur with
  | none =>
    exact ⟨fun s hs => Option.noConfusion hs, fun u hu => Option.noConfusion hu,
      fun os hos => Option.noConfusion hos, fun segs hsegs => Option.noConfusion hsegs,
      fun g hg => Option.noConfusion hg⟩
  | some p => exact flushPending_canon use st p (hcur p hc) hbuf hsg

theorem emitted_canon (use : Use) (st : PState)
    (hout : ∀ r ∈ st.out, recCanon use r)
    (hcur : ∀ pp, st.cur = some pp → ppCanon use pp)
    (hbuf : ∀ l ∈ st.buf, mfT (trimC l) = true ∧ '\n' ∉ l)
    (hsg : ∀ nm, st.segName = some nm → trimC nm.data = nm.data ∧ '\n' ∉ nm.data) :
    ∀ r ∈ emitted use st, recCanon use r := by
  intro r hr
  cases hc : st.cur with
  | none =>
    have he : emitted use st = st.out := by simp [emitted, hc]
    rw [he] at hr
    exact hout r hr
  | some p =>
    cases hib : st.inBlock with
    | false =>
      have he : emitted use st = st.out := by simp [emitted, hc, hib]
      rw [he] at hr
      exact hout r hr
    | true =>
      have hcanon := flushPending_canon use st p (hcur p hc) hbuf hsg
      cases hu : (flushPending use st p).user with
      | none =>
        have he : emitted use st = st.out := by simp [emitted, hc, hib, hu]
        rw [he] at hr
        exact hout r hr
      | some u =>
        by_cases hne : u ≠ ""
        · have he : emitted use st = st.out ++
              [⟨(flushPending use st p).system, u, (flushPending use st p).options,
                (flushPending use st p).segment, (flushPending use st p).grammar⟩] := by
            simp [emitted, hc, hib, hu, hne]
          rw [he] at hr
          rcases List.mem_append.mp hr with h1 | h2
          · exact hout r h1
          · have hrr : r = ⟨(flushPending use st p).system, u,
                (flushPending use st p).options, (flushPending use st p).segment,
                (flushPending use st p).grammar⟩ := List.mem_singleton.mp h2
            subst hrr
            obtain ⟨hfsys, hfuser, hfopts, hfsegs, hfgram⟩ := hcanon
            exact ⟨hfsys, ⟨hfuser u hu, hne⟩, hfopts, hfsegs, hfgram⟩
        · have he2 : u = "" := not_ne_iff.mp hne
          have he : emitted use st = st.out := by simp [emitted, hc, hib, hu, he2]
          rw [he] at hr
          exact hout r hr

theorem stepLine_canon (use : Use) (st : PState) (line : List Char)
    (hc : stCanon use st) (hnl : '\n' ∉ line) :
    stCanon use (stepLine use st line) := by
  obtain ⟨hout, hcur, hbuf, hsg⟩ := hc
  have hstep : stepLine use st line =
      (if trimC line = "$$begin".data then ⟨true, some {}, none, none, [], emitted use st⟩
       else if trimC line = "$$end".data then ⟨false, none, none, none, [], emitted use st⟩
       else if !(st.inBlock && st.cur.isSome) then st
       else if trimC line = "$$system".data then { st with cur := some (flushCur use st), sec := some .system, segName := none, buf := [] }
       else if trimC line = "$$user".data then { st with cur := some (flushCur use st), sec := some .user, segName := none, buf := [] }
       else if trimC line = "$$options".data then { st with cur := some (flushCur use st), sec := some .options, segName := none, buf := [] }
       else if trimC line = "$$grammar".data then { st with cur := some (flushCur use st), sec := some .grammar, segName := none, buf := [] }
       else if leadsWith "$$segment=".data (trimC line) then { st with cur := some (flushCur use st), sec := some .segment, segName := some (String.mk (trimC ((trimC line).drop 10))), buf := [] }
       else match st.sec with
            | some _ => { st with buf := st.buf ++ [line] }
            | none => st) := rfl
  rw [hstep]
  have hemit := emitted_canon use st hout hcur hbuf hsg
  have hflush := flushCur_canon use st hcur hbuf hsg
  have hppnil : ppCanon use ({} : PPromt) :=
    ⟨fun s hs => Option.noConfusion hs, fun u hu => Option.noConfusion hu,
     fun os hos => Option.noConfusion hos, fun segs hsegs => Option.noConfusion hsegs,
     fun g hg => Option.noConfusion hg⟩
  split
  · exact ⟨hemit, fun pp hpp => (Option.some.inj hpp) ▸ hppnil,
      fun l hl => absurd hl (List.not_mem_nil l),
      fun nm hnm => Option.noConfusion hnm⟩
  split
  · exact ⟨hemit, fun pp hpp => Option.noConfusion hpp,
      fun l hl => absurd hl (List.not_mem_nil l),
      fun nm hnm => Option.noConfusion hnm⟩
  split
  · exact ⟨hout, hcur, hbuf, hsg⟩
  split
  · exact ⟨hout, fun pp hpp => (Option.some.inj hpp) ▸ hflush,
      fun l hl => absurd hl (List.not_mem_nil l),
      fun nm hnm => Option.noConfusion hnm⟩
  split
  · exact ⟨hout, fun pp hpp => (Option.some.inj hpp) ▸ hflush,
      fun l hl => absurd hl (List.not_mem_nil l),
      fun nm hnm => Option.noConfusion hnm⟩
  split
  · exact ⟨hout, fun pp hpp => (Option.some.inj hpp) ▸ hflush,
      fun l hl => absurd hl (List.not_mem_nil l),
      fun nm hnm => Option.noConfusion hnm⟩
  split
  · exact ⟨hout, fun pp hpp => (Option.some.inj hpp) ▸ hflush,
      fun l hl => absurd hl (List.not_mem_nil l),
      fun nm hnm => Option.noConfusion hnm⟩
  split
  · refine ⟨hout, fun pp hpp => (Option.some.inj hpp) ▸ hflush,
      fun l hl => absurd hl (List.not_mem_nil l), ?_⟩
    intro nm hnm
    rw [← Option.some.inj hnm]
    refine ⟨trimC_trimC _, ?_⟩
    intro hm
    have hm2 := trimC_mem _ _ hm
    have hm3 := List.mem_of_mem_drop hm2
    exact hnl (trimC_mem _ _ hm3)
  split
  · rename_i hb1 hb2 hb3 hb4 hb5 hb6 hb7 hb8 xsec sec0 hsec
    refine ⟨hout, hcur, ?_, hsg⟩
    intro l hl
    rcases List.mem_append.mp hl with h1 | h2
    · exact hbuf l h1
    · rw [List.mem_singleton] at h2
      subst h2
      refine ⟨?_, hnl⟩
      unfold mfT
      simp only [Bool.and_eq_true, Bool.not_eq_true']
      refine ⟨⟨⟨⟨⟨⟨decide_eq_false hb1, decide_eq_false hb2⟩, decide_eq_false hb4⟩,
        decide_eq_false hb5⟩, decide_eq_false hb6⟩, decide_eq_false hb7⟩, ?_⟩
      rw [Bool.not_eq_true] at hb8
      exact hb8
  · exact ⟨hout, hcur, hbuf, hsg⟩

theorem foldl_canon (use : Use) (lines : List (List Char)) :
    ∀ st : PState, stCanon use st → (∀ l ∈ lines, '\n' ∉ l) →
      stCanon use (lines.foldl (stepLine use) st) := by
  induction lines with
  | nil =>
    intro st h _
    exact h
  | cons l rest ih =>
    intro st h hnl
    exact ih (stepLine use st l)
      (stepLine_canon use st l h (hnl l (List.mem_cons_self l rest)))
      (fun l2 h2 => hnl l2 (List.mem_cons_of_mem l h2))

/-- Every record the parser emits is canonical. -/
theorem promtLoad_canon (raw : String) (use : Use) :
    ∀ r ∈ PromtLoad raw use, recCanon use r := by
  have hinit : stCanon use initState :=
    ⟨fun r hr => absurd hr (List.not_mem_nil r),
     fun pp hpp => Option.noConfusion hpp,
     fun l hl => absurd hl (List.not_mem_nil l),
     fun nm hnm => Option.noConfusion hnm⟩
  have hfin := foldl_canon use (splitNl raw.data) initState hinit
    (splitNl_mem_no_nl raw.data)
  obtain ⟨hout, hcur, hbuf, hsg⟩ := hfin
  exact emitted_canon use _ hout hcur hbuf hsg

/-! ## Replaying a serialized record through the parser -/

theorem trimC_length_le (x : List Char) : (trimC x).length ≤ x.length := by
  unfold trimC trimRight trimLeft
  calc ((x.dropWhile isJsSpace).reverse.dropWhile isJsSpace).reverse.length
      = ((x.dropWhile isJsSpace).reverse.dropWhile isJsSpace).length := by
        rw [List.length_reverse]
    _ ≤ (x.dropWhile isJsSpace).reverse.length := (List.dropWhile_sublist _).length_le
    _ = (x.dropWhile isJsSpace).length := by rw [List.length_reverse]
    _ ≤ x.length := (List.dropWhile_sublist _).length_le

theorem trimmed_last_not_space (x : List Char) (h : trimC x = x) (hne : x ≠ []) :
    ∃ c, x.getLast? = some c ∧ isJsSpace c = false := by
  rcases List.eq_nil_or_concat x with he | ⟨y, c, he⟩
  · exact absurd he hne
  all_goals rw [List.concat_eq_append] at he
  · refine ⟨c, by rw [he]; exact List.getLast?_concat _, ?_⟩
    by_contra hsp
    rw [Bool.not_eq_false] at hsp
    have h2 : trimC x = trimC y := by
      rw [he]
      exact trimC_append_spaces y [c] (by simp [hsp])
    have h3 := trimC_length_le y
    rw [h2] at h
    have h4 : x.length = y.length + 1 := by
      rw [he]
      simp
    rw [← h] at h4
    omega

theorem append_ne_of_take (a b r : List Char) (n : Nat) (hn : n ≤ a.length)
    (h : a.take n ≠ b.take n) : a ++ r ≠ b := by
  intro he
  apply h
  rw [← List.take_append_of_le_length hn, he]

theorem leadsWith_append (p r : List Char) : leadsWith p (p ++ r) = true := by
  induction p with
  | nil => rfl
  | cons c t ih =>
    show (decide (c = c) && leadsWith t (t ++ r)) = true
    rw [ih]
    simp

theorem flatMap_splitNl_id (l : List (List Char)) (h : ∀ x ∈ l, '\n' ∉ x) :
    l.flatMap splitNl = l := by
  induction l with
  | nil => rfl
  | cons x t ih =>
    rw [List.flatMap_cons, splitNl_no_nl x (h x (List.mem_cons_self x t)),
      ih (fun y hy => h y (List.mem_cons_of_mem x hy))]
    rfl

theorem stepLine_eq (use : Use) (st : PState) (line : List Char) :
    stepLine use st line =
      (if trimC line = "$$begin".data then ⟨true, some {}, none, none, [], emitted use st⟩
       else if trimC line = "$$end".data then ⟨false, none, none, none, [], emitted use st⟩
       else if !(st.inBlock && st.cur.isSome) then st
       else if trimC line = "$$system".data then { st with cur := some (flushCur use st), sec := some .system, segName := none, buf := [] }
       else if trimC line = "$$user".data then { st with cur := some (flushCur use st), sec := some .user, segName := none, buf := [] }
       else if trimC line = "$$options".data then { st with cur := some (flushCur use st), sec := some .options, segName := none, buf := [] }
       else if trimC line = "$$grammar".data then { st with cur := some (flushCur use st), sec := some .grammar, segName := none, buf := [] }
       else if leadsWith "$$segment=".data (trimC line) then { st with cur := some (flushCur use st), sec := some .segment, segName := some (String.mk (trimC ((trimC line).drop 10))), buf := [] }
       else match st.sec with
            | some _ => { st with buf := st.buf ++ [line] }
            | none => st) := rfl

theorem emitted_nocur (use : Use) (st : PState) (h : st.cur = none) :
    emitted use st = st.out := by
  unfold emitted
  rw [h]

theorem stepLine_begin (use : Use) (st : PState) :
    stepLine use st "$$begin".data = ⟨true, some {}, none, none, [], emitted use st⟩ := by
  rw [stepLine_eq, if_pos (by decide)]

theorem stepLine_end2 (use : Use) (st : PState) :
    stepLine use st "$$end".data = ⟨false, none, none, none, [], emitted use st⟩ := by
  rw [stepLine_eq, if_neg (by decide), if_pos (by decide)]

theorem stepLine_system (use : Use) (st : PState) (h1 : st.inBlock = true)
    (h2 : st.cur.isSome = true) :
    stepLine use st "$$system".data = { st with cur := some (flushCur use st), sec := some .system, segName := none, buf := [] } := by
  rw [stepLine_eq, if_neg (by decide), if_neg (by decide),
    if_neg (by rw [h1, h2]; decide), if_pos (by decide)]

theorem stepLine_user (use : Use) (st : PState) (h1 : st.inBlock = true)
    (h2 : st.cur.isSome = true) :
    stepLine use st "$$user".data = { st with cur := some (flushCur use st), sec := some .user, segName := none, buf := [] } := by
  rw [stepLine_eq, if_neg (by decide), if_neg (by decide),
    if_neg (by rw [h1, h2]; decide), if_neg (by decide), if_pos (by decide)]

theorem stepLine_options (use : Use) (st : PState) (h1 : st.inBlock = true)
    (h2 : st.cur.isSome = true) :
    stepLine use st "$$options".data = { st with cur := some (flushCur use st), sec := some .options, segName := none, buf := [] } := by
  rw [stepLine_eq, if_neg (by decide), if_neg (by decide),
    if_neg (by rw [h1, h2]; decide), if_neg (by decide), if_neg (by decide),
    if_pos (by decide)]

theorem stepLine_grammar (use : Use) (st : PState) (h1 : st.inBlock = true)
    (h2 : st.cur.isSome = true) :
    stepLine use st "$$grammar".data = { st with cur := some (flushCur use st), sec := some .grammar, segName := none, buf := [] } := by
  rw [stepLine_eq, if_neg (by decide), if_neg (by decide),
    if_neg (by rw [h1, h2]; decide), if_neg (by decide), if_neg (by decide),
    if_neg (by decide), if_pos (by decide)]

theorem stepLine_segment (use : Use) (st : PState) (nm : String)
    (h1 : st.inBlock = true) (h2 : st.cur.isSome = true)
    (htr : trimC nm.data = nm.data) (hnmne : nm ≠ "") :
    stepLine use st ("$$segment=".data ++ nm.data) = { st with cur := some (flushCur use st), sec := some .segment, segName := some nm, buf := [] } := by
  have hdne : nm.data ≠ [] := by
    intro he
    apply hnmne
    rw [← stringMk_data nm, he]
  obtain ⟨c2, hl2, hsp2⟩ := trimmed_last_not_space nm.data htr hdne
  have hline : trimC ("$$segment=".data ++ nm.data) = "$$segment=".data ++ nm.data := by
    unfold trimC
    rw [trimLeft_id_of_head _ '$' (by rfl) (by decide),
      trimRight_id_of_last _ c2 (by rw [getLast?_append_right _ _ hdne]; exact hl2) hsp2]
  rw [stepLine_eq, hline,
    if_neg (append_ne_of_take _ _ _ 4 (by decide) (by decide)),
    if_neg (append_ne_of_take _ _ _ 4 (by decide) (by decide)),
    if_neg (by rw [h1, h2]; decide),
    if_neg (append_ne_of_take _ _ _ 4 (by decide) (by decide)),
    if_neg (append_ne_of_take _ _ _ 4 (by decide) (by decide)),
    if_neg (append_ne_of_take _ _ _ 4 (by decide) (by decide)),
    if_neg (append_ne_of_take _ _ _ 4 (by decide) (by decide)),
    if_pos (leadsWith_append _ _)]
  rw [show ("$$segment=".data ++ nm.data).drop 10 = nm.data from by
    rw [show (10 : Nat) = ("$$segment=".data : List Char).length from rfl]
    exact List.drop_left _ _]
  rw [htr, stringMk_data]

theorem stepLine_buffer (use : Use) (st : PState) (line : List Char) (sec0 : Sect)
    (h1 : st.inBlock = true) (h2 : st.cur.isSome = true) (hsec : st.sec = some sec0)
    (hmf : mfT (trimC line) = true) :
    stepLine use st line = { st with buf := st.buf ++ [line] } := by
  unfold mfT at hmf
  simp only [Bool.and_eq_true, Bool.not_eq_true', decide_eq_false_iff_not] at hmf
  obtain ⟨⟨⟨⟨⟨⟨hm1, hm2⟩, hm4⟩, hm5⟩, hm6⟩, hm7⟩, hm8⟩ := hmf
  rw [stepLine_eq, if_neg hm1, if_neg hm2, if_neg (by rw [h1, h2]; decide),
    if_neg hm4, if_neg hm5, if_neg hm6, if_neg hm7,
    if_neg (by rw [hm8]; decide), hsec]

theorem foldl_buffer (use : Use) : ∀ (content : List (List Char)) (st : PState)
    (sec0 : Sect), st.inBlock = true → st.cur.isSome = true → st.sec = some sec0 →
    (∀ l ∈ content, mfT (trimC l) = true) →
    content.foldl (stepLine use) st = { st with buf := st.buf ++ content } := by
  intro content
  induction content with
  | nil =>
    intro st sec0 _ _ _ _
    show st = { st with buf := st.buf ++ [] }
    simp
  | cons l rest ih =>
    intro st sec0 h1 h2 hsec hmf
    rw [List.foldl_cons,
      stepLine_buffer use st l sec0 h1 h2 hsec (hmf l (List.mem_cons_self l rest)),
      ih { st with buf := st.buf ++ [l] } sec0 h1 h2 hsec
        (fun l2 hl2 => hmf l2 (List.mem_cons_of_mem l hl2))]
    simp

theorem midState_cur_isSome (use : Use) (st : PState) (pp' : PPromt)
    (out : List TPromt) (h : midState use st pp' out) : st.cur.isSome = true := by
  obtain ⟨_, _, pp, hcur, _⟩ := h
  rw [hcur]
  rfl

theorem midState_flushCur (use : Use) (st : PState) (pp' : PPromt)
    (out : List TPromt) (h : midState use st pp' out) : flushCur use st = pp' := by
  obtain ⟨_, _, pp, hcur, hfl⟩ := h
  unfold flushCur
  rw [hcur]
  exact hfl

theorem block_system (use : Use) (st : PState) (pp' : PPromt) (out : List TPromt)
    (s : String) (hmid : midState use st pp' out) (hcanon : textCanon s) :
    midState use (("$$system".data :: splitNl s.data).foldl (stepLine use) st)
      { pp' with system := some s } out := by
  obtain ⟨hct, hcl⟩ := hcanon
  obtain ⟨hib, hout, pp, hcur, hfl⟩ := hmid
  rw [List.foldl_cons, stepLine_system use st hib (by rw [hcur]; rfl),
    midState_flushCur use st pp' out ⟨hib, hout, pp, hcur, hfl⟩]
  rw [foldl_buffer use (splitNl s.data)
    { st with cur := some pp', sec := some Sect.system, segName := none, buf := [] }
    Sect.system hib rfl rfl hcl]
  refine ⟨hib, hout, pp', rfl, ?_⟩
  show (if ([] ++ splitNl s.data : List (List Char)) ≠ []
    then finishSection pp' .system ([] ++ splitNl s.data) use none else pp')
    = { pp' with system := some s }
  rw [if_pos (by simp [splitNl_ne_nil])]
  show { pp' with system := some (String.mk (trimC (joinNl ([] ++ splitNl s.data)))) }
    = { pp' with system := some s }
  rw [show ([] ++ splitNl s.data : List (List Char)) = splitNl s.data from rfl,
    joinNl_splitNl, hct, stringMk_data]

theorem block_user (use : Use) (st : PState) (pp' : PPromt) (out : List TPromt)
    (s : String) (hmid : midState use st pp' out) (hcanon : textCanon s) :
    midState use (("$$user".data :: splitNl s.data).foldl (stepLine use) st)
      { pp' with user := some s } out := by
  obtain ⟨hct, hcl⟩ := hcanon
  obtain ⟨hib, hout, pp, hcur, hfl⟩ := hmid
  rw [List.foldl_cons, stepLine_user use st hib (by rw [hcur]; rfl),
    midState_flushCur use st pp' out ⟨hib, hout, pp, hcur, hfl⟩]
  rw [foldl_buffer use (splitNl s.data)
    { st with cur := some pp', sec := some Sect.user, segName := none, buf := [] }
    Sect.user hib rfl rfl hcl]
  refine ⟨hib, hout, pp', rfl, ?_⟩
  show (if ([] ++ splitNl s.data : List (List Char)) ≠ []
    then finishSection pp' .user ([] ++ splitNl s.data) use none else pp')
    = { pp' with user := some s }
  rw [if_pos (by simp [splitNl_ne_nil])]
  show { pp' with user := some (String.mk (trimC (joinNl ([] ++ splitNl s.data)))) }
    = { pp' with user := some s }
  rw [show ([] ++ splitNl s.data : List (List Char)) = splitNl s.data from rfl,
    joinNl_splitNl, hct, stringMk_data]

theorem block_options (use : Use) (st : PState) (pp' : PPromt) (out : List TPromt)
    (os : TPromtOptions) (hmid : midState use st pp' out)
    (hcanon : optsCanon use os) (hne : os ≠ [])
    (h01 : ∀ kv ∈ os, ¬(kv.2 = some (.jnum 0)) ∧ ¬(kv.2 = some (.jnum 1))) :
    midState use
      (("$$options".data :: os.map (fun kv => serializeOptionValue kv.1 kv.2)).foldl
        (stepLine use) st)
      { pp' with options := some os } out := by
  obtain ⟨hib, hout, pp, hcur, hfl⟩ := hmid
  have hkeys : ∀ kv ∈ os, keyOk kv.1 = true := by
    obtain ⟨raw, _, hos⟩ := hcanon
    intro kv h
    exact pop_keys_keyOk use raw false kv (hos ▸ h)
  have hvals : ∀ kv ∈ os, ∃ v, kv.2 = some v ∧ structOk v := by
    obtain ⟨raw, hdok, hos⟩ := hcanon
    intro kv h
    exact pop_vals_structOk use raw hdok kv (hos ▸ h)
  have hmf : ∀ l ∈ os.map (fun kv => serializeOptionValue kv.1 kv.2),
      mfT (trimC l) = true := by
    intro l hl
    rw [List.mem_map] at hl
    obtain ⟨kv, hkv, he⟩ := hl
    obtain ⟨v, hw, hsv⟩ := hvals kv hkv
    obtain ⟨c, t, heq, hsp, hdol, _, _, _⟩ := keyOk_parts kv.1 (hkeys kv hkv)
    rw [← he, hw, serializeOptionValue_some, optLine_trimC kv.1 v (hkeys kv hkv) hsv]
    apply mfT_of_head_ne
    intro c2 hc2
    rw [heq] at hc2
    rw [show ((c :: t) ++ '=' :: optValRepr v).head? = some c from rfl] at hc2
    rw [← Option.some.inj hc2]
    exact hdol
  have hmapne : os.map (fun kv => serializeOptionValue kv.1 kv.2) ≠ [] := by
    intro he
    rw [List.map_eq_nil_iff] at he
    exact hne he
  rw [List.foldl_cons, stepLine_options use st hib (by rw [hcur]; rfl),
    midState_flushCur use st pp' out ⟨hib, hout, pp, hcur, hfl⟩]
  rw [foldl_buffer use (os.map (fun kv => serializeOptionValue kv.1 kv.2))
    { st with cur := some pp', sec := some Sect.options, segName := none, buf := [] }
    Sect.options hib rfl rfl hmf]
  refine ⟨hib, hout, pp', rfl, ?_⟩
  show (if ([] ++ os.map (fun kv => serializeOptionValue kv.1 kv.2) : List (List Char)) ≠ []
    then finishSection pp' .options
      ([] ++ os.map (fun kv => serializeOptionValue kv.1 kv.2)) use none else pp')
    = { pp' with options := some os }
  rw [if_pos (by simpa using hmapne)]
  show { pp' with options := some (PromtOptionsParse use (parseOptionsToObject
    (trimC (joinNl ([] ++ os.map (fun kv => serializeOptionValue kv.1 kv.2))))) false) }
    = { pp' with options := some os }
  rw [show ([] ++ os.map (fun kv => serializeOptionValue kv.1 kv.2) : List (List Char))
      = os.map (fun kv => serializeOptionValue kv.1 kv.2) from rfl,
    options_reproduce use os hcanon hne h01]

theorem block_grammar (use : Use) (st : PState) (pp' : PPromt) (out : List TPromt)
    (g : String) (hmid : midState use st pp' out) (hcanon : gramCanon g) :
    midState use (("$$grammar".data :: splitNl g.data).foldl (stepLine use) st)
      { pp' with grammar := some g } out := by
  obtain ⟨v, hdv, hrv⟩ := hcanon
  obtain ⟨hib, hout, pp, hcur, hfl⟩ := hmid
  have hcl : ∀ l ∈ splitNl g.data, mfT (trimC l) = true := by
    intro l hl
    rw [hrv] at hl
    exact mfT_of_goodL l (renderPretty_lines_good v hdv l hl)
  have hct : trimC g.data = g.data := by
    rw [hrv]
    exact trimC_renderJ gapPretty [' '] 0 v hdv
  rw [List.foldl_cons, stepLine_grammar use st hib (by rw [hcur]; rfl),
    midState_flushCur use st pp' out ⟨hib, hout, pp, hcur, hfl⟩]
  rw [foldl_buffer use (splitNl g.data)
    { st with cur := some pp', sec := some Sect.grammar, segName := none, buf := [] }
    Sect.grammar hib rfl rfl hcl]
  refine ⟨hib, hout, pp', rfl, ?_⟩
  show (if ([] ++ splitNl g.data : List (List Char)) ≠ []
    then finishSection pp' .grammar ([] ++ splitNl g.data) use none else pp')
    = { pp' with grammar := some g }
  rw [if_pos (by simp [splitNl_ne_nil])]
  have hcontent : trimC (joinNl ([] ++ splitNl g.data)) = g.data := by
    rw [show ([] ++ splitNl g.data : List (List Char)) = splitNl g.data from rfl,
      joinNl_splitNl, hct]
  show (if GrammarCheck (trimC (joinNl ([] ++ splitNl g.data))) ≠ [] then
    { pp' with grammar := some (String.mk (GrammarCheck
      (trimC (joinNl ([] ++ splitNl g.data))))) } else pp')
    = { pp' with grammar := some g }
  have hgc : GrammarCheck (trimC (joinNl ([] ++ splitNl g.data))) = g.data := by
    rw [hcontent, hrv]
    exact grammarCheck_renderPretty v hdv
  rw [hgc, if_pos (by
    rw [hrv]
    obtain ⟨c, t, hctv, _⟩ := renderJ_headSp gapPretty [' '] 0 v hdv
    rw [show renderPretty v = renderJ gapPretty [' '] 0 v from rfl, hctv]
    simp), stringMk_data]

theorem block_segment1 (use : Use) (st : PState) (pp' : PPromt) (out : List TPromt)
    (nm sv : String) (acc : List (String × String)) (hmid : midState use st pp' out)
    (hnm1 : nm ≠ "") (hnm2 : trimC nm.data = nm.data)
    (hsv : textCanon sv) (hacc : pp'.segment.getD [] = acc)
    (hfreshacc : ∀ kv ∈ acc, kv.1 ≠ nm) :
    midState use
      ((("$$segment=".data ++ nm.data) :: splitNl sv.data).foldl (stepLine use) st)
      { pp' with segment := some (acc ++ [(nm, sv)]) } out := by
  obtain ⟨hct, hcl⟩ := hsv
  obtain ⟨hib, hout, pp, hcur, hfl⟩ := hmid
  rw [List.foldl_cons, stepLine_segment use st nm hib (by rw [hcur]; rfl) hnm2 hnm1,
    midState_flushCur use st pp' out ⟨hib, hout, pp, hcur, hfl⟩]
  rw [foldl_buffer use (splitNl sv.data)
    { st with cur := some pp', sec := some Sect.segment, segName := some nm, buf := [] }
    Sect.segment hib rfl rfl hcl]
  refine ⟨hib, hout, pp', rfl, ?_⟩
  show (if ([] ++ splitNl sv.data : List (List Char)) ≠ []
    then finishSection pp' .segment ([] ++ splitNl sv.data) use (some nm) else pp')
    = { pp' with segment := some (acc ++ [(nm, sv)]) }
  rw [if_pos (by simp [splitNl_ne_nil])]
  show (if nm ≠ "" then { pp' with segment := some (insertOrUpdate (pp'.segment.getD [])
    nm (String.mk (trimC (joinNl ([] ++ splitNl sv.data))))) } else pp')
    = { pp' with segment := some (acc ++ [(nm, sv)]) }
  rw [if_pos hnm1,
    show ([] ++ splitNl sv.data : List (List Char)) = splitNl sv.data from rfl,
    joinNl_splitNl, hct, stringMk_data, hacc, insertOrUpdate_fresh acc nm sv hfreshacc]

theorem segs_replay (use : Use) : ∀ (segs : List (String × String)) (st : PState)
    (pp' : PPromt) (out : List TPromt) (acc : List (String × String)),
    midState use st pp' out →
    pp'.segment.getD [] = acc →
    (∀ kv ∈ segs, kv.1 ≠ "" ∧ trimC kv.1.data = kv.1.data ∧ '\n' ∉ kv.1.data
      ∧ textCanon kv.2) →
    ((acc ++ segs).map Prod.fst).Nodup →
    midState use
      ((segs.flatMap (fun kv => ("$$segment=".data ++ kv.1.data)
        :: splitNl kv.2.data)).foldl (stepLine use) st)
      (if segs = [] then pp' else { pp' with segment := some (acc ++ segs) }) out := by
  intro segs
  induction segs with
  | nil =>
    intro st pp' out acc hmid _ _ _
    simpa using hmid
  | cons kv rest ih =>
    intro st pp' out acc hmid hacc hcanon hnodup
    obtain ⟨h1, h2, h3, h4⟩ := hcanon kv (List.mem_cons_self kv rest)
    have hfresh : ∀ kv2 ∈ acc, kv2.1 ≠ kv.1 := by
      intro kv2 hkv2 he
      rw [List.map_append, List.nodup_append] at hnodup
      apply hnodup.2.2 (List.mem_map_of_mem Prod.fst hkv2)
      rw [List.map_cons, he]
      exact List.mem_cons_self _ _
    rw [List.flatMap_cons, List.foldl_append]
    have hstep := block_segment1 use st pp' out kv.1 kv.2 acc hmid h1 h2 h4 hacc hfresh
    have hih := ih ((("$$segment=".data ++ kv.1.data) :: splitNl kv.2.data).foldl
        (stepLine use) st)
      { pp' with segment := some (acc ++ [(kv.1, kv.2)]) } out (acc ++ [(kv.1, kv.2)])
      hstep rfl (fun kv2 hkv2 => hcanon kv2 (List.mem_cons_of_mem kv hkv2))
      (by rw [List.append_assoc]; exact hnodup)
    rw [if_neg (by simp : ¬(kv :: rest = []))]
    cases rest with
    | nil =>
      simp only [List.flatMap_nil, List.foldl_nil] at hih ⊢
      simpa using hih
    | cons r rs =>
      rw [if_neg (by simp)] at hih
      have hl : (acc ++ [(kv.1, kv.2)]) ++ r :: rs = acc ++ kv :: r :: rs := by
        rw [List.append_assoc]
        rfl
      rw [hl] at hih
      exact hih

theorem end_replay (use : Use) (st : PState) (pp' : PPromt) (out : List TPromt)
    (u : String) (hmid : midState use st pp' out) (hu : pp'.user = some u)
    (hune : u ≠ "") :
    stepLine use st "$$end".data = ⟨false, none, none, none, [],
      out ++ [⟨pp'.system, u, pp'.options, pp'.segment, pp'.grammar⟩]⟩ := by
  obtain ⟨hib, hout, pp, hcur, hfl⟩ := hmid
  rw [stepLine_end2]
  have he : emitted use st
      = out ++ [⟨pp'.system, u, pp'.options, pp'.segment, pp'.grammar⟩] := by
    rw [← hout]
    simp [emitted, hcur, hib, hfl, hu, hune]
  rw [he]

theorem segStream_conv (segs : List (String × String))
    (h : ∀ kv ∈ segs, '\n' ∉ kv.1.data) :
    ((segs.map (fun kv => ["$$segment=".data ++ kv.1.data, kv.2.data])).flatten).flatMap
        splitNl
      = segs.flatMap (fun kv => ("$$segment=".data ++ kv.1.data) :: splitNl kv.2.data) := by
  induction segs with
  | nil => rfl
  | cons kv rest ih =>
    have hm : '\n' ∉ "$$segment=".data ++ kv.1.data := by
      intro hmem
      rcases List.mem_append.mp hmem with h1 | h2
      · exact absurd h1 (by decide)
      · exact h kv (List.mem_cons_self kv rest) h2
    have hA : (["$$segment=".data ++ kv.1.data, kv.2.data] : List (List Char)).flatMap
        splitNl = ("$$segment=".data ++ kv.1.data) :: splitNl kv.2.data := by
      rw [List.flatMap_cons, List.flatMap_cons, List.flatMap_nil, List.append_nil,
        splitNl_no_nl _ hm]
      rfl
    rw [List.map_cons, List.flatten_cons, List.flatMap_append, hA,
      ih (fun kv2 h2 => h kv2 (List.mem_cons_of_mem kv h2)), List.flatMap_cons]

theorem record_replay (use : Use) (p : TPromt) (out : List TPromt)
    (hcanon : recCanon use p) (hg : goodR p = true) :
    ((recordEntries p).flatMap splitNl).foldl (stepLine use)
        ⟨false, none, none, none, [], out⟩
      = ⟨false, none, none, none, [], out ++ [p]⟩ := by
  obtain ⟨hcsys, ⟨hcuser, hcune⟩, hcopts, hcsegs, hcgram⟩ := hcanon
  have hg2 := hg
  unfold goodR at hg2
  rw [Bool.and_eq_true] at hg2
  have hgsys : p.system ≠ some "" := by
    have h := hg2.2
    simpa using h
  have hgopt : ∀ os, p.options = some os →
      os ≠ [] ∧ ∀ kv ∈ os, ¬(kv.2 = some (.jnum 0)) ∧ ¬(kv.2 = some (.jnum 1)) := by
    intro os hos
    have h := hg2.1
    rw [hos] at h
    simp only [Bool.and_eq_true, Bool.not_eq_true', decide_eq_false_iff_not,
      List.all_eq_true] at h
    exact ⟨h.1, fun kv hkv => h.2 kv hkv⟩
  have hsysne : ∀ s, p.system = some s → s ≠ "" := by
    intro s hs he
    exact hgsys (by rw [hs, he])
  have hgramne : ∀ g, p.grammar = some g → g ≠ "" := by
    intro g hgg he
    obtain ⟨v, hdv, hrv⟩ := hcgram g hgg
    obtain ⟨c, t, hct, _⟩ := renderJ_headSp gapPretty [' '] 0 v hdv
    rw [he, show ("" : String).data = [] from rfl,
      show renderPretty v = renderJ gapPretty [' '] 0 v from rfl, hct] at hrv
    exact List.noConfusion hrv
  have stageOpt : ∀ st, midState use st {} out → midState use
      (((match p.options with
         | some os => "$$options".data :: os.map (fun kv : String × Option JVal => serializeOptionValue kv.1 kv.2)
         | none => []).flatMap splitNl).foldl (stepLine use) st)
      ⟨none, none, p.options, none, none⟩ out := by
    intro st hmid
    cases hop : p.options with
    | none => exact hmid
    | some os =>
      show midState use
        ((("$$options".data :: os.map (fun kv => serializeOptionValue kv.1 kv.2)).flatMap
          splitNl).foldl (stepLine use) st) ⟨none, none, some os, none, none⟩ out
      obtain ⟨hosne, hos01⟩ := hgopt os hop
      have hcos := hcopts os hop
      have hlines : ∀ l ∈ os.map (fun kv => serializeOptionValue kv.1 kv.2),
          '\n' ∉ l := by
        obtain ⟨raw, hdok, hosr⟩ := hcos
        intro l hl
        rw [List.mem_map] at hl
        obtain ⟨kv, hkv, he⟩ := hl
        have hk := pop_keys_keyOk use raw false kv (hosr ▸ hkv)
        obtain ⟨v, hv, hsv⟩ := pop_vals_structOk use raw hdok kv (hosr ▸ hkv)
        rw [← he, hv, serializeOptionValue_some]
        exact optLine_no_nl kv.1 v hk hsv
      have hconv : ("$$options".data
            :: os.map (fun kv => serializeOptionValue kv.1 kv.2)).flatMap splitNl
          = "$$options".data :: os.map (fun kv => serializeOptionValue kv.1 kv.2) := by
        apply flatMap_splitNl_id
        intro x hx
        rcases List.mem_cons.mp hx with h | h
        · rw [h]; decide
        · exact hlines x h
      rw [hconv]
      exact block_options use st {} out os hmid hcos hosne hos01
  have stageSys : ∀ st, midState use st ⟨none, none, p.options, none, none⟩ out →
      midState use
      (((match p.system with
         | some s => if s ≠ "" then ["$$system".data, s.data] else []
         | none => []).flatMap splitNl).foldl (stepLine use) st)
      ⟨p.system, none, p.options, none, none⟩ out := by
    intro st hmid
    cases hs : p.system with
    | none => exact hmid
    | some s =>
      show midState use
        (((if s ≠ "" then (["$$system".data, s.data] : List (List Char)) else []).flatMap
          splitNl).foldl (stepLine use) st) ⟨some s, none, p.options, none, none⟩ out
      have hsne : s ≠ "" := hsysne s hs
      have hconv : (["$$system".data, s.data] : List (List Char)).flatMap splitNl
          = "$$system".data :: splitNl s.data := by
        rw [List.flatMap_cons, List.flatMap_cons, List.flatMap_nil, List.append_nil,
          splitNl_no_nl _ (by decide)]
        rfl
      rw [if_pos hsne, hconv]
      exact block_system use st ⟨none, none, p.options, none, none⟩ out s hmid
        (hcsys s hs)
  have stageUser : ∀ st, midState use st ⟨p.system, none, p.options, none, none⟩ out →
      midState use
      (((["$$user".data, p.user.data] : List (List Char)).flatMap splitNl).foldl
        (stepLine use) st)
      ⟨p.system, some p.user, p.options, none, none⟩ out := by
    intro st hmid
    have hconv : (["$$user".data, p.user.data] : List (List Char)).flatMap splitNl
        = "$$user".data :: splitNl p.user.data := by
      rw [List.flatMap_cons, List.flatMap_cons, List.flatMap_nil, List.append_nil,
        splitNl_no_nl _ (by decide)]
      rfl
    rw [hconv]
    exact block_user use st ⟨p.system, none, p.options, none, none⟩ out p.user hmid
      hcuser
  have stageGram : ∀ st,
      midState use st ⟨p.system, some p.user, p.options, none, none⟩ out →
      midState use
      (((match p.grammar with
         | some g => if g ≠ "" then ["$$grammar".data, g.data] else []
         | none => []).flatMap splitNl).foldl (stepLine use) st)
      ⟨p.system, some p.user, p.options, none, p.grammar⟩ out := by
    intro st hmid
    cases hgg : p.grammar with
    | none => exact hmid
    | some g =>
      show midState use
        (((if g ≠ "" then (["$$grammar".data, g.data] : List (List Char)) else []).flatMap
          splitNl).foldl (stepLine use) st)
        ⟨p.system, some p.user, p.options, none, some g⟩ out
      have hgne : g ≠ "" := hgramne g hgg
      have hconv : (["$$grammar".data, g.data] : List (List Char)).flatMap splitNl
          = "$$grammar".data :: splitNl g.data := by
        rw [List.flatMap_cons, List.flatMap_cons, List.flatMap_nil, List.append_nil,
          splitNl_no_nl _ (by decide)]
        rfl
      rw [if_pos hgne, hconv]
      exact block_grammar use st ⟨p.system, some p.user, p.options, none, none⟩ out g
        hmid (hcgram g hgg)
  have stageSeg : ∀ st,
      midState use st ⟨p.system, some p.user, p.options, none, p.grammar⟩ out →
      midState use
      (((match p.segment with
         | some segs =>
           (segs.map (fun kv : String × String => ["$$segment=".data ++ kv.1.data, kv.2.data])).flatten
         | none => []).flatMap splitNl).foldl (stepLine use) st)
      ⟨p.system, some p.user, p.options, p.segment, p.grammar⟩ out := by
    intro st hmid
    cases hsg : p.segment with
    | none => exact hmid
    | some segs =>
      show midState use
        ((((segs.map (fun kv => ["$$segment=".data ++ kv.1.data, kv.2.data])).flatten).flatMap
          splitNl).foldl (stepLine use) st)
        ⟨p.system, some p.user, p.options, some segs, p.grammar⟩ out
      obtain ⟨hsegne, hsegnd, hsegmem⟩ := hcsegs segs hsg
      rw [segStream_conv segs (fun kv h => (hsegmem kv h).2.2.1)]
      have h := segs_replay use segs st
        ⟨p.system, some p.user, p.options, none, p.grammar⟩ out [] hmid rfl
        (fun kv h2 => hsegmem kv h2) hsegnd
      rw [if_neg hsegne, List.nil_append] at h
      exact h
  rw [show (recordEntries p).flatMap splitNl
      = ((((((((["$$begin".data] : List (List Char))
        ++ (match p.options with
            | some os =>
              "$$options".data :: os.map (fun kv : String × Option JVal => serializeOptionValue kv.1 kv.2)
            | none => []))
        ++ (match p.system with
            | some s => if s ≠ "" then ["$$system".data, s.data] else []
            | none => []))
        ++ ["$$user".data, p.user.data])
        ++ (match p.grammar with
            | some g => if g ≠ "" then ["$$grammar".data, g.data] else []
            | none => []))
        ++ (match p.segment with
            | some segs =>
              (segs.map (fun kv : String × String => ["$$segment=".data ++ kv.1.data, kv.2.data])).flatten
            | none => []))
        ++ ["$$end".data]).flatMap splitNl) from rfl]
  rw [List.flatMap_append, List.flatMap_append, List.flatMap_append,
    List.flatMap_append, List.flatMap_append, List.flatMap_append]
  rw [List.foldl_append, List.foldl_append, List.foldl_append,
    List.foldl_append, List.foldl_append, List.foldl_append]
  have hmid1 : midState use
      (((["$$begin".data] : List (List Char)).flatMap splitNl).foldl (stepLine use)
        ⟨false, none, none, none, [], out⟩) {} out := by
    rw [show (["$$begin".data] : List (List Char)).flatMap splitNl
        = ["$$begin".data] from flatMap_splitNl_id _ (by decide),
      List.foldl_cons, List.foldl_nil, stepLine_begin, emitted_nocur use _ rfl]
    exact ⟨rfl, rfl, {}, rfl, rfl⟩
  have hmid6 := stageSeg _ (stageGram _ (stageUser _ (stageSys _ (stageOpt _ hmid1))))
  rw [show (["$$end".data] : List (List Char)).flatMap splitNl
      = ["$$end".data] from flatMap_splitNl_id _ (by decide),
    List.foldl_cons, List.foldl_nil,
    end_replay use _ ⟨p.system, some p.user, p.options, p.segment, p.grammar⟩ out
      p.user hmid6 rfl hcune]

theorem flatten_map_flatMap {σ τ ρ : Type} (xs : List σ) (f : σ → List τ)
    (g : τ → List ρ) :
    ((xs.map f).flatten).flatMap g = xs.flatMap (fun x => (f x).flatMap g) := by
  induction xs with
  | nil => rfl
  | cons x t ih =>
    rw [List.map_cons, List.flatten_cons, List.flatMap_append, ih, List.flatMap_cons]

theorem replay_all (use : Use) : ∀ (l : List TPromt) (out : List TPromt),
    (∀ r ∈ l, recCanon use r) → (∀ r ∈ l, goodR r = true) →
    (l.flatMap (fun p => (recordEntries p).flatMap splitNl)).foldl (stepLine use)
        ⟨false, none, none, none, [], out⟩
      = ⟨false, none, none, none, [], out ++ l⟩ := by
  intro l
  induction l with
  | nil =>
    intro out _ _
    simp
  | cons p t ih =>
    intro out hcanon hgood
    rw [List.flatMap_cons, List.foldl_append,
      record_replay use p out (hcanon p (List.mem_cons_self p t))
        (hgood p (List.mem_cons_self p t)),
      ih (out ++ [p]) (fun r hr => hcanon r (List.mem_cons_of_mem p hr))
        (fun r hr => hgood r (List.mem_cons_of_mem p hr))]
    simp

/-- C1: the spec claims load-store-load is the identity on the records of
the first load for every input.  That is false in general (a numeric
option value `1` re-parses as the boolean `true`, an empty options record
serializes as a bare `$$options` block that parses back to no options, and
a present-but-empty system text is dropped).  The corrected statement:
whenever every record of the first parse has a nonempty options record
free of the numeric values `0` and `1` (when options are present) and no
empty system text, re-parsing the serialized form reproduces the records
exactly, for either profile. -/
theorem c1_roundtrip_normalized (use : Use) (raw : String)
    (hgood : ∀ r ∈ PromtLoad raw use, goodR r = true) :
    PromtLoad (PromtStore (PromtLoad raw use)) use = PromtLoad raw use := by
  by_cases hP : PromtLoad raw use = []
  · rw [hP]
    show PromtLoad (PromtStore []) use = []
    cases use <;> rfl
  · have hcanon := promtLoad_canon raw use
    show parseLines use (splitNl (joinNl (serializeEntries (PromtLoad raw use))))
      = PromtLoad raw use
    rw [serializeEntries_eq]
    have hne : ((PromtLoad raw use).map recordEntries).flatten ≠ [] := by
      obtain ⟨q, rest, hqr⟩ := List.exists_cons_of_ne_nil hP
      rw [hqr, List.map_cons, List.flatten_cons]
      intro hflat
      rw [List.append_eq_nil] at hflat
      have h1 := hflat.1
      unfold recordEntries at h1
      simp at h1
    rw [splitNl_joinNl_flat _ hne, flatten_map_flatMap]
    show emitted use
      (((PromtLoad raw use).flatMap (fun p => (recordEntries p).flatMap splitNl)).foldl
        (stepLine use) ⟨false, none, none, none, [], []⟩) = PromtLoad raw use
    rw [replay_all use (PromtLoad raw use) [] hcanon hgood,
      emitted_nocur use _ rfl]
    simp

theorem c1_counterexample :
    ¬(PromtLoad (PromtStore (PromtLoad
        "$$begin\n$$system\n \n$$user\nhi\n$$options\nmaxTokens=1.0\nmirostat=0.0\n$$end\n$$begin\n$$user\nyo\n$$options\ngarbage\n$$end"
        .core)) .core
      = PromtLoad
        "$$begin\n$$system\n \n$$user\nhi\n$$options\nmaxTokens=1.0\nmirostat=0.0\n$$end\n$$begin\n$$user\nyo\n$$options\ngarbage\n$$end"
        .core) := by
  decide

theorem c1_witness :
    (∀ r ∈ PromtLoad
        "$$begin\n$$options\ntemperature=0.7\nmaxTokens=2048\n$$system\nYou are a helpful assistant\n$$user\nHello, world!\n$$end"
        .core, goodR r = true)
    ∧ PromtLoad (PromtStore (PromtLoad
        "$$begin\n$$options\ntemperature=0.7\nmaxTokens=2048\n$$system\nYou are a helpful assistant\n$$user\nHello, world!\n$$end"
        .core)) .core
      = PromtLoad
        "$$begin\n$$options\ntemperature=0.7\nmaxTokens=2048\n$$system\nYou are a helpful assistant\n$$user\nHello, world!\n$$end"
        .core :=
  ⟨by decide, c1_roundtrip_normalized .core
    "$$begin\n$$options\ntemperature=0.7\nmaxTokens=2048\n$$system\nYou are a helpful assistant\n$$user\nHello, world!\n$$end"
    (by decide)⟩

end VvPromt
